import Mathlib

/-! Verification of the BPMN fragmentation/masking transformer (`src/transform.js`).

The document model embeds the BPMN process elements the transformer reads and
mutates: tasks (the task-like activities, with their optional numeric
`cpl:privacy` attribute), sequence flows (with the optional numeric
`cpl:coupling` attribute), associations, text annotations, groups, and the
DI layer (shapes, plus a flag recording whether a `BPMNPlane` exists, since
`ensurePlane` creates one when absent).  Numeric attribute values are modelled
as rationals; an absent or non-numeric attribute (`parseFloat` giving `NaN`)
is `none`.  Geometry (bounds, waypoints) is out of scope and not modelled.

Elements are identified by their XML `id` attribute: the well-formedness
hypotheses of the theorems (`Nodup` of id lists) state that ids are unique, as
XML requires; under them, removal-by-id is faithful to the DOM `removeChild`
of the specific element the source located. -/

namespace BPTrans

/-- An activity (`bpmn:task`, `bpmn:userTask`, ... — the elements returned by
`getTaskList`). -/
structure Task where
  id : String
  privacy : Option ℚ
deriving DecidableEq, Repr

/-- A `bpmn:sequenceFlow`. -/
structure Flow where
  id : String
  src : String
  tgt : String
  coupling : Option ℚ
deriving DecidableEq, Repr

/-- A `bpmn:association`. -/
structure Assoc where
  id : String
  src : String
  tgt : String
deriving DecidableEq, Repr

/-- A `bpmn:textAnnotation`. -/
structure Annot where
  id : String
deriving DecidableEq, Repr

/-- A `bpmn:group`; `fragAttr` records presence of the `cpl:fragmentId`
attribute. -/
structure Group where
  id : String
  fragAttr : Bool
deriving DecidableEq, Repr

/-- A `bpmndi:BPMNShape`; `elem` is its `bpmnElement` attribute. -/
structure Shape where
  elem : String
deriving DecidableEq, Repr

/-- A `bpmndi:BPMNEdge`; `elem` is its `bpmnElement` attribute. -/
structure DiEdge where
  elem : String
deriving DecidableEq, Repr

/-- The parts of the BPMN document the transformer reads and mutates. -/
structure Doc where
  tasks : List Task
  flows : List Flow
  assocs : List Assoc
  annots : List Annot
  groups : List Group
  shapes : List Shape
  diEdges : List DiEdge
  hasPlane : Bool
deriving DecidableEq, Repr

/-! ## Union-find (`unionFind` in the source)

The JS implementation keeps a plain array `parent`, a path-compressing
recursive `find`, `unite` via `parent[find(b)] = find(a)`, and `groups`
collecting every index under its root in first-encountered root order.
Recursion is modelled with fuel `parent.length`, which we prove sufficient
for any forest. -/

/-- `parent[x]`; out-of-range indices are treated as fixpoints (never hit by
the source, which only passes indices `0..n-1`). -/
def parentOf (p : List Nat) (x : Nat) : Nat := p.getD x x

/-- Iterated parent lookup. -/
def iterP (p : List Nat) : Nat → Nat → Nat
  | 0, x => x
  | k+1, x => iterP p k (parentOf p x)

/-- `x` is a root: `parent[x] === x`. -/
def IsRootP (p : List Nat) (x : Nat) : Prop := parentOf p x = x

instance (p : List Nat) (x : Nat) : Decidable (IsRootP p x) :=
  inferInstanceAs (Decidable (_ = _))

/-- `r` is the root above `x`. -/
def RootOf (p : List Nat) (x r : Nat) : Prop :=
  ∃ k, iterP p k x = r ∧ IsRootP p r

/-- Root computation without compression (fuel-based). -/
def ufRoot (p : List Nat) : Nat → Nat → Nat
  | 0, x => x
  | fuel+1, x => if parentOf p x = x then x else ufRoot p fuel (parentOf p x)

/-- `find` with full path compression, as in the source
(`parent[x] === x ? x : (parent[x] = find(parent[x]))`); returns the root and
the updated parent array. -/
def ufFindAux (p : List Nat) : Nat → Nat → Nat × List Nat
  | 0, x => (x, p)
  | fuel+1, x =>
    if parentOf p x = x then (x, p)
    else
      let r := ufFindAux p fuel (parentOf p x)
      (r.1, r.2.set x r.1)

/-- `find` run with fuel `parent.length` (enough for any forest). -/
def ufFind (p : List Nat) (x : Nat) : Nat × List Nat := ufFindAux p p.length x

/-- `unite`: `a = find(a); b = find(b); if (a !== b) parent[b] = a`. -/
def ufUnite (p : List Nat) (a b : Nat) : List Nat :=
  let fa := ufFind p a
  let fb := ufFind fa.2 b
  if fa.1 ≠ fb.1 then fb.2.set fb.1 fa.1 else fb.2

/-- Append `i` to the bucket keyed by root `r` (a JS `Map` keyed by roots,
insertion order preserved). -/
def addToGroup : List (Nat × List Nat) → Nat → Nat → List (Nat × List Nat)
  | [], r, i => [(r, [i])]
  | (r', l) :: rest, r, i =>
    if r' = r then (r', l ++ [i]) :: rest else (r', l) :: addToGroup rest r i

/-- `groups()`: run `find(i)` for every index (compression persists across
calls), bucket by root, return the buckets. -/
def ufGroups (p : List Nat) : List (List Nat) :=
  ((List.range p.length).foldl
    (fun st i =>
      let f := ufFind st.1 i
      (f.2, addToGroup st.2 f.1 i))
    (p, [])).2.map Prod.snd

/-! ## Fragmentation (`fragmentByCoupling`, clustering part)

The claim under verification (C2) concerns the partition of activity indices,
so the embedding covers the clustering slice of `fragmentByCoupling`
(lines 236–252): index lookup, the weight-filtered union pass, `uf.groups()`,
and the singleton post-filter.  The materializer side effects (groups, DI,
annotations) are geometry/output and not needed by any claim. -/

/-- `idToIdx`: a JS `Map` built from `(id, index)` pairs keeps the last entry
per key. -/
def lookupIdx (tasks : List Task) (s : String) : Option Nat :=
  (tasks.enum.reverse.find? (fun q => decide (q.2.id = s))).map (·.1)

/-- Process one flow: skip when the weight is absent or below threshold or an
endpoint is not a known task, otherwise unite the endpoint indices. -/
def coupleStep (tasks : List Task) (threshold : ℚ) (p : List Nat) (f : Flow) :
    List Nat :=
  match f.coupling with
  | none => p
  | some w =>
    if w ≥ threshold then
      match lookupIdx tasks f.src, lookupIdx tasks f.tgt with
      | some i, some j => ufUnite p i j
      | _, _ => p
    else p

/-- The union-find parent array after processing all flows. -/
def coupleParent (tasks : List Task) (flows : List Flow) (threshold : ℚ) :
    List Nat :=
  flows.foldl (coupleStep tasks threshold) (List.range tasks.length)

/-- The clusters (`uf.groups()`), before the singleton filter. -/
def fragmentComps (tasks : List Task) (flows : List Flow) (threshold : ℚ) :
    List (List Nat) :=
  ufGroups (coupleParent tasks flows threshold)

/-- The clustering result of `fragmentByCoupling`: the clusters, with
singleton classes dropped by a post-filter when `includeSingletons` is off. -/
def fragmentByCoupling (tasks : List Task) (flows : List Flow) (threshold : ℚ)
    (includeSingletons : Bool) : List (List Nat) :=
  let comps := fragmentComps tasks flows threshold
  if includeSingletons then comps else comps.filter (fun g => 1 < g.length)

/-! ### Union-find correctness -/

/-- All in-range parent pointers stay in range. -/
def BoundedP (p : List Nat) : Prop :=
  ∀ x, x < p.length → parentOf p x < p.length

/-- Every in-range node reaches a root: the parent array is a forest. -/
def ForestP (p : List Nat) : Prop :=
  ∀ x, x < p.length → ∃ k, IsRootP p (iterP p k x)

theorem iterP_add (p : List Nat) (k m x : Nat) :
    iterP p (k + m) x = iterP p m (iterP p k x) := by
  induction k generalizing x with
  | zero => simp [iterP]
  | succ k ih =>
    have : k + 1 + m = (k + m) + 1 := by omega
    rw [this, iterP, iterP, ih]

theorem iterP_of_isRoot {p : List Nat} {r : Nat} (h : IsRootP p r) (k : Nat) :
    iterP p k r = r := by
  induction k with
  | zero => rfl
  | succ k ih => rw [iterP, h, ih]

theorem parentOf_lt {p : List Nat} (hb : BoundedP p) {x : Nat}
    (hx : x < p.length) : parentOf p x < p.length := hb x hx

theorem iterP_lt {p : List Nat} (hb : BoundedP p) {x : Nat} (hx : x < p.length)
    (k : Nat) : iterP p k x < p.length := by
  induction k generalizing x with
  | zero => exact hx
  | succ k ih => exact ih (parentOf_lt hb hx)

theorem rootOf_unique {p : List Nat} {x r r' : Nat} (h : RootOf p x r)
    (h' : RootOf p x r') : r = r' := by
  obtain ⟨k, hk, hr⟩ := h
  obtain ⟨k', hk', hr'⟩ := h'
  rcases Nat.le_total k k' with hle | hle
  · obtain ⟨m, rfl⟩ := Nat.le.dest hle
    rw [iterP_add, hk, iterP_of_isRoot hr] at hk'
    exact hk'
  · obtain ⟨m, rfl⟩ := Nat.le.dest hle
    rw [iterP_add, hk', iterP_of_isRoot hr'] at hk
    exact hk.symm

theorem rootOf_self {p : List Nat} {x : Nat} (h : IsRootP p x) : RootOf p x x :=
  ⟨0, rfl, h⟩

theorem rootOf_step {p : List Nat} {x r : Nat}
    (h : RootOf p (parentOf p x) r) : RootOf p x r := by
  obtain ⟨k, hk, hr⟩ := h
  exact ⟨k + 1, hk, hr⟩

theorem rootOf_parent {p : List Nat} {x r : Nat} (hx : ¬ IsRootP p x)
    (h : RootOf p x r) : RootOf p (parentOf p x) r := by
  obtain ⟨k, hk, hr⟩ := h
  cases k with
  | zero =>
    have hxr : x = r := hk
    subst hxr
    exact absurd hr hx
  | succ k => exact ⟨k, hk, hr⟩

theorem rootOf_isRoot {p : List Nat} {x r : Nat} (h : RootOf p x r) :
    IsRootP p r := h.choose_spec.2

theorem rootOf_lt {p : List Nat} (hb : BoundedP p) {x r : Nat}
    (hx : x < p.length) (h : RootOf p x r) : r < p.length := by
  obtain ⟨k, hk, _⟩ := h
  exact hk ▸ iterP_lt hb hx k

theorem rootOf_of_notLt {p : List Nat} {x : Nat} (hx : ¬ x < p.length) :
    RootOf p x x := by
  refine rootOf_self ?_
  unfold IsRootP parentOf
  rw [List.getD_eq_default]
  omega

/-- Pigeonhole: in a bounded forest on `n` nodes the root is reached in fewer
than `n` steps. -/
theorem exists_small_root {p : List Nat} (hb : BoundedP p) {x : Nat}
    (hx : x < p.length) (h : ∃ k, IsRootP p (iterP p k x)) :
    ∃ k, k < p.length ∧ IsRootP p (iterP p k x) := by
  classical
  set K := Nat.find h with hK
  have hKroot : IsRootP p (iterP p K x) := Nat.find_spec h
  by_cases hKn : K < p.length
  · exact ⟨K, hKn, hKroot⟩
  · exfalso
    push_neg at hKn
    have hmap : ∀ i : Fin (K + 1), iterP p i.1 x < p.length :=
      fun i => iterP_lt hb hx i.1
    let f : Fin (K + 1) → Fin p.length := fun i => ⟨iterP p i.1 x, hmap i⟩
    have hcard : Fintype.card (Fin p.length) < Fintype.card (Fin (K + 1)) := by
      simp only [Fintype.card_fin]
      omega
    obtain ⟨a, b, hab, hfab⟩ := Fintype.exists_ne_map_eq_of_card_lt f hcard
    -- wlog a < b
    rcases Nat.lt_or_ge a.1 b.1 with hlt | hge
    · have heq : iterP p a.1 x = iterP p b.1 x := congrArg Fin.val hfab
      have : IsRootP p (iterP p (a.1 + (K - b.1)) x) := by
        rw [iterP_add, heq, ← iterP_add]
        have : b.1 + (K - b.1) = K := by omega
        rw [this]
        exact hKroot
      have hsmall : a.1 + (K - b.1) < K := by
        have := a.2
        have := b.2
        omega
      exact Nat.find_min h hsmall this
    · have hblt : b.1 < a.1 := by
        rcases Nat.lt_or_ge b.1 a.1 with h' | h'
        · exact h'
        · exact absurd (Fin.ext (by omega)) hab
      have heq : iterP p b.1 x = iterP p a.1 x := (congrArg Fin.val hfab).symm
      have : IsRootP p (iterP p (b.1 + (K - a.1)) x) := by
        rw [iterP_add, heq, ← iterP_add]
        have : a.1 + (K - a.1) = K := by omega
        rw [this]
        exact hKroot
      have hsmall : b.1 + (K - a.1) < K := by
        have := a.2
        have := b.2
        omega
      exact Nat.find_min h hsmall this

theorem ufRoot_eq {p : List Nat} {k x : Nat} (hk : IsRootP p (iterP p k x))
    {fuel : Nat} (hfuel : k ≤ fuel) : ufRoot p fuel x = iterP p k x := by
  induction k generalizing x fuel with
  | zero =>
    have hx : parentOf p x = x := hk
    cases fuel with
    | zero => rfl
    | succ fuel => rw [ufRoot, if_pos hx]; rfl
  | succ k ih =>
    cases fuel with
    | zero => omega
    | succ fuel =>
      by_cases hroot : parentOf p x = x
      · rw [ufRoot, if_pos hroot]
        show x = iterP p k (parentOf p x)
        rw [hroot, iterP_of_isRoot hroot]
      · rw [ufRoot, if_neg hroot]
        have hk' : IsRootP p (iterP p k (parentOf p x)) := hk
        rw [ih hk' (Nat.le_of_succ_le_succ hfuel)]
        rfl

theorem rootOf_ufRoot {p : List Nat} (hb : BoundedP p) (hf : ForestP p)
    {x : Nat} (hx : x < p.length) {fuel : Nat} (hfuel : p.length ≤ fuel) :
    RootOf p x (ufRoot p fuel x) := by
  obtain ⟨k, hk, hroot⟩ := exists_small_root hb hx (hf x hx)
  rw [ufRoot_eq hroot (by omega)]
  exact ⟨k, rfl, hroot⟩

theorem parentOf_set_ne {p : List Nat} {i j : Nat} (a : Nat) (h : i ≠ j) :
    parentOf (p.set i a) j = parentOf p j := by
  unfold parentOf
  simp [List.getD_eq_getElem?_getD, List.getElem?_set_ne h]

theorem parentOf_set_self {p : List Nat} {i : Nat} (a : Nat)
    (h : i < p.length) : parentOf (p.set i a) i = a := by
  unfold parentOf
  simp [List.getD_eq_getElem?_getD, List.getElem?_set_self h]

theorem notRoot_lt {p : List Nat} {x : Nat} (h : ¬ IsRootP p x) :
    x < p.length := by
  by_contra hx
  exact h (by unfold IsRootP parentOf; rw [List.getD_eq_default]; omega)

theorem ufFindAux_snd_length (p : List Nat) (fuel x : Nat) :
    (ufFindAux p fuel x).2.length = p.length := by
  induction fuel generalizing x with
  | zero => rfl
  | succ fuel ih =>
    rw [ufFindAux]
    by_cases hroot : parentOf p x = x
    · rw [if_pos hroot]
    · rw [if_neg hroot]
      simp [List.length_set, ih]

theorem ufFindAux_fst (p : List Nat) (fuel x : Nat) :
    (ufFindAux p fuel x).1 = ufRoot p fuel x := by
  induction fuel generalizing x with
  | zero => rfl
  | succ fuel ih =>
    rw [ufFindAux, ufRoot]
    by_cases hroot : parentOf p x = x
    · rw [if_pos hroot, if_pos hroot]
    · rw [if_neg hroot, if_neg hroot]
      exact ih (parentOf p x)

/-- Path compression only redirects entries to their own root: each entry of
the output array is either unchanged or points at its root. -/
theorem ufFindAux_parentOf {p : List Nat} {fuel x : Nat}
    (hx : ∃ k, k ≤ fuel ∧ IsRootP p (iterP p k x)) (y : Nat) :
    parentOf (ufFindAux p fuel x).2 y = parentOf p y ∨
      RootOf p y (parentOf (ufFindAux p fuel x).2 y) := by
  induction fuel generalizing x with
  | zero => exact .inl rfl
  | succ fuel ih =>
    rw [ufFindAux]
    by_cases hroot : parentOf p x = x
    · rw [if_pos hroot]
      exact .inl rfl
    · rw [if_neg hroot]
      obtain ⟨k, hkle, hkroot⟩ := hx
      have hk0 : k ≠ 0 := by
        intro h
        subst h
        exact hroot hkroot
      obtain ⟨k', rfl⟩ := Nat.exists_eq_succ_of_ne_zero hk0
      have hx' : ∃ k, k ≤ fuel ∧ IsRootP p (iterP p k (parentOf p x)) :=
        ⟨k', by omega, hkroot⟩
      by_cases hyx : y = x
      · subst hyx
        have hylt : y < p.length := notRoot_lt hroot
        have hylt' : y < (ufFindAux p fuel (parentOf p y)).2.length := by
          rw [ufFindAux_snd_length]; exact hylt
        have hkroot' : IsRootP p (iterP p k' (parentOf p y)) := hkroot
        right
        show RootOf p y (parentOf ((ufFindAux p fuel (parentOf p y)).2.set y
          (ufFindAux p fuel (parentOf p y)).1) y)
        rw [parentOf_set_self _ hylt', ufFindAux_fst,
          ufRoot_eq hkroot' (by omega)]
        exact rootOf_step ⟨k', rfl, hkroot'⟩
      · show parentOf ((ufFindAux p fuel (parentOf p x)).2.set x
            (ufFindAux p fuel (parentOf p x)).1) y = parentOf p y ∨ _
        rw [parentOf_set_ne _ (fun h => hyx h.symm)]
        exact ih hx'

/-- `q` has the same roots as `p` when each of its entries is either the
`p`-entry or points at the `p`-root (preservation direction). -/
theorem rootOf_ptwise {p q : List Nat}
    (hpt : ∀ y, parentOf q y = parentOf p y ∨ RootOf p y (parentOf q y)) :
    ∀ k y r, iterP p k y = r → IsRootP p r → RootOf q y r := by
  intro k
  induction k using Nat.strong_induction_on with
  | _ k ih =>
    intro y r hk hr
    by_cases hroot : IsRootP p y
    · have hyr : y = r := by rw [← hk, iterP_of_isRoot hroot]
      subst hyr
      refine rootOf_self ?_
      rcases hpt y with h | h
      · exact h.trans hroot
      · exact rootOf_unique h (rootOf_self hroot)
    · have hk0 : k ≠ 0 := by
        intro h
        subst h
        have hyr : y = r := hk
        subst hyr
        exact hroot hr
      obtain ⟨k', rfl⟩ := Nat.exists_eq_succ_of_ne_zero hk0
      have hrq : IsRootP q r := by
        rcases hpt r with h | h
        · exact h.trans hr
        · exact rootOf_unique h (rootOf_self hr)
      rcases hpt y with h | h
      · refine rootOf_step ?_
        rw [h]
        exact ih k' (by omega) (parentOf p y) r hk hr
      · have : parentOf q y = r :=
          rootOf_unique h ⟨k' + 1, hk, hr⟩
        refine rootOf_step ?_
        rw [this]
        exact rootOf_self hrq

/-- Roots are exactly preserved by pointwise compression (`p` a forest). -/
theorem rootOf_ptwise_iff {p q : List Nat} (hf : ForestP p)
    (hlen : q.length = p.length)
    (hpt : ∀ y, parentOf q y = parentOf p y ∨ RootOf p y (parentOf q y))
    (y r : Nat) : RootOf q y r ↔ RootOf p y r := by
  constructor
  · intro hq
    by_cases hy : y < p.length
    · obtain ⟨k, hk⟩ := hf y hy
      have hp : RootOf p y (iterP p k y) := ⟨k, rfl, hk⟩
      have := rootOf_ptwise hpt k y _ rfl hk
      rw [rootOf_unique hq this]
      exact hp
    · have h1 : RootOf q y y := rootOf_of_notLt (by omega)
      rw [rootOf_unique hq h1]
      exact rootOf_of_notLt hy
  · intro hp
    obtain ⟨k, hk, hr⟩ := hp
    exact rootOf_ptwise hpt k y r hk hr

theorem bounded_of_ptwise {p q : List Nat} (hb : BoundedP p)
    (hlen : q.length = p.length)
    (hpt : ∀ y, parentOf q y = parentOf p y ∨ RootOf p y (parentOf q y)) :
    BoundedP q := by
  intro x hx
  rw [hlen] at hx ⊢
  rcases hpt x with h | h
  · rw [h]
    exact hb x hx
  · exact rootOf_lt hb hx h

theorem forest_of_ptwise {p q : List Nat} (hf : ForestP p)
    (hlen : q.length = p.length)
    (hpt : ∀ y, parentOf q y = parentOf p y ∨ RootOf p y (parentOf q y)) :
    ForestP q := by
  intro x hx
  rw [hlen] at hx
  obtain ⟨k, hk⟩ := hf x hx
  obtain ⟨k', hk', hr'⟩ := rootOf_ptwise hpt k x _ rfl hk
  exact ⟨k', hk' ▸ hr'⟩

/-- Two indices have the same root. -/
def SameRoot (p : List Nat) (x y : Nat) : Prop :=
  ∃ r, RootOf p x r ∧ RootOf p y r

theorem ufFind_ptwise {p : List Nat} (hb : BoundedP p) (hf : ForestP p)
    {x : Nat} (hx : x < p.length) (y : Nat) :
    parentOf (ufFind p x).2 y = parentOf p y ∨
      RootOf p y (parentOf (ufFind p x).2 y) := by
  obtain ⟨k, hk, hroot⟩ := exists_small_root hb hx (hf x hx)
  exact ufFindAux_parentOf ⟨k, by omega, hroot⟩ y

theorem ufFind_len {p : List Nat} (x : Nat) :
    (ufFind p x).2.length = p.length := ufFindAux_snd_length p p.length x

theorem ufFind_rootOf {p : List Nat} (hb : BoundedP p) (hf : ForestP p)
    {x : Nat} (hx : x < p.length) : RootOf p x (ufFind p x).1 := by
  rw [ufFind, ufFindAux_fst]
  exact rootOf_ufRoot hb hf hx (Nat.le_refl _)

theorem ufFind_roots_iff {p : List Nat} (hb : BoundedP p) (hf : ForestP p)
    {x : Nat} (hx : x < p.length) (y r : Nat) :
    RootOf (ufFind p x).2 y r ↔ RootOf p y r :=
  rootOf_ptwise_iff hf (ufFind_len x) (ufFind_ptwise hb hf hx) y r

theorem ufFind_bounded {p : List Nat} (hb : BoundedP p) (hf : ForestP p)
    {x : Nat} (hx : x < p.length) : BoundedP (ufFind p x).2 :=
  bounded_of_ptwise hb (ufFind_len x) (ufFind_ptwise hb hf hx)

theorem ufFind_forest {p : List Nat} (hb : BoundedP p) (hf : ForestP p)
    {x : Nat} (hx : x < p.length) : ForestP (ufFind p x).2 :=
  forest_of_ptwise hf (ufFind_len x) (ufFind_ptwise hb hf hx)

/-- Setting `parent[rb] = ra` (`ra`, `rb` distinct roots) reroots the class
of `rb` onto `ra` and leaves every other root alone. -/
theorem rootOf_set_root {p : List Nat} {ra rb : Nat}
    (hra : IsRootP p ra) (hrb : IsRootP p rb) (hrblt : rb < p.length)
    (hne : ra ≠ rb) :
    ∀ k y r, iterP p k y = r → IsRootP p r →
      RootOf (p.set rb ra) y (if r = rb then ra else r) := by
  intro k
  induction k using Nat.strong_induction_on with
  | _ k ih =>
    intro y r hk hr
    by_cases hroot : IsRootP p y
    · have hyr : y = r := by rw [← hk, iterP_of_isRoot hroot]
      subst hyr
      by_cases hyrb : y = rb
      · subst hyrb
        rw [if_pos rfl]
        have h1 : parentOf (p.set y ra) y = ra := parentOf_set_self ra hrblt
        have h2 : IsRootP (p.set y ra) ra := by
          show parentOf (p.set y ra) ra = ra
          rw [parentOf_set_ne ra (fun h => hne h.symm)]
          exact hra
        refine rootOf_step ?_
        rw [h1]
        exact rootOf_self h2
      · rw [if_neg hyrb]
        refine rootOf_self ?_
        show parentOf (p.set rb ra) y = y
        rw [parentOf_set_ne ra (fun h => hyrb h.symm)]
        exact hroot
    · have hk0 : k ≠ 0 := by
        intro h
        subst h
        have hyr : y = r := hk
        subst hyr
        exact hroot hr
      obtain ⟨k', rfl⟩ := Nat.exists_eq_succ_of_ne_zero hk0
      have hyrb : y ≠ rb := fun h => hroot (h ▸ hrb)
      refine rootOf_step ?_
      rw [parentOf_set_ne ra (fun h => hyrb h.symm)]
      exact ih k' (by omega) (parentOf p y) r hk hr

theorem bounded_set_root {p : List Nat} (hb : BoundedP p) {ra rb : Nat}
    (hralt : ra < p.length) : BoundedP (p.set rb ra) := by
  intro x hx
  rw [List.length_set] at hx ⊢
  by_cases hxrb : x = rb
  · subst hxrb
    rw [parentOf_set_self ra hx]
    exact hralt
  · rw [parentOf_set_ne ra (fun h => hxrb h.symm)]
    exact hb x hx

theorem forest_set_root {p : List Nat} (hf : ForestP p) {ra rb : Nat}
    (hra : IsRootP p ra) (hrb : IsRootP p rb) (hrblt : rb < p.length)
    (hne : ra ≠ rb) : ForestP (p.set rb ra) := by
  intro x hx
  rw [List.length_set] at hx
  obtain ⟨k, hk⟩ := hf x hx
  obtain ⟨k', hk', hr'⟩ :=
    rootOf_set_root hra hrb hrblt hne k x _ rfl hk
  exact ⟨k', hk' ▸ hr'⟩

theorem ufUnite_len {p : List Nat} (a b : Nat) :
    (ufUnite p a b).length = p.length := by
  unfold ufUnite
  by_cases h : (ufFind p a).1 ≠ (ufFind (ufFind p a).2 b).1
  · simp only [if_pos h, List.length_set, ufFind_len]
  · simp only [if_neg h, ufFind_len]

/-- The effect of `unite` on roots: the class of `b` is rerooted onto the
root of `a`; all other classes keep their roots. -/
theorem ufUnite_rootOf {p : List Nat} (hb : BoundedP p) (hf : ForestP p)
    {a b : Nat} (ha : a < p.length) (hbn : b < p.length) :
    BoundedP (ufUnite p a b) ∧ ForestP (ufUnite p a b) ∧
    ∀ y r ra rb, RootOf p a ra → RootOf p b rb → RootOf p y r →
      RootOf (ufUnite p a b) y (if r = rb then ra else r) := by
  have hra' : RootOf p a (ufFind p a).1 := ufFind_rootOf hb hf ha
  have hb1 : BoundedP (ufFind p a).2 := ufFind_bounded hb hf ha
  have hf1 : ForestP (ufFind p a).2 := ufFind_forest hb hf ha
  have hlen1 : (ufFind p a).2.length = p.length := ufFind_len a
  have hbn1 : b < (ufFind p a).2.length := by rw [hlen1]; exact hbn
  have hrb1 : RootOf (ufFind p a).2 b (ufFind (ufFind p a).2 b).1 :=
    ufFind_rootOf hb1 hf1 hbn1
  have hrb' : RootOf p b (ufFind (ufFind p a).2 b).1 :=
    (ufFind_roots_iff hb hf ha _ _).mp hrb1
  have hb2 : BoundedP (ufFind (ufFind p a).2 b).2 :=
    ufFind_bounded hb1 hf1 hbn1
  have hf2 : ForestP (ufFind (ufFind p a).2 b).2 :=
    ufFind_forest hb1 hf1 hbn1
  have hlen2 : (ufFind (ufFind p a).2 b).2.length = p.length := by
    rw [ufFind_len, hlen1]
  have hiff2 : ∀ y r, RootOf (ufFind (ufFind p a).2 b).2 y r ↔ RootOf p y r :=
    fun y r =>
      (ufFind_roots_iff hb1 hf1 hbn1 y r).trans (ufFind_roots_iff hb hf ha y r)
  set ra' := (ufFind p a).1 with hra'def
  set rb' := (ufFind (ufFind p a).2 b).1 with hrb'def
  set p2 := (ufFind (ufFind p a).2 b).2 with hp2def
  have hroot_ra : IsRootP p2 ra' :=
    rootOf_isRoot ((hiff2 ra' ra').mpr (rootOf_self (rootOf_isRoot hra')))
  have hroot_rb : IsRootP p2 rb' :=
    rootOf_isRoot ((hiff2 rb' rb').mpr (rootOf_self (rootOf_isRoot hrb')))
  have hralt : ra' < p2.length := by
    rw [hlen2]
    exact rootOf_lt hb ha hra'
  have hrblt : rb' < p2.length := by
    rw [hlen2]
    exact rootOf_lt hb hbn hrb'
  by_cases hcase : ra' ≠ rb'
  · have hres : ufUnite p a b = p2.set rb' ra' := by
      unfold ufUnite
      rw [if_pos hcase]
    refine ⟨?_, ?_, ?_⟩
    · rw [hres]
      exact bounded_set_root hb2 hralt
    · rw [hres]
      exact forest_set_root hf2 hroot_ra hroot_rb hrblt hcase
    · intro y r ra rb hma hmb hmy
      have hraeq : ra = ra' := rootOf_unique hma hra'
      have hrbeq : rb = rb' := rootOf_unique hmb hrb'
      subst hraeq hrbeq
      obtain ⟨k, hk, hkr⟩ := (hiff2 y r).mpr hmy
      rw [hres]
      exact rootOf_set_root hroot_ra hroot_rb hrblt hcase k y r hk hkr
  · have hres : ufUnite p a b = p2 := by
      unfold ufUnite
      rw [if_neg hcase]
    push_neg at hcase
    refine ⟨hres ▸ hb2, hres ▸ hf2, ?_⟩
    intro y r ra rb hma hmb hmy
    have hraeq : ra = ra' := rootOf_unique hma hra'
    have hrbeq : rb = rb' := rootOf_unique hmb hrb'
    subst hraeq hrbeq
    have h2 : RootOf p2 y r := (hiff2 y r).mpr hmy
    rw [hres]
    by_cases hrrb : r = rb'
    · rw [if_pos hrrb]
      have hr : ra' = r := hcase.trans hrrb.symm
      rw [hr]
      exact h2
    · rw [if_neg hrrb]
      exact h2

/-! ### Clustering = connected components (claim C2) -/

/-- The edge relation induced on task indices by a list of flows: `i — j`
when some flow carries a weight `≥ threshold` and its endpoints resolve (via
`idToIdx`) to indices `i` and `j`. -/
def edgeRel (tasks : List Task) (threshold : ℚ) (l : List Flow)
    (i j : Nat) : Prop :=
  ∃ f ∈ l, ∃ w, f.coupling = some w ∧ threshold ≤ w ∧
    lookupIdx tasks f.src = some i ∧ lookupIdx tasks f.tgt = some j

/-- Connectivity in the threshold-filtered subgraph: the equivalence closure
of the edge relation. -/
def Coupled (tasks : List Task) (flows : List Flow) (threshold : ℚ) :
    Nat → Nat → Prop :=
  Relation.EqvGen (edgeRel tasks threshold flows)

theorem lookupIdx_lt {tasks : List Task} {s : String} {i : Nat}
    (h : lookupIdx tasks s = some i) : i < tasks.length := by
  unfold lookupIdx at h
  rw [Option.map_eq_some'] at h
  obtain ⟨q, hq, hqi⟩ := h
  have hmem : q ∈ tasks.enum.reverse := List.mem_of_find?_eq_some hq
  rw [List.mem_reverse] at hmem
  have hq2 : tasks[q.1]? = some q.2 := List.mem_enum_iff_getElem?.mp hmem
  obtain ⟨hlt, _⟩ := List.getElem?_eq_some_iff.mp hq2
  omega

theorem eqvGen_of_none {α : Type} {R : α → α → Prop}
    (hR : ∀ u v, ¬ R u v) {x y : α} (h : Relation.EqvGen R x y) : x = y := by
  induction h with
  | rel u v huv => exact absurd huv (hR u v)
  | refl => rfl
  | symm u v _ ih => exact ih.symm
  | trans u v w _ _ ih1 ih2 => exact ih1.trans ih2

theorem eqvGen_congr {α : Type} {R S : α → α → Prop}
    (h : ∀ u v, R u v ↔ S u v) {x y : α} :
    Relation.EqvGen R x y ↔ Relation.EqvGen S x y :=
  ⟨Relation.EqvGen.mono (fun u v huv => (h u v).mp huv),
   Relation.EqvGen.mono (fun u v huv => (h u v).mpr huv)⟩

/-- Adding a single (directed) edge `a—b` to a relation joins the equivalence
classes of `a` and `b` and changes nothing else. -/
theorem eqvGen_union_single {α : Type} {R : α → α → Prop} {a b : α}
    (x y : α) :
    Relation.EqvGen (fun u v => R u v ∨ (u = a ∧ v = b)) x y ↔
      (Relation.EqvGen R x y ∨
       (Relation.EqvGen R x a ∧ Relation.EqvGen R b y) ∨
       (Relation.EqvGen R x b ∧ Relation.EqvGen R a y)) := by
  constructor
  · intro h
    induction h with
    | rel u v huv =>
      rcases huv with huv | ⟨rfl, rfl⟩
      · exact .inl (.rel u v huv)
      · exact .inr (.inl ⟨.refl u, .refl v⟩)
    | refl u => exact .inl (.refl u)
    | symm u v _ ih =>
      rcases ih with h1 | ⟨h1, h2⟩ | ⟨h1, h2⟩
      · exact .inl (.symm _ _ h1)
      · exact .inr (.inr ⟨.symm _ _ h2, .symm _ _ h1⟩)
      · exact .inr (.inl ⟨.symm _ _ h2, .symm _ _ h1⟩)
    | trans u v w _ _ ih1 ih2 =>
      rcases ih1 with h1 | ⟨h1, h2⟩ | ⟨h1, h2⟩ <;>
        rcases ih2 with h3 | ⟨h3, h4⟩ | ⟨h3, h4⟩
      · exact .inl (.trans _ _ _ h1 h3)
      · exact .inr (.inl ⟨.trans _ _ _ h1 h3, h4⟩)
      · exact .inr (.inr ⟨.trans _ _ _ h1 h3, h4⟩)
      · exact .inr (.inl ⟨h1, .trans _ _ _ h2 h3⟩)
      · exact .inl (.trans _ _ _ (.trans _ _ _ h1 (.symm _ _ h3))
          (.trans _ _ _ (.symm _ _ h2) h4))
      · exact .inl (.trans _ _ _ h1 h4)
      · exact .inr (.inr ⟨h1, .trans _ _ _ h2 h3⟩)
      · exact .inl (.trans _ _ _ h1 h4)
      · exact .inl (.trans _ _ _ (.trans _ _ _ h1 (.symm _ _ h3))
          (.trans _ _ _ (.symm _ _ h2) h4))
  · intro h
    have hab : Relation.EqvGen (fun u v => R u v ∨ (u = a ∧ v = b)) a b :=
      .rel a b (.inr ⟨rfl, rfl⟩)
    have mono : ∀ {u v}, Relation.EqvGen R u v →
        Relation.EqvGen (fun u v => R u v ∨ (u = a ∧ v = b)) u v :=
      fun h => Relation.EqvGen.mono (fun _ _ huv => .inl huv) h
    rcases h with h1 | ⟨h1, h2⟩ | ⟨h1, h2⟩
    · exact mono h1
    · exact .trans _ _ _ (mono h1) (.trans _ _ _ hab (mono h2))
    · exact .trans _ _ _ (mono h1)
        (.trans _ _ _ (.symm _ _ hab) (mono h2))

theorem sameRoot_of_roots {p : List Nat} {x y rx ry : Nat}
    (hx : RootOf p x rx) (hy : RootOf p y ry) (h : rx = ry) :
    SameRoot p x y := ⟨rx, hx, h ▸ hy⟩

theorem sameRoot_roots_eq {p : List Nat} {x y rx ry : Nat}
    (hx : RootOf p x rx) (hy : RootOf p y ry) (h : SameRoot p x y) :
    rx = ry := by
  obtain ⟨r, h1, h2⟩ := h
  rw [rootOf_unique hx h1, rootOf_unique hy h2]

theorem rootOf_exists {p : List Nat} (hf : ForestP p) {x : Nat}
    (hx : x < p.length) : ∃ r, RootOf p x r := by
  obtain ⟨k, hk⟩ := hf x hx
  exact ⟨iterP p k x, k, rfl, hk⟩

/-- Effect of `ufUnite` on the same-root relation: classes of `a` and `b`
merge, everything else is untouched. -/
theorem sameRoot_unite_iff {p : List Nat} (hb : BoundedP p) (hf : ForestP p)
    {a b : Nat} (ha : a < p.length) (hbn : b < p.length) {x y : Nat}
    (hx : x < p.length) (hy : y < p.length) :
    SameRoot (ufUnite p a b) x y ↔
      (SameRoot p x y ∨ (SameRoot p x a ∧ SameRoot p b y) ∨
       (SameRoot p x b ∧ SameRoot p a y)) := by
  obtain ⟨hb', hf', hchar⟩ := ufUnite_rootOf hb hf ha hbn
  obtain ⟨ra, hra⟩ := rootOf_exists hf ha
  obtain ⟨rb, hrb⟩ := rootOf_exists hf hbn
  obtain ⟨rx, hrx⟩ := rootOf_exists hf hx
  obtain ⟨ry, hry⟩ := rootOf_exists hf hy
  have hx' : RootOf (ufUnite p a b) x (if rx = rb then ra else rx) :=
    hchar x rx ra rb hra hrb hrx
  have hy' : RootOf (ufUnite p a b) y (if ry = rb then ra else ry) :=
    hchar y ry ra rb hra hrb hry
  constructor
  · intro h
    have heq : (if rx = rb then ra else rx) = (if ry = rb then ra else ry) :=
      sameRoot_roots_eq hx' hy' h
    by_cases h1 : rx = rb <;> by_cases h2 : ry = rb
    · exact .inl (sameRoot_of_roots hrx hry (h1.trans h2.symm))
    · rw [if_pos h1, if_neg h2] at heq
      exact .inr (.inr ⟨sameRoot_of_roots hrx hrb h1,
        sameRoot_of_roots hra hry heq⟩)
    · rw [if_neg h1, if_pos h2] at heq
      exact .inr (.inl ⟨sameRoot_of_roots hrx hra heq,
        sameRoot_of_roots hrb hry h2.symm⟩)
    · rw [if_neg h1, if_neg h2] at heq
      exact .inl (sameRoot_of_roots hrx hry heq)
  · intro h
    refine sameRoot_of_roots hx' hy' ?_
    rcases h with h1 | ⟨h1, h2⟩ | ⟨h1, h2⟩
    · rw [sameRoot_roots_eq hrx hry h1]
    · have e1 : rx = ra := sameRoot_roots_eq hrx hra h1
      have e2 : rb = ry := sameRoot_roots_eq hrb hry h2
      by_cases hca : ra = rb
      · rw [if_pos (e1.trans hca), if_pos e2.symm]
      · have hne : ¬ rx = rb := fun h => hca (e1.symm.trans h)
        rw [if_neg hne, if_pos e2.symm, e1]
    · have e1 : rx = rb := sameRoot_roots_eq hrx hrb h1
      have e2 : ra = ry := sameRoot_roots_eq hra hry h2
      by_cases hca : ry = rb
      · rw [if_pos e1, if_pos hca]
      · rw [if_pos e1, if_neg hca]
        exact e2

/-- Invariant threaded through the flow-processing fold of
`fragmentByCoupling`: the union-find state is a bounded forest on the task
indices whose same-root relation is exactly connectivity over the processed
flows. -/
def UFInv (tasks : List Task) (threshold : ℚ) (processed : List Flow)
    (p : List Nat) : Prop :=
  p.length = tasks.length ∧ BoundedP p ∧ ForestP p ∧
  ∀ x y, x < tasks.length → y < tasks.length →
    (SameRoot p x y ↔ Relation.EqvGen (edgeRel tasks threshold processed) x y)

theorem ufInv_init (tasks : List Task) (threshold : ℚ) :
    UFInv tasks threshold [] (List.range tasks.length) := by
  have hroot : ∀ x, x < tasks.length →
      IsRootP (List.range tasks.length) x := by
    intro x hx
    show parentOf (List.range tasks.length) x = x
    unfold parentOf
    rw [List.getD_eq_getElem?_getD, List.getElem?_range hx]
    rfl
  refine ⟨List.length_range _, ?_, ?_, ?_⟩
  · intro x hx
    rw [List.length_range] at hx ⊢
    rw [hroot x hx]
    exact hx
  · intro x hx
    rw [List.length_range] at hx
    exact ⟨0, hroot x hx⟩
  · intro x y hx hy
    constructor
    · intro h
      have h1 : RootOf (List.range tasks.length) x x :=
        rootOf_self (hroot x hx)
      have h2 : RootOf (List.range tasks.length) y y :=
        rootOf_self (hroot y hy)
      have : x = y := sameRoot_roots_eq h1 h2 h
      exact this ▸ Relation.EqvGen.refl x
    · intro h
      have hxy : x = y := eqvGen_of_none (fun u v h' => by
        obtain ⟨f, hf, _⟩ := h'
        exact absurd hf (List.not_mem_nil f)) h
      subst hxy
      exact ⟨x, rootOf_self (hroot x hx), rootOf_self (hroot x hx)⟩

theorem edgeRel_append_single (tasks : List Task) (threshold : ℚ)
    (l : List Flow) (f : Flow) (u v : Nat) :
    edgeRel tasks threshold (l ++ [f]) u v ↔
      (edgeRel tasks threshold l u v ∨
       (∃ w, f.coupling = some w ∧ threshold ≤ w ∧
        lookupIdx tasks f.src = some u ∧ lookupIdx tasks f.tgt = some v)) := by
  unfold edgeRel
  constructor
  · rintro ⟨g, hg, hrest⟩
    rw [List.mem_append, List.mem_singleton] at hg
    rcases hg with hg | rfl
    · exact .inl ⟨g, hg, hrest⟩
    · exact .inr hrest
  · rintro (⟨g, hg, hrest⟩ | hrest)
    · exact ⟨g, List.mem_append_left _ hg, hrest⟩
    · exact ⟨f, List.mem_append_right _ (List.mem_singleton_self f), hrest⟩

theorem ufInv_step {tasks : List Task} {threshold : ℚ} {l : List Flow}
    {p : List Nat} (h : UFInv tasks threshold l p) (f : Flow) :
    UFInv tasks threshold (l ++ [f]) (coupleStep tasks threshold p f) := by
  obtain ⟨hlen, hb, hf, hiff⟩ := h
  -- the "skip" outcomes leave both the array and the relation unchanged
  have skip : (coupleStep tasks threshold p f = p) →
      (∀ u v, ¬ ∃ w, f.coupling = some w ∧ threshold ≤ w ∧
        lookupIdx tasks f.src = some u ∧ lookupIdx tasks f.tgt = some v) →
      UFInv tasks threshold (l ++ [f]) (coupleStep tasks threshold p f) := by
    intro hstep hno
    rw [hstep]
    refine ⟨hlen, hb, hf, ?_⟩
    intro x y hx hy
    rw [hiff x y hx hy]
    refine eqvGen_congr ?_
    intro u v
    rw [edgeRel_append_single]
    constructor
    · exact fun h => .inl h
    · rintro (h | h)
      · exact h
      · exact absurd h (hno u v)
  rcases hc : f.coupling with _ | w
  · exact skip (by simp [coupleStep, hc])
      (by rintro u v ⟨w, hw, _⟩; simp [hc] at hw)
  · by_cases hw : w ≥ threshold
    · rcases hsrc : lookupIdx tasks f.src with _ | i
      · refine skip ?_ ?_
        · simp [coupleStep, hc, hw, hsrc]
        · rintro u v ⟨w', hw', _, hsrc', _⟩
          rw [hsrc] at hsrc'
          exact Option.noConfusion hsrc'
      · rcases htgt : lookupIdx tasks f.tgt with _ | j
        · refine skip ?_ ?_
          · simp [coupleStep, hc, hw, hsrc, htgt]
          · rintro u v ⟨w', hw', _, _, htgt'⟩
            rw [htgt] at htgt'
            exact Option.noConfusion htgt'
        · -- the unite case
          have hstep : coupleStep tasks threshold p f = ufUnite p i j := by
            simp [coupleStep, hc, hw, hsrc, htgt]
          rw [hstep]
          have hi : i < tasks.length := lookupIdx_lt hsrc
          have hj : j < tasks.length := lookupIdx_lt htgt
          have hi' : i < p.length := by omega
          have hj' : j < p.length := by omega
          obtain ⟨hb', hf', _⟩ := ufUnite_rootOf hb hf hi' hj'
          have hlen' : (ufUnite p i j).length = tasks.length := by
            rw [ufUnite_len]; exact hlen
          refine ⟨hlen', hb', hf', ?_⟩
          intro x y hx hy
          have hx' : x < p.length := by omega
          have hy' : y < p.length := by omega
          rw [sameRoot_unite_iff hb hf hi' hj' hx' hy']
          have hiff' : ∀ u v, u < tasks.length → v < tasks.length →
              (SameRoot p u v ↔
                Relation.EqvGen (edgeRel tasks threshold l) u v) := hiff
          rw [hiff' x y hx hy, hiff' x i hx hi, hiff' j y hj hy,
            hiff' x j hx hj, hiff' i y hi hy]
          have hE : ∀ u v, edgeRel tasks threshold (l ++ [f]) u v ↔
              (edgeRel tasks threshold l u v ∨ (u = i ∧ v = j)) := by
            intro u v
            rw [edgeRel_append_single]
            constructor
            · rintro (h | ⟨w', hw', hth, hs, ht⟩)
              · exact .inl h
              · rw [hsrc] at hs
                rw [htgt] at ht
                exact .inr ⟨(Option.some_inj.mp hs).symm,
                  (Option.some_inj.mp ht).symm⟩
            · rintro (h | ⟨rfl, rfl⟩)
              · exact .inl h
              · exact .inr ⟨w, hc, hw, hsrc, htgt⟩
          rw [eqvGen_congr hE, eqvGen_union_single]
    · refine skip ?_ ?_
      · simp [coupleStep, hc, hw]
      · rintro u v ⟨w', hw', hth, _⟩
        rw [hc] at hw'
        rw [← Option.some_inj.mp hw'] at hth
        exact hw hth

theorem ufInv_foldl (tasks : List Task) (threshold : ℚ) :
    ∀ (l₂ l₁ : List Flow) (p : List Nat), UFInv tasks threshold l₁ p →
      UFInv tasks threshold (l₁ ++ l₂)
        (l₂.foldl (coupleStep tasks threshold) p)
  | [], l₁, p, h => by simpa using h
  | f :: l₂, l₁, p, h => by
    have h' := ufInv_step h f
    have := ufInv_foldl tasks threshold l₂ (l₁ ++ [f]) _ h'
    simpa using this

theorem ufInv_coupleParent (tasks : List Task) (flows : List Flow)
    (threshold : ℚ) :
    UFInv tasks threshold flows (coupleParent tasks flows threshold) := by
  have := ufInv_foldl tasks threshold flows [] (List.range tasks.length)
    (ufInv_init tasks threshold)
  simpa [coupleParent] using this

/-- `j` occurs in the bucket keyed `s`. -/
def InGroups (g : List (Nat × List Nat)) (j s : Nat) : Prop :=
  ∃ l, (s, l) ∈ g ∧ j ∈ l

theorem addToGroup_keys (g : List (Nat × List Nat)) (r i : Nat) :
    (addToGroup g r i).map Prod.fst =
      if r ∈ g.map Prod.fst then g.map Prod.fst
      else g.map Prod.fst ++ [r] := by
  induction g with
  | nil => simp [addToGroup]
  | cons hd tl ih =>
    obtain ⟨r', l⟩ := hd
    by_cases hr : r' = r
    · subst hr
      simp [addToGroup]
    · rw [show addToGroup ((r', l) :: tl) r i =
        (r', l) :: addToGroup tl r i by simp [addToGroup, hr], List.map_cons, ih]
      by_cases hmem : r ∈ tl.map Prod.fst
      · rw [if_pos hmem, if_pos (by simp [hmem])]
        rfl
      · rw [if_neg hmem, if_neg (by simp [hmem, Ne.symm hr, hr])]
        rfl

theorem addToGroup_keys_nodup {g : List (Nat × List Nat)} (r i : Nat)
    (h : (g.map Prod.fst).Nodup) :
    ((addToGroup g r i).map Prod.fst).Nodup := by
  rw [addToGroup_keys]
  by_cases hr : r ∈ g.map Prod.fst
  · rw [if_pos hr]
    exact h
  · rw [if_neg hr]
    simp [List.nodup_append, h, hr]

theorem addToGroup_nonempty {g : List (Nat × List Nat)} {r i : Nat}
    (h : ∀ x ∈ g, x.2 ≠ []) :
    ∀ x ∈ addToGroup g r i, x.2 ≠ [] := by
  induction g with
  | nil =>
    intro x hx
    simp only [addToGroup, List.mem_singleton] at hx
    subst hx
    simp
  | cons hd tl ih =>
    obtain ⟨r', l⟩ := hd
    intro x hx
    simp only [addToGroup] at hx
    by_cases hr : r' = r
    · rw [if_pos hr] at hx
      rcases List.mem_cons.mp hx with rfl | hx
      · simp
      · exact h x (List.mem_cons_of_mem _ hx)
    · rw [if_neg hr] at hx
      rcases List.mem_cons.mp hx with rfl | hx
      · exact h _ (List.mem_cons_self _ _)
      · exact ih (fun y hy => h y (List.mem_cons_of_mem _ hy)) x hx

theorem inGroups_addToGroup (g : List (Nat × List Nat)) (r i j s : Nat) :
    InGroups (addToGroup g r i) j s ↔
      (InGroups g j s ∨ (j = i ∧ s = r)) := by
  induction g with
  | nil =>
    unfold InGroups
    constructor
    · rintro ⟨l, hl, hj⟩
      simp only [addToGroup, List.mem_singleton, Prod.mk.injEq] at hl
      obtain ⟨h1, h2⟩ := hl
      rw [h2] at hj
      rw [List.mem_singleton] at hj
      exact .inr ⟨hj, h1⟩
    · rintro (⟨l, hl, _⟩ | ⟨hj, hs⟩)
      · exact absurd hl (List.not_mem_nil _)
      · subst hj hs
        exact ⟨[j], by simp [addToGroup], List.mem_singleton_self _⟩
  | cons hd tl ih =>
    obtain ⟨r', l⟩ := hd
    by_cases hr : r' = r
    · have hstep : addToGroup ((r', l) :: tl) r i = (r', l ++ [i]) :: tl := by
        simp only [addToGroup, if_pos hr]
      rw [hstep]
      unfold InGroups
      constructor
      · rintro ⟨l', hl', hj⟩
        rcases List.mem_cons.mp hl' with heq | hmem
        · simp only [Prod.mk.injEq] at heq
          obtain ⟨h1, h2⟩ := heq
          rw [h2] at hj
          rcases List.mem_append.mp hj with hj | hj
          · refine .inl ⟨l, ?_, hj⟩
            rw [show s = r' from h1]
            exact List.mem_cons_self _ _
          · rw [List.mem_singleton] at hj
            exact .inr ⟨hj, (show s = r' from h1).trans hr⟩
        · exact .inl ⟨l', List.mem_cons_of_mem _ hmem, hj⟩
      · rintro (⟨l', hl', hj⟩ | ⟨hj, hs⟩)
        · rcases List.mem_cons.mp hl' with heq | hmem
          · simp only [Prod.mk.injEq] at heq
            obtain ⟨h1, h2⟩ := heq
            refine ⟨l ++ [i], ?_, ?_⟩
            · rw [show s = r' from h1]
              exact List.mem_cons_self _ _
            · rw [h2] at hj
              exact List.mem_append_left _ hj
          · exact ⟨l', List.mem_cons_of_mem _ hmem, hj⟩
        · refine ⟨l ++ [i], ?_, ?_⟩
          · rw [hs, ← hr]
            exact List.mem_cons_self _ _
          · rw [hj]
            exact List.mem_append_right _ (List.mem_singleton_self _)
    · have hstep : addToGroup ((r', l) :: tl) r i =
          (r', l) :: addToGroup tl r i := by
        simp only [addToGroup, if_neg hr]
      rw [hstep]
      unfold InGroups at ih ⊢
      constructor
      · rintro ⟨l', hl', hj⟩
        rcases List.mem_cons.mp hl' with heq | hmem
        · exact .inl ⟨l', List.mem_cons.mpr (.inl heq), hj⟩
        · rcases ih.mp ⟨l', hmem, hj⟩ with h | h
          · obtain ⟨l'', hl'', hj''⟩ := h
            exact .inl ⟨l'', List.mem_cons_of_mem _ hl'', hj''⟩
          · exact .inr h
      · rintro (⟨l', hl', hj⟩ | ⟨hj, hs⟩)
        · rcases List.mem_cons.mp hl' with heq | hmem
          · exact ⟨l', List.mem_cons.mpr (.inl heq), hj⟩
          · obtain ⟨l'', hl'', hj''⟩ := ih.mpr (.inl ⟨l', hmem, hj⟩)
            exact ⟨l'', List.mem_cons_of_mem _ hl'', hj''⟩
        · obtain ⟨l'', hl'', hj''⟩ := ih.mpr (.inr ⟨hj, hs⟩)
          exact ⟨l'', List.mem_cons_of_mem _ hl'', hj''⟩

theorem bucket_unique {g : List (Nat × List Nat)}
    (hnd : (g.map Prod.fst).Nodup) {r : Nat} {l l' : List Nat}
    (h1 : (r, l) ∈ g) (h2 : (r, l') ∈ g) : l = l' := by
  induction g with
  | nil => exact absurd h1 (List.not_mem_nil _)
  | cons hd tl ih =>
    rw [List.map_cons, List.nodup_cons] at hnd
    rcases List.mem_cons.mp h1 with rfl | hm1
    · rcases List.mem_cons.mp h2 with heq | hm2
      · exact (Prod.mk.injEq .. ▸ heq.symm).2
      · exact absurd (List.mem_map_of_mem Prod.fst hm2) hnd.1
    · rcases List.mem_cons.mp h2 with rfl | hm2
      · exact absurd (List.mem_map_of_mem Prod.fst hm1) hnd.1
      · exact ih hnd.2 hm1 hm2

/-- Invariant of the `groups()` fold: the threaded parent array keeps the
original roots, and the buckets hold exactly the processed indices, each
under its root, with distinct bucket keys. -/
def GInv (p0 : List Nat) (processed : List Nat)
    (st : List Nat × List (Nat × List Nat)) : Prop :=
  st.1.length = p0.length ∧ BoundedP st.1 ∧ ForestP st.1 ∧
  (∀ y r, RootOf st.1 y r ↔ RootOf p0 y r) ∧
  ((st.2.map Prod.fst).Nodup) ∧
  (∀ x ∈ st.2, x.2 ≠ []) ∧
  (∀ j s, InGroups st.2 j s ↔ (j ∈ processed ∧ RootOf p0 j s))

theorem gInv_init {p0 : List Nat} (hb0 : BoundedP p0) (hf0 : ForestP p0) :
    GInv p0 [] (p0, []) := by
  refine ⟨rfl, hb0, hf0, fun y r => Iff.rfl, List.nodup_nil, ?_, ?_⟩
  · intro x hx
    exact absurd hx (List.not_mem_nil _)
  · intro j s
    constructor
    · rintro ⟨l, hl, _⟩
      exact absurd hl (List.not_mem_nil _)
    · rintro ⟨hj, _⟩
      exact absurd hj (List.not_mem_nil _)

theorem gInv_step {p0 : List Nat} (hb0 : BoundedP p0) (hf0 : ForestP p0)
    {processed : List Nat} {st : List Nat × List (Nat × List Nat)}
    (h : GInv p0 processed st) {i : Nat} (hi : i < p0.length) :
    GInv p0 (processed ++ [i])
      ((ufFind st.1 i).2, addToGroup st.2 (ufFind st.1 i).1 i) := by
  obtain ⟨hlen, hb, hf, hroots, hnd, hne, hbuckets⟩ := h
  have hi1 : i < st.1.length := by omega
  have hfind_root : RootOf p0 i (ufFind st.1 i).1 :=
    (hroots i _).mp (ufFind_rootOf hb hf hi1)
  refine ⟨?_, ufFind_bounded hb hf hi1, ufFind_forest hb hf hi1, ?_, ?_, ?_, ?_⟩
  · rw [ufFind_len]
    exact hlen
  · intro y r
    rw [ufFind_roots_iff hb hf hi1]
    exact hroots y r
  · exact addToGroup_keys_nodup _ i hnd
  · exact addToGroup_nonempty hne
  · intro j s
    rw [inGroups_addToGroup, hbuckets j s]
    constructor
    · rintro (⟨hj, hr⟩ | ⟨rfl, rfl⟩)
      · exact ⟨List.mem_append_left _ hj, hr⟩
      · exact ⟨List.mem_append_right _ (List.mem_singleton_self _), hfind_root⟩
    · rintro ⟨hj, hr⟩
      rcases List.mem_append.mp hj with hj | hj
      · exact .inl ⟨hj, hr⟩
      · rw [List.mem_singleton] at hj
        subst hj
        exact .inr ⟨rfl, rootOf_unique hr hfind_root⟩

theorem gInv_foldl {p0 : List Nat} (hb0 : BoundedP p0) (hf0 : ForestP p0) :
    ∀ (is pr : List Nat) (st : List Nat × List (Nat × List Nat)),
      (∀ i ∈ is, i < p0.length) → GInv p0 pr st →
      GInv p0 (pr ++ is)
        (is.foldl (fun st i =>
          ((ufFind st.1 i).2, addToGroup st.2 (ufFind st.1 i).1 i)) st)
  | [], pr, st, _, h => by simpa using h
  | i :: is, pr, st, his, h => by
    have hi : i < p0.length := his i (List.mem_cons_self _ _)
    have h' := gInv_step hb0 hf0 h hi
    have := gInv_foldl hb0 hf0 is (pr ++ [i]) _
      (fun j hj => his j (List.mem_cons_of_mem _ hj)) h'
    simpa using this

/-- The bucket list built by `ufGroups` satisfies the invariant for the full
index range. -/
theorem ufGroups_gInv {p0 : List Nat} (hb0 : BoundedP p0) (hf0 : ForestP p0) :
    GInv p0 (List.range p0.length)
      ((List.range p0.length).foldl
        (fun st i => ((ufFind st.1 i).2, addToGroup st.2 (ufFind st.1 i).1 i))
        (p0, [])) := by
  have := gInv_foldl hb0 hf0 (List.range p0.length) [] (p0, [])
    (fun i hi => List.mem_range.mp hi) (gInv_init hb0 hf0)
  simpa using this

theorem ufGroups_eq (p0 : List Nat) :
    ufGroups p0 = (((List.range p0.length).foldl
      (fun st i => ((ufFind st.1 i).2, addToGroup st.2 (ufFind st.1 i).1 i))
      (p0, [])).2).map Prod.snd := rfl

/-- Bundled correctness of `ufGroups` over a bounded forest: the buckets
cover exactly `0..n-1`, are pairwise disjoint, and group indices by root. -/
theorem ufGroups_spec {p0 : List Nat} (hb0 : BoundedP p0) (hf0 : ForestP p0) :
    (∀ i, i < p0.length → ∃ c ∈ ufGroups p0, i ∈ c) ∧
    (∀ c ∈ ufGroups p0, ∀ i ∈ c, i < p0.length) ∧
    List.Pairwise (fun c d => ∀ i, i ∈ c → i ∉ d) (ufGroups p0) ∧
    (∀ x y, ((∃ c ∈ ufGroups p0, x ∈ c ∧ y ∈ c) ↔
      (x < p0.length ∧ y < p0.length ∧ SameRoot p0 x y))) := by
  obtain ⟨-, -, -, -, hnd, -, hbuckets⟩ := ufGroups_gInv hb0 hf0
  rw [ufGroups_eq]
  set g := ((List.range p0.length).foldl
    (fun st i => ((ufFind st.1 i).2, addToGroup st.2 (ufFind st.1 i).1 i))
    (p0, [])).2 with hg
  refine ⟨?_, ?_, ?_, ?_⟩
  · intro i hi
    obtain ⟨r, hr⟩ := rootOf_exists hf0 hi
    obtain ⟨l, hl, hil⟩ :=
      (hbuckets i r).mpr ⟨List.mem_range.mpr hi, hr⟩
    exact ⟨l, List.mem_map_of_mem Prod.snd hl, hil⟩
  · intro c hc i hic
    obtain ⟨x, hx, hxc⟩ := List.mem_map.mp hc
    have : InGroups g i x.1 := ⟨x.2, by rw [Prod.mk.eta]; exact hx, hxc ▸ hic⟩
    have := (hbuckets i x.1).mp this
    exact List.mem_range.mp this.1
  · have hpw : List.Pairwise (fun a b : Nat × List Nat => a.1 ≠ b.1) g := by
      have := hnd
      unfold List.Nodup at this
      exact (List.pairwise_map).mp this
    refine (List.pairwise_map).mpr (hpw.imp_of_mem ?_)
    intro a b ha hb hne i hia hib
    have h1 : RootOf p0 i a.1 :=
      ((hbuckets i a.1).mp ⟨a.2, by rw [Prod.mk.eta]; exact ha, hia⟩).2
    have h2 : RootOf p0 i b.1 :=
      ((hbuckets i b.1).mp ⟨b.2, by rw [Prod.mk.eta]; exact hb, hib⟩).2
    exact hne (rootOf_unique h1 h2)
  · intro x y
    constructor
    · rintro ⟨c, hc, hx, hy⟩
      obtain ⟨a, ha, hac⟩ := List.mem_map.mp hc
      have h1 := (hbuckets x a.1).mp ⟨a.2, by rw [Prod.mk.eta]; exact ha, hac ▸ hx⟩
      have h2 := (hbuckets y a.1).mp ⟨a.2, by rw [Prod.mk.eta]; exact ha, hac ▸ hy⟩
      exact ⟨List.mem_range.mp h1.1, List.mem_range.mp h2.1,
        a.1, h1.2, h2.2⟩
    · rintro ⟨hx, hy, r, hrx, hry⟩
      obtain ⟨l, hl, hxl⟩ :=
        (hbuckets x r).mpr ⟨List.mem_range.mpr hx, hrx⟩
      obtain ⟨l', hl', hyl⟩ :=
        (hbuckets y r).mpr ⟨List.mem_range.mpr hy, hry⟩
      have : l = l' := bucket_unique hnd hl hl'
      subst this
      exact ⟨l, List.mem_map_of_mem Prod.snd hl, hxl, hyl⟩

/-- Claim C2: for every threshold, the fragmentation groups are exactly the
connected components of the subgraph induced by the flows whose (present)
weight meets the threshold: every activity index is in exactly one group
(the groups cover `0..n-1` and are pairwise disjoint), two indices share a
group iff they are connected, and singleton exclusion is only the final
post-filter on the group list. -/
theorem C2_clustering_components (tasks : List Task) (flows : List Flow)
    (threshold : ℚ) :
    (∀ i, i < tasks.length →
       ∃ c ∈ fragmentComps tasks flows threshold, i ∈ c) ∧
    (∀ c ∈ fragmentComps tasks flows threshold, ∀ i ∈ c, i < tasks.length) ∧
    List.Pairwise (fun c d => ∀ i, i ∈ c → i ∉ d)
      (fragmentComps tasks flows threshold) ∧
    (∀ x y, x < tasks.length → y < tasks.length →
      ((∃ c ∈ fragmentComps tasks flows threshold, x ∈ c ∧ y ∈ c) ↔
        Coupled tasks flows threshold x y)) ∧
    fragmentByCoupling tasks flows threshold false =
      (fragmentByCoupling tasks flows threshold true).filter
        (fun g => 1 < g.length) ∧
    fragmentByCoupling tasks flows threshold true =
      fragmentComps tasks flows threshold := by
  obtain ⟨hlen, hb, hf, hiff⟩ := ufInv_coupleParent tasks flows threshold
  obtain ⟨hcover, hbound, hdisj, hsame⟩ := ufGroups_spec hb hf
  refine ⟨?_, ?_, hdisj, ?_, by simp [fragmentByCoupling], by
    simp [fragmentByCoupling]⟩
  · intro i hi
    exact hcover i (by omega)
  · intro c hc i hic
    have := hbound c hc i hic
    omega
  · intro x y hx hy
    rw [show fragmentComps tasks flows threshold =
      ufGroups (coupleParent tasks flows threshold) from rfl, hsame x y]
    constructor
    · rintro ⟨-, -, hsr⟩
      exact (hiff x y hx hy).mp hsr
    · intro h
      exact ⟨by omega, by omega, (hiff x y hx hy).mpr h⟩

/-! ## Boundary reachability resolver (`collectBoundaryNeighbors`)

The source runs two breadth-first searches from a masked node: backward over
incoming flows and forward over outgoing flows, continuing only through
masked nodes and recording every unmasked node hit as a frontier result.
Both directions are embedded once, parameterized by the two endpoint
selectors (`tail` = the endpoint where a flow attaches to the current node,
`head` = the neighbor it yields): the predecessor search uses
`tail = targetRef`, `head = sourceRef`; the successor search the converse.
All three JS `Set`s (queue companion `seen`, and the result) are modelled as
insertion-ordered duplicate-free lists. -/

/-- BFS state: worklist queue, seen set, and result accumulator. -/
structure BfsSt where
  q : List String
  seen : List String
  acc : List String
deriving DecidableEq, Repr

/-- Process one flow out of the current node: masked neighbors are enqueued
when unseen, unmasked neighbors are recorded as boundary results. -/
def bfsPush (masked : List String) (head : Flow → String) (st : BfsSt)
    (f : Flow) : BfsSt :=
  if head f ∈ masked then
    if head f ∈ st.seen then st
    else ⟨st.q ++ [head f], st.seen ++ [head f], st.acc⟩
  else
    if head f ∈ st.acc then st else ⟨st.q, st.seen, st.acc ++ [head f]⟩

/-- Process every flow attached to `cur` (the body of the `while` loop). -/
def bfsStep (flows : List Flow) (masked : List String)
    (tail head : Flow → String) (cur : String) (st : BfsSt) : BfsSt :=
  (flows.filter (fun f => decide (tail f = cur))).foldl (bfsPush masked head) st

/-- The BFS `while` loop, fuel-based; `masked.length + 1` fuel always
suffices (each enqueue adds a fresh masked id to `seen`). -/
def bfsRun (flows : List Flow) (masked : List String)
    (tail head : Flow → String) : Nat → BfsSt → List String
  | 0, st => st.acc
  | fuel+1, st =>
    match st.q with
    | [] => st.acc
    | cur :: qrest =>
      bfsRun flows masked tail head fuel
        (bfsStep flows masked tail head cur ⟨qrest, st.seen, st.acc⟩)

/-- `collectBoundaryNeighbors`: the unmasked boundary predecessors and
successors of `mid`, found through masked-only chains. -/
def collectBoundaryNeighbors (mid : String) (flows : List Flow)
    (masked : List String) : List String × List String :=
  (bfsRun flows masked Flow.tgt Flow.src (masked.length + 1) ⟨[mid], [mid], []⟩,
   bfsRun flows masked Flow.src Flow.tgt (masked.length + 1) ⟨[mid], [mid], []⟩)

/-- Reachability from `m` through masked nodes, in the direction given by the
selectors: one step moves along a flow whose `tail` endpoint is the current
node, provided the `head` endpoint is masked. -/
inductive MaskReach (flows : List Flow) (masked : List String)
    (tail head : Flow → String) (m : String) : String → Prop
  | refl : MaskReach flows masked tail head m m
  | step {x : String} {f : Flow} : MaskReach flows masked tail head m x →
      f ∈ flows → tail f = x → head f ∈ masked →
      MaskReach flows masked tail head m (head f)

/-- The declarative boundary set: unmasked nodes one flow beyond the
masked-reachable region. -/
def BoundarySpec (flows : List Flow) (masked : List String)
    (tail head : Flow → String) (m s : String) : Prop :=
  s ∉ masked ∧ ∃ x, MaskReach flows masked tail head m x ∧
    ∃ f ∈ flows, tail f = x ∧ head f = s

section BfsProof

variable (flows : List Flow) (masked : List String)
variable (ta hd : Flow → String) (m : String)

/-- A flow has been fully handled by the BFS w.r.t. a state. -/
def Handled (st : BfsSt) (f : Flow) : Prop :=
  (hd f ∈ masked → hd f ∈ st.seen) ∧ (hd f ∉ masked → hd f ∈ st.acc)

/-- The BFS loop invariant. -/
structure BfsInv (st : BfsSt) : Prop where
  hm : m ∈ st.seen
  qNodup : st.q.Nodup
  qseen : ∀ x ∈ st.q, x ∈ st.seen
  reach : ∀ x ∈ st.seen, MaskReach flows masked ta hd m x
  seenMasked : ∀ x ∈ st.seen, x = m ∨ x ∈ masked
  sound : ∀ s ∈ st.acc, BoundarySpec flows masked ta hd m s
  processed : ∀ x ∈ st.seen, x ∉ st.q → ∀ f ∈ flows, ta f = x →
    Handled masked hd st f

/-- The partial invariant holding while the node `cur` is being expanded. -/
structure BfsMidInv (cur : String) (st : BfsSt) : Prop where
  hm : m ∈ st.seen
  qNodup : st.q.Nodup
  qseen : ∀ x ∈ st.q, x ∈ st.seen
  reach : ∀ x ∈ st.seen, MaskReach flows masked ta hd m x
  seenMasked : ∀ x ∈ st.seen, x = m ∨ x ∈ masked
  sound : ∀ s ∈ st.acc, BoundarySpec flows masked ta hd m s
  curSeen : cur ∈ st.seen
  curNotQ : cur ∉ st.q
  processedExcept : ∀ x ∈ st.seen, x ∉ st.q → x ≠ cur → ∀ f ∈ flows,
    ta f = x → Handled masked hd st f

/-- Seen and accumulator sets only grow. -/
def BfsLe (st st' : BfsSt) : Prop :=
  (∀ x ∈ st.seen, x ∈ st'.seen) ∧ (∀ x ∈ st.acc, x ∈ st'.acc)

theorem bfsLe_refl (st : BfsSt) : BfsLe st st := ⟨fun _ h => h, fun _ h => h⟩

theorem bfsLe_trans {s1 s2 s3 : BfsSt} (h1 : BfsLe s1 s2) (h2 : BfsLe s2 s3) :
    BfsLe s1 s3 :=
  ⟨fun x hx => h2.1 x (h1.1 x hx), fun x hx => h2.2 x (h1.2 x hx)⟩

theorem handled_mono {st st' : BfsSt} (hle : BfsLe st st') {f : Flow}
    (h : Handled masked hd st f) : Handled masked hd st' f :=
  ⟨fun hmem => hle.1 _ (h.1 hmem), fun hmem => hle.2 _ (h.2 hmem)⟩

theorem bfsPush_le (st : BfsSt) (f : Flow) :
    BfsLe st (bfsPush masked hd st f) := by
  unfold bfsPush
  by_cases h1 : hd f ∈ masked
  · rw [if_pos h1]
    by_cases h2 : hd f ∈ st.seen
    · rw [if_pos h2]
      exact bfsLe_refl st
    · rw [if_neg h2]
      exact ⟨fun x hx => List.mem_append_left _ hx, fun _ h => h⟩
  · rw [if_neg h1]
    by_cases h2 : hd f ∈ st.acc
    · rw [if_pos h2]
      exact bfsLe_refl st
    · rw [if_neg h2]
      exact ⟨fun _ h => h, fun x hx => List.mem_append_left _ hx⟩

/-- Pushing one flow of the current node preserves the partial invariant and
handles that flow. -/
theorem bfsPush_mid {cur : String} {st : BfsSt}
    (hcur : MaskReach flows masked ta hd m cur)
    (hinv : BfsMidInv flows masked ta hd m cur st) {f : Flow}
    (hf : f ∈ flows) (hft : ta f = cur) :
    BfsMidInv flows masked ta hd m cur (bfsPush masked hd st f) ∧
      Handled masked hd (bfsPush masked hd st f) f := by
  have hreach : hd f ∈ masked → MaskReach flows masked ta hd m (hd f) :=
    fun hmem => MaskReach.step hcur hf hft hmem
  unfold bfsPush
  by_cases h1 : hd f ∈ masked
  · rw [if_pos h1]
    by_cases h2 : hd f ∈ st.seen
    · rw [if_pos h2]
      exact ⟨hinv, fun _ => h2, fun hn => absurd h1 hn⟩
    · rw [if_neg h2]
      refine ⟨⟨?_, ?_, ?_, ?_, ?_, ?_, ?_, ?_, ?_⟩, ?_, ?_⟩
      · exact List.mem_append_left _ hinv.hm
      · refine List.Nodup.append hinv.qNodup (List.nodup_singleton _) ?_
        intro x hx hx'
        rw [List.mem_singleton] at hx'
        subst hx'
        exact h2 (hinv.qseen _ hx)
      · intro x hx
        rcases List.mem_append.mp hx with hx | hx
        · exact List.mem_append_left _ (hinv.qseen x hx)
        · exact List.mem_append_right _ hx
      · intro x hx
        rcases List.mem_append.mp hx with hx | hx
        · exact hinv.reach x hx
        · rw [List.mem_singleton] at hx
          subst hx
          exact hreach h1
      · intro x hx
        rcases List.mem_append.mp hx with hx | hx
        · exact hinv.seenMasked x hx
        · rw [List.mem_singleton] at hx
          subst hx
          exact .inr h1
      · exact hinv.sound
      · exact List.mem_append_left _ hinv.curSeen
      · intro hx
        rcases List.mem_append.mp hx with hx | hx
        · exact hinv.curNotQ hx
        · rw [List.mem_singleton] at hx
          exact h2 (hx ▸ hinv.curSeen)
      · intro x hx hxq hxcur g hg hgt
        rcases List.mem_append.mp hx with hx | hx
        · have hxq' : x ∉ st.q := fun h => hxq (List.mem_append_left _ h)
          have hle : BfsLe st
              ⟨st.q ++ [hd f], st.seen ++ [hd f], st.acc⟩ := by
            refine ⟨?_, ?_⟩ <;> intro y hy
            · show y ∈ st.seen ++ [hd f]
              exact List.mem_append_left _ hy
            · exact hy
          exact handled_mono masked hd hle
            (hinv.processedExcept x hx hxq' hxcur g hg hgt)
        · exact absurd (List.mem_append_right _ hx) hxq
      · intro _
        exact List.mem_append_right _ (List.mem_singleton_self _)
      · intro hn
        exact absurd h1 hn
  · rw [if_neg h1]
    by_cases h2 : hd f ∈ st.acc
    · rw [if_pos h2]
      exact ⟨hinv, fun hmem => absurd hmem h1, fun _ => h2⟩
    · rw [if_neg h2]
      refine ⟨⟨hinv.hm, hinv.qNodup, hinv.qseen, hinv.reach, hinv.seenMasked,
        ?_, hinv.curSeen, hinv.curNotQ, ?_⟩, ?_, ?_⟩
      · intro s hs
        rcases List.mem_append.mp hs with hs | hs
        · exact hinv.sound s hs
        · rw [List.mem_singleton] at hs
          subst hs
          exact ⟨h1, cur, hcur, f, hf, hft, rfl⟩
      · intro x hx hxq hxcur g hg hgt
        have hle : BfsLe st ⟨st.q, st.seen, st.acc ++ [hd f]⟩ := by
          refine ⟨?_, ?_⟩ <;> intro y hy
          · exact hy
          · show y ∈ st.acc ++ [hd f]
            exact List.mem_append_left _ hy
        exact handled_mono masked hd hle
          (hinv.processedExcept x hx hxq hxcur g hg hgt)
      · intro hmem
        exact absurd hmem h1
      · intro _
        exact List.mem_append_right _ (List.mem_singleton_self _)

/-- Folding the pushes over a list of flows of the current node. -/
theorem bfsFold_mid {cur : String}
    (hcur : MaskReach flows masked ta hd m cur) :
    ∀ (L : List Flow) (st : BfsSt),
      (∀ f ∈ L, f ∈ flows ∧ ta f = cur) →
      BfsMidInv flows masked ta hd m cur st →
      BfsMidInv flows masked ta hd m cur
          (L.foldl (bfsPush masked hd) st) ∧
        BfsLe st (L.foldl (bfsPush masked hd) st) ∧
        ∀ f ∈ L, Handled masked hd (L.foldl (bfsPush masked hd) st) f
  | [], st, _, hinv => ⟨hinv, bfsLe_refl st, fun f hf => absurd hf (List.not_mem_nil f)⟩
  | f :: L, st, hL, hinv => by
    obtain ⟨hf, hft⟩ := hL f (List.mem_cons_self _ _)
    obtain ⟨hinv', hhandled⟩ := bfsPush_mid flows masked ta hd m hcur hinv hf hft
    obtain ⟨hinv'', hle, hrest⟩ :=
      bfsFold_mid hcur L (bfsPush masked hd st f)
        (fun g hg => hL g (List.mem_cons_of_mem _ hg)) hinv'
    refine ⟨hinv'', bfsLe_trans (bfsPush_le masked hd st f) hle, ?_⟩
    intro g hg
    rcases List.mem_cons.mp hg with rfl | hg
    · exact handled_mono masked hd hle hhandled
    · exact hrest g hg

/-- Expanding the dequeued node restores the full invariant. -/
theorem bfsStep_inv {cur : String} {qrest : List String} {st : BfsSt}
    (hq : st.q = cur :: qrest)
    (hinv : BfsInv flows masked ta hd m st) :
    BfsInv flows masked ta hd m
      (bfsStep flows masked ta hd cur ⟨qrest, st.seen, st.acc⟩) := by
  have hcurseen : cur ∈ st.seen := hinv.qseen cur (by rw [hq]; exact List.mem_cons_self _ _)
  have hcur : MaskReach flows masked ta hd m cur := hinv.reach cur hcurseen
  have hnd := hinv.qNodup
  rw [hq, List.nodup_cons] at hnd
  have hmid : BfsMidInv flows masked ta hd m cur ⟨qrest, st.seen, st.acc⟩ := by
    refine ⟨hinv.hm, hnd.2, ?_, hinv.reach, hinv.seenMasked, hinv.sound,
      hcurseen, hnd.1, ?_⟩
    · intro x hx
      exact hinv.qseen x (by rw [hq]; exact List.mem_cons_of_mem _ hx)
    · intro x hx hxq hxcur g hg hgt
      have hxq' : x ∉ st.q := by
        rw [hq]
        intro hmem
        rcases List.mem_cons.mp hmem with rfl | hmem
        · exact hxcur rfl
        · exact hxq hmem
      exact hinv.processed x hx hxq' g hg hgt
  have hLok : ∀ f ∈ flows.filter (fun f => decide (ta f = cur)),
      f ∈ flows ∧ ta f = cur := by
    intro f hf
    have := List.mem_filter.mp hf
    exact ⟨this.1, of_decide_eq_true this.2⟩
  obtain ⟨hmid', hle, hhandled⟩ :=
    bfsFold_mid flows masked ta hd m hcur
      (flows.filter (fun f => decide (ta f = cur))) ⟨qrest, st.seen, st.acc⟩
      hLok hmid
  refine ⟨hmid'.hm, hmid'.qNodup, hmid'.qseen, hmid'.reach, hmid'.seenMasked,
    hmid'.sound, ?_⟩
  intro x hx hxq g hg hgt
  by_cases hxcur : x = cur
  · subst hxcur
    exact hhandled g (List.mem_filter.mpr ⟨hg, decide_eq_true hgt⟩)
  · exact hmid'.processedExcept x hx hxq hxcur g hg hgt

/-- At an empty queue the accumulator is exactly the boundary set. -/
theorem bfs_final {st : BfsSt} (hq : st.q = [])
    (hinv : BfsInv flows masked ta hd m st) (s : String) :
    s ∈ st.acc ↔ BoundarySpec flows masked ta hd m s := by
  constructor
  · exact hinv.sound s
  · rintro ⟨hsm, x, hxreach, f, hf, hft, hfh⟩
    have hseen : ∀ y, MaskReach flows masked ta hd m y → y ∈ st.seen := by
      intro y hy
      induction hy with
      | refl => exact hinv.hm
      | step hr hg hgt hgm ih =>
        have := hinv.processed _ ih (by rw [hq]; exact List.not_mem_nil _)
          _ hg hgt
        exact this.1 hgm
    have hx := hseen x hxreach
    have := hinv.processed x hx (by rw [hq]; exact List.not_mem_nil _) f hf hft
    have hacc : hd f ∈ st.acc := this.2 (by rw [hfh]; exact hsm)
    rw [hfh] at hacc
    exact hacc

theorem bfsMeasure_push (st : BfsSt) (f : Flow) :
    (masked.toFinset \ (bfsPush masked hd st f).seen.toFinset).card +
        (bfsPush masked hd st f).q.length =
      (masked.toFinset \ st.seen.toFinset).card + st.q.length := by
  unfold bfsPush
  by_cases h1 : hd f ∈ masked
  · rw [if_pos h1]
    by_cases h2 : hd f ∈ st.seen
    · rw [if_pos h2]
    · rw [if_neg h2]
      have hmem : hd f ∈ masked.toFinset \ st.seen.toFinset := by
        rw [Finset.mem_sdiff, List.mem_toFinset, List.mem_toFinset]
        exact ⟨h1, h2⟩
      have hfin : (st.seen ++ [hd f]).toFinset =
          insert (hd f) st.seen.toFinset := by
        ext a
        simp [List.mem_toFinset, List.mem_append, or_comm]
      show (masked.toFinset \ (st.seen ++ [hd f]).toFinset).card +
          (st.q ++ [hd f]).length = _
      rw [hfin, List.length_append, Finset.sdiff_insert,
        Finset.card_erase_of_mem hmem]
      have hpos : 0 < (masked.toFinset \ st.seen.toFinset).card :=
        Finset.card_pos.mpr ⟨hd f, hmem⟩
      simp only [List.length_singleton]
      omega
  · rw [if_neg h1]
    by_cases h2 : hd f ∈ st.acc
    · rw [if_pos h2]
    · rw [if_neg h2]

theorem bfsMeasure_fold (L : List Flow) (st : BfsSt) :
    (masked.toFinset \
        (L.foldl (bfsPush masked hd) st).seen.toFinset).card +
      (L.foldl (bfsPush masked hd) st).q.length =
    (masked.toFinset \ st.seen.toFinset).card + st.q.length := by
  induction L generalizing st with
  | nil => rfl
  | cons f L ih => rw [List.foldl_cons, ih, bfsMeasure_push]

/-- Main BFS lemma: with sufficient fuel, the run computes exactly the
boundary set. -/
theorem bfsRun_spec : ∀ (fuel : Nat) (st : BfsSt),
    BfsInv flows masked ta hd m st →
    (masked.toFinset \ st.seen.toFinset).card + st.q.length ≤ fuel →
    ∀ s, s ∈ bfsRun flows masked ta hd fuel st ↔
      BoundarySpec flows masked ta hd m s
  | 0, st, hinv, hfuel, s => by
    have hq : st.q = [] := by
      cases hq : st.q with
      | nil => rfl
      | cons a l =>
        rw [hq] at hfuel
        simp at hfuel
    unfold bfsRun
    exact bfs_final flows masked ta hd m hq hinv s
  | fuel+1, st, hinv, hfuel, s => by
    unfold bfsRun
    cases hq : st.q with
    | nil => exact bfs_final flows masked ta hd m hq hinv s
    | cons cur qrest =>
      have hinv' := bfsStep_inv flows masked ta hd m hq hinv
      have hmeas : (masked.toFinset \
            (bfsStep flows masked ta hd cur
              ⟨qrest, st.seen, st.acc⟩).seen.toFinset).card +
          (bfsStep flows masked ta hd cur ⟨qrest, st.seen, st.acc⟩).q.length
          ≤ fuel := by
        unfold bfsStep
        rw [bfsMeasure_fold]
        rw [hq] at hfuel
        simp only [List.length_cons] at hfuel
        simp only []
        omega
      exact bfsRun_spec fuel _ hinv' hmeas s

/-- The initial state satisfies the invariant. -/
theorem bfsInv_init : BfsInv flows masked ta hd m ⟨[m], [m], []⟩ := by
  refine ⟨List.mem_singleton_self _, List.nodup_singleton _, ?_, ?_, ?_, ?_, ?_⟩
  · intro x hx
    exact hx
  · intro x hx
    rw [List.mem_singleton] at hx
    subst hx
    exact MaskReach.refl
  · intro x hx
    rw [List.mem_singleton] at hx
    exact .inl hx
  · intro s hs
    exact absurd hs (List.not_mem_nil _)
  · intro x hx hxq
    exact absurd hx hxq

theorem bfsMeasure_init :
    (masked.toFinset \ ([m] : List String).toFinset).card + 1 ≤
      masked.length + 1 := by
  have h1 : (masked.toFinset \ ([m] : List String).toFinset).card ≤
      masked.toFinset.card :=
    Finset.card_le_card (Finset.sdiff_subset)
  have h2 : masked.toFinset.card ≤ masked.length := masked.toFinset_card_le
  omega

/-- Characterization of either component of `collectBoundaryNeighbors`. -/
theorem bfs_boundary (s : String) :
    s ∈ bfsRun flows masked ta hd (masked.length + 1) ⟨[m], [m], []⟩ ↔
      BoundarySpec flows masked ta hd m s := by
  refine bfsRun_spec flows masked ta hd m (masked.length + 1)
    ⟨[m], [m], []⟩ (bfsInv_init flows masked ta hd m) ?_ s
  exact bfsMeasure_init masked m

end BfsProof

/-- Claim C5: for every masked node `m`, the boundary resolver returns as
`preds(m)` exactly the unmasked nodes reachable from `m` backward through
masked-only chains of incoming flows, and as `succs(m)` the symmetric set
over outgoing flows; when no such unmasked neighbor exists on a side, that
side is the empty set. -/
theorem C5_boundary_sets (flows : List Flow) (masked : List String)
    (m : String) (hm : m ∈ masked) :
    (∀ s, s ∈ (collectBoundaryNeighbors m flows masked).1 ↔
      BoundarySpec flows masked Flow.tgt Flow.src m s) ∧
    (∀ s, s ∈ (collectBoundaryNeighbors m flows masked).2 ↔
      BoundarySpec flows masked Flow.src Flow.tgt m s) ∧
    ((∀ s, ¬ BoundarySpec flows masked Flow.tgt Flow.src m s) →
      (collectBoundaryNeighbors m flows masked).1 = []) ∧
    ((∀ s, ¬ BoundarySpec flows masked Flow.src Flow.tgt m s) →
      (collectBoundaryNeighbors m flows masked).2 = []) := by
  have h1 : ∀ s, s ∈ (collectBoundaryNeighbors m flows masked).1 ↔
      BoundarySpec flows masked Flow.tgt Flow.src m s :=
    fun s => bfs_boundary flows masked Flow.tgt Flow.src m s
  have h2 : ∀ s, s ∈ (collectBoundaryNeighbors m flows masked).2 ↔
      BoundarySpec flows masked Flow.src Flow.tgt m s :=
    fun s => bfs_boundary flows masked Flow.src Flow.tgt m s
  refine ⟨h1, h2, ?_, ?_⟩
  · intro hno
    rw [List.eq_nil_iff_forall_not_mem]
    intro s hs
    exact hno s ((h1 s).mp hs)
  · intro hno
    rw [List.eq_nil_iff_forall_not_mem]
    intro s hs
    exact hno s ((h2 s).mp hs)

/-- Witness for C5 on the chain `A → M1 → M2 → B` with `M1`, `M2` masked:
the hypothesis holds and the resolver's predecessor side contains `A`. -/
theorem C5_boundary_sets_witness :
    ("M1" : String) ∈ ["M1", "M2"] ∧
    "A" ∈ (collectBoundaryNeighbors "M1"
      [⟨"f1", "A", "M1", none⟩, ⟨"f2", "M1", "M2", none⟩,
       ⟨"f3", "M2", "B", none⟩] ["M1", "M2"]).1 := by
  refine ⟨by decide, ?_⟩
  refine ((C5_boundary_sets
    [⟨"f1", "A", "M1", none⟩, ⟨"f2", "M1", "M2", none⟩, ⟨"f3", "M2", "B", none⟩]
    ["M1", "M2"] "M1" (by decide)).1 "A").mpr ?_
  exact ⟨by decide, "M1", MaskReach.refl, ⟨"f1", "A", "M1", none⟩,
    by decide, rfl, rfl⟩

/-! ## Cleanup pass (`clearOldFragments`) and masking (`maskByPrivacy`)

The masking run is embedded as a fold over the masked ids mirroring the
source exactly, including its quirks: the bypass-synthesis loop over the
whole masked set sits *inside* the outer per-node loop (it is a no-op after
the first pass), flow/association/annotation/node deletions follow it, and a
flow with an absent id is skipped by the removal guard `if (!fid || ...)`.
The run additionally returns an event trace recording every creation and
deletion in order, used to state the temporal claim C4. -/

/-- Does the id carry the reserved fragment marker `^Fragment_`? -/
def fragTest (s : String) : Bool := "Fragment_".data.isPrefixOf s.data

/-- Does the id look like a synthesized `AutoFlow_<n>` id? -/
def autoIdTest (s : String) : Bool := "AutoFlow_".data.isPrefixOf s.data

/-- `ensurePlane` creates the DI diagram/plane when absent (the only mutation
it can make that survives in the output document). -/
def ensurePlane (doc : Doc) : Doc := { doc with hasPlane := true }

/-- `clearOldFragments`: drop previously generated fragment groups (by the
`cpl:fragmentId` attribute or the `Fragment_` id convention), their DI
shapes, and every association whose `sourceRef` carries the marker.  Note:
it removes the associations directly, without the orphan cascade. -/
def clearOldFragments (doc : Doc) : Doc :=
  let d1 := { doc with
    groups := doc.groups.filter (fun g => !(g.fragAttr || fragTest g.id)) }
  let d2 := ensurePlane d1
  let d3 := { d2 with shapes := d2.shapes.filter (fun s => !(fragTest s.elem)) }
  { d3 with assocs := d3.assocs.filter (fun a => !(fragTest a.src)) }

/-- Privacy direction (`--privacy-dir`), validated to `above`/`below` by the
argument parser. -/
inductive PrivacyDir
  | above
  | below
deriving DecidableEq, Repr

/-- `shouldMask`: `p ≥ threshold` for direction `above`, `p < threshold` for
`below`; tasks without a numeric privacy value are never masked. -/
def shouldMask (dir : PrivacyDir) (threshold : ℚ) (p : Option ℚ) : Bool :=
  match p with
  | none => false
  | some v =>
    match dir with
    | .above => decide (v ≥ threshold)
    | .below => decide (v < threshold)

/-- The masked set: ids of the tasks selected by the privacy predicate. -/
def maskedIdsOf (doc : Doc) (threshold : ℚ) (dir : PrivacyDir) : List String :=
  (doc.tasks.filter (fun t => shouldMask dir threshold t.privacy)).map Task.id

/-- Mutation events of a masking run, in execution order. -/
inductive Event
  | createFlow (id src tgt : String)
  | delFlow (id : String)
  | delAssoc (id : String)
  | delAnnot (id : String)
  | delTask (id : String)
deriving DecidableEq, Repr

/-- State threaded through a masking run: the document, the `AutoFlow`
counter, the `removedFlowIds` and `autoFlowPairs` sets, and the event
trace. -/
structure MaskSt where
  doc : Doc
  counter : Nat
  removedFlowIds : List String
  autoKeys : List String
  trace : List Event
deriving DecidableEq, Repr

/-- `countAssociationsTouching`: associations referencing the id as either
endpoint. -/
def countAssociationsTouching (doc : Doc) (elId : String) : Nat :=
  (doc.assocs.filter (fun a => decide (a.src = elId ∨ a.tgt = elId))).length

/-- `maybeRemoveTextAnnotationIfOrphaned`: when no association references the
annotation any more, delete it (and its DI shape).  Like the DOM
`select(...)[0]` + `removeChild`, only the first annotation element with the
probed id is removed; the DI shape removal is a `forEach` over all
matches. -/
def maybeRemoveTextAnnotationIfOrphaned (st : MaskSt) (taId : String) :
    MaskSt :=
  if 0 < countAssociationsTouching st.doc taId then st
  else
    let st1 :=
      if st.doc.annots.any (fun t => t.id == taId) then
        { st with
          doc.annots := st.doc.annots.eraseP (fun t => t.id == taId),
          trace := st.trace ++ [Event.delAnnot taId] }
      else st
    { st1 with
      doc.shapes := st1.doc.shapes.filter (fun s => decide (s.elem ≠ taId)) }

/-- First half of `removeAssociationCascade`: delete the association's DI
edge and the association element itself. -/
def cascadeBase (st : MaskSt) (a : Assoc) : MaskSt :=
  { st with
    doc.diEdges := st.doc.diEdges.filter (fun e => decide (e.elem ≠ a.id)),
    doc.assocs := st.doc.assocs.filter (fun b => decide (b.id ≠ a.id)),
    trace := st.trace ++ [Event.delAssoc a.id] }

/-- Conditional orphan check on one endpoint (`if (srcIsTA) maybeRemove...`). -/
def cascadeTA (st : MaskSt) (flag : Bool) (x : String) : MaskSt :=
  if flag then maybeRemoveTextAnnotationIfOrphaned st x else st

/-- `removeAssociationCascade`: delete one association (and its DI edge),
then delete any of its two endpoints that is a now-orphaned annotation.  The
`srcIsTA`/`tgtIsTA` flags are both computed on the state right after the
association removal, as in the source. -/
def removeAssociationCascade (st : MaskSt) (a : Assoc) : MaskSt :=
  cascadeTA
    (cascadeTA (cascadeBase st a)
      ((cascadeBase st a).doc.annots.any (fun t => t.id == a.src)) a.src)
    ((cascadeBase st a).doc.annots.any (fun t => t.id == a.tgt)) a.tgt

/-- `removeAllAssociationsTouchingId`: snapshot the touching associations,
then cascade-remove each. -/
def removeAllAssociationsTouchingId (st : MaskSt) (elId : String) : MaskSt :=
  (st.doc.assocs.filter
    (fun a => decide (a.src = elId ∨ a.tgt = elId))).foldl
    removeAssociationCascade st

/-- `existingFlow`: is there a flow `src→tgt` in the current document? -/
def existingFlow (doc : Doc) (src tgt : String) : Bool :=
  doc.flows.any (fun f => f.src == src && f.tgt == tgt)

/-- The dedup key `` `${src}→${tgt}` `` of `autoFlowPairs`. -/
def pairKey (src tgt : String) : String := src ++ "→" ++ tgt

/-- Consider one `(src, tgt)` bypass pair: skip self-loops, already
synthesized keys, and existing edges; otherwise synthesize
`AutoFlow_<counter>` (plus its DI edge when both endpoint shapes exist). -/
def synthPair (st : MaskSt) (src tgt : String) : MaskSt :=
  if src = tgt then st
  else if pairKey src tgt ∈ st.autoKeys then st
  else if existingFlow st.doc src tgt then st
  else
    let newId := "AutoFlow_" ++ toString (st.counter + 1)
    let withDi :=
      st.doc.shapes.any (fun s => s.elem == src) &&
      st.doc.shapes.any (fun s => s.elem == tgt)
    { st with
      counter := st.counter + 1,
      autoKeys := st.autoKeys ++ [pairKey src tgt],
      doc := { st.doc with
        flows := st.doc.flows ++ [⟨newId, src, tgt, none⟩],
        diEdges := if withDi then st.doc.diEdges ++ [⟨newId⟩]
          else st.doc.diEdges },
      trace := st.trace ++ [Event.createFlow newId src tgt] }

/-- Bypass synthesis for one masked node: every `(pred, succ)` pair from the
boundary resolver, run on the *original* flow adjacency `flows0`. -/
def synthNode (flows0 : List Flow) (masked : List String) (st : MaskSt)
    (m : String) : MaskSt :=
  let bn := collectBoundaryNeighbors m flows0 masked
  bn.1.foldl (fun st src => bn.2.foldl (fun st tgt => synthPair st src tgt) st)
    st

/-- The inner synthesis loop over the whole masked set. -/
def synthAll (flows0 : List Flow) (masked : List String) (st : MaskSt) :
    MaskSt :=
  masked.foldl (synthNode flows0 masked) st

/-- Remove one flow touching the masked node: skipped entirely when the flow
has no id or was already removed this run; otherwise its associations
cascade first, then its DI edge and the flow itself go. -/
def removeFlowStep (st : MaskSt) (f : Flow) : MaskSt :=
  if f.id = "" ∨ f.id ∈ st.removedFlowIds then st
  else
    let st1 := removeAllAssociationsTouchingId st f.id
    { st1 with
      doc.diEdges := st1.doc.diEdges.filter (fun e => decide (e.elem ≠ f.id)),
      doc.flows := st1.doc.flows.filter (fun g => decide (g.id ≠ f.id)),
      removedFlowIds := st1.removedFlowIds ++ [f.id],
      trace := st1.trace ++ [Event.delFlow f.id] }

/-- One iteration of the outer loop of `maskByPrivacy` for the masked node
`mid`: (re-)run the synthesis loop for the whole masked set, then remove the
flows touching `mid`, `mid`'s own associations, the node, and its shape. -/
def maskOuterStep (flows0 : List Flow) (masked : List String) (st : MaskSt)
    (mid : String) : MaskSt :=
  let incoming := flows0.filter (fun f => decide (f.tgt = mid))
  let outgoing := flows0.filter (fun f => decide (f.src = mid))
  let st1 := synthAll flows0 masked st
  let st2 := (incoming ++ outgoing).foldl removeFlowStep st1
  let st3 := removeAllAssociationsTouchingId st2 mid
  let st4 :=
    if st3.doc.tasks.any (fun t => t.id == mid) then
      { st3 with
        doc.tasks := st3.doc.tasks.filter (fun t => decide (t.id ≠ mid)),
        trace := st3.trace ++ [Event.delTask mid] }
    else st3
  { st4 with
    doc.shapes := st4.doc.shapes.filter (fun s => decide (s.elem ≠ mid)) }

/-- `maskByPrivacy`: the whole masking run.  Returns the final document, the
reported count (`maskedIds.length`, `0` on the early no-op return), and the
event trace. -/
def maskByPrivacy (doc : Doc) (threshold : ℚ) (dir : PrivacyDir) :
    Doc × Nat × List Event :=
  let doc1 := ensurePlane doc
  let maskedIds := maskedIdsOf doc1 threshold dir
  if maskedIds = [] then (doc1, 0, [])
  else
    let flows0 := doc1.flows
    let stF := maskedIds.foldl (maskOuterStep flows0 maskedIds)
      ⟨doc1, 0, [], [], []⟩
    (stF.doc, maskedIds.length, stF.trace)

/-! ### Cleanup idempotence (claim C7) -/

theorem filter_self_idem {α : Type} (p : α → Bool) (l : List α) :
    (l.filter p).filter p = l.filter p := by
  rw [List.filter_filter]
  apply List.filter_congr
  intro a _
  simp

/-- Claim C7: running the cleanup pass twice produces the same document as
running it once. -/
theorem C7_cleanup_idempotent (doc : Doc) :
    clearOldFragments (clearOldFragments doc) = clearOldFragments doc := by
  unfold clearOldFragments ensurePlane
  simp only [filter_self_idem]

/-! ### The masked set and the empty-run behavior (claim C8) -/

/-- Amended claim C8: the masked set is exactly the tasks whose numeric
privacy `p` satisfies `p ≥ threshold` (direction `above`) or `p < threshold`
(direction `below`); a task without a numeric privacy attribute is never
masked; and when the masked set is empty the run reports zero and returns
the document unchanged except that a missing DI plane has been created
(`ensurePlane` runs before the empty check). -/
theorem C8_masked_set (doc : Doc) (threshold : ℚ) (dir : PrivacyDir) :
    (∀ id, id ∈ maskedIdsOf doc threshold dir ↔
      ∃ t ∈ doc.tasks, t.id = id ∧
        ∃ p, t.privacy = some p ∧
          ((dir = .above ∧ threshold ≤ p) ∨
           (dir = .below ∧ p < threshold))) ∧
    (∀ t ∈ doc.tasks, t.privacy = none →
      shouldMask dir threshold t.privacy = false) ∧
    (maskedIdsOf doc threshold dir = [] →
      maskByPrivacy doc threshold dir = (ensurePlane doc, 0, [])) := by
  refine ⟨?_, ?_, ?_⟩
  · intro id
    unfold maskedIdsOf
    rw [List.mem_map]
    constructor
    · rintro ⟨t, ht, rfl⟩
      rw [List.mem_filter] at ht
      obtain ⟨ht, hmask⟩ := ht
      refine ⟨t, ht, rfl, ?_⟩
      unfold shouldMask at hmask
      rcases hp : t.privacy with _ | p
      · rw [hp] at hmask
        exact absurd hmask (by simp)
      · rw [hp] at hmask
        refine ⟨p, rfl, ?_⟩
        rcases dir with _ | _
        · simp only [decide_eq_true_iff] at hmask
          exact .inl ⟨rfl, hmask⟩
        · simp only [decide_eq_true_iff] at hmask
          exact .inr ⟨rfl, hmask⟩
    · rintro ⟨t, ht, rfl, p, hp, hcond⟩
      refine ⟨t, ?_, rfl⟩
      rw [List.mem_filter]
      refine ⟨ht, ?_⟩
      unfold shouldMask
      rw [hp]
      rcases hcond with ⟨rfl, hc⟩ | ⟨rfl, hc⟩ <;>
        simp only [decide_eq_true_iff] <;> exact hc
  · intro t _ hp
    unfold shouldMask
    rw [hp]
  · intro hempty
    have h2 : maskedIdsOf (ensurePlane doc) threshold dir = [] := hempty
    simp [maskByPrivacy, h2]

/-- Witness for C8's empty-run conjunct on a concrete document with no
maskable task. -/
theorem C8_masked_set_witness :
    maskedIdsOf ⟨[⟨"A", none⟩], [], [], [], [], [], [], true⟩ (1/2)
        PrivacyDir.above = [] ∧
    maskByPrivacy ⟨[⟨"A", none⟩], [], [], [], [], [], [], true⟩ (1/2)
        PrivacyDir.above =
      (ensurePlane ⟨[⟨"A", none⟩], [], [], [], [], [], [], true⟩, 0, []) :=
  ⟨by decide,
   (C8_masked_set ⟨[⟨"A", none⟩], [], [], [], [], [], [], true⟩ (1/2)
     PrivacyDir.above).2.2 (by decide)⟩

/-- Counterexample to C8 as stated: on a document with no DI plane and an
empty masked set, the run reports zero but does not leave the document
unchanged — `ensurePlane` creates the plane before the empty check. -/
theorem C8_empty_run_changes_doc :
    (maskByPrivacy ⟨[⟨"A", none⟩], [], [], [], [], [], [], false⟩
        (1/2) PrivacyDir.above).2.1 = 0 ∧
    (maskByPrivacy ⟨[⟨"A", none⟩], [], [], [], [], [], [], false⟩
        (1/2) PrivacyDir.above).1 ≠
      ⟨[⟨"A", none⟩], [], [], [], [], [], [], false⟩ := by
  refine ⟨rfl, ?_⟩
  intro h
  have := congrArg Doc.hasPlane h
  simp [maskByPrivacy, ensurePlane, maskedIdsOf, shouldMask] at this

/-! ### The annotation orphan invariant (claim C6) -/

/-- Every annotation in the document is referenced by at least one
association. -/
def AnnotationInvariant (doc : Doc) : Prop :=
  ∀ ta ∈ doc.annots, ∃ a ∈ doc.assocs, a.src = ta.id ∨ a.tgt = ta.id

instance (doc : Doc) : Decidable (AnnotationInvariant doc) :=
  inferInstanceAs (Decidable (∀ ta ∈ doc.annots, ∃ a ∈ doc.assocs, _))

/-! ### Masking run: step-effect lemmas

Coarse per-step facts (which document components a step can touch, and how)
used by every invariant that is threaded through the run. -/

/-- Is the event a bypass-flow creation? (Everything else is a deletion.) -/
def Event.isCreate : Event → Bool
  | .createFlow _ _ _ => true
  | _ => false

/-- The bypass flows synthesized by a run, read off its trace. -/
def createdFlows (tr : List Event) : List Flow :=
  tr.filterMap (fun e => match e with
    | .createFlow id src tgt => some ⟨id, src, tgt, none⟩
    | _ => none)

theorem createdFlows_append (tr tr' : List Event) :
    createdFlows (tr ++ tr') = createdFlows tr ++ createdFlows tr' := by
  unfold createdFlows
  rw [List.filterMap_append]

theorem createdFlows_delete {tr' : List Event}
    (h : ∀ e ∈ tr', e.isCreate = false) (tr : List Event) :
    createdFlows (tr ++ tr') = createdFlows tr := by
  rw [createdFlows_append]
  have : createdFlows tr' = [] := by
    unfold createdFlows
    rw [List.filterMap_eq_nil]
    intro e he
    have := h e he
    cases e with
    | createFlow id src tgt => exact absurd this (by simp [Event.isCreate])
    | delFlow id => rfl
    | delAssoc id => rfl
    | delAnnot id => rfl
    | delTask id => rfl
  rw [this, List.append_nil]

theorem maybeRemove_effects (st : MaskSt) (taId : String) :
    (maybeRemoveTextAnnotationIfOrphaned st taId).doc.flows = st.doc.flows ∧
    (maybeRemoveTextAnnotationIfOrphaned st taId).doc.assocs =
      st.doc.assocs ∧
    (maybeRemoveTextAnnotationIfOrphaned st taId).doc.tasks = st.doc.tasks ∧
    (maybeRemoveTextAnnotationIfOrphaned st taId).autoKeys = st.autoKeys ∧
    (maybeRemoveTextAnnotationIfOrphaned st taId).counter = st.counter ∧
    (maybeRemoveTextAnnotationIfOrphaned st taId).removedFlowIds =
      st.removedFlowIds ∧
    (∀ t ∈ (maybeRemoveTextAnnotationIfOrphaned st taId).doc.annots,
      t ∈ st.doc.annots) ∧
    (∀ s ∈ (maybeRemoveTextAnnotationIfOrphaned st taId).doc.shapes,
      s ∈ st.doc.shapes) ∧
    (∃ tr, (maybeRemoveTextAnnotationIfOrphaned st taId).trace =
      st.trace ++ tr ∧ ∀ e ∈ tr, e.isCreate = false) := by
  simp only [maybeRemoveTextAnnotationIfOrphaned]
  split_ifs with h1 h2
  · exact ⟨rfl, rfl, rfl, rfl, rfl, rfl, fun t ht => ht, fun s hs => hs,
      [], by simp, fun e he => absurd he (List.not_mem_nil e)⟩
  · refine ⟨rfl, rfl, rfl, rfl, rfl, rfl, ?_, ?_, ?_⟩
    · intro t ht
      exact (List.eraseP_sublist _).subset ht
    · intro s hs
      exact (List.mem_filter.mp hs).1
    · refine ⟨[Event.delAnnot taId], rfl, ?_⟩
      intro e he
      rw [List.mem_singleton] at he
      subst he
      rfl
  · refine ⟨rfl, rfl, rfl, rfl, rfl, rfl, fun t ht => ht, ?_, ?_⟩
    · intro s hs
      exact (List.mem_filter.mp hs).1
    · exact ⟨[], by simp, fun e he => absurd he (List.not_mem_nil e)⟩

/-- The components a deletion-phase step may touch: flows, tasks, the key
set, the counter and the removed list are untouched; associations,
annotations and shapes only shrink; the trace is extended with deletion
events only. -/
def StepEffects (st st' : MaskSt) : Prop :=
  st'.doc.flows = st.doc.flows ∧
  (∀ b ∈ st'.doc.assocs, b ∈ st.doc.assocs) ∧
  (∀ t ∈ st'.doc.tasks, t ∈ st.doc.tasks) ∧
  st'.autoKeys = st.autoKeys ∧
  st'.counter = st.counter ∧
  st'.removedFlowIds = st.removedFlowIds ∧
  (∀ t ∈ st'.doc.annots, t ∈ st.doc.annots) ∧
  (∀ s ∈ st'.doc.shapes, s ∈ st.doc.shapes) ∧
  (∃ tr, st'.trace = st.trace ++ tr ∧ ∀ e ∈ tr, e.isCreate = false)

theorem stepEffects_refl (st : MaskSt) : StepEffects st st :=
  ⟨rfl, fun _ h => h, fun _ h => h, rfl, rfl, rfl, fun _ h => h, fun _ h => h,
   [], by simp, fun e he => absurd he (List.not_mem_nil e)⟩

theorem stepEffects_trans {s1 s2 s3 : MaskSt} (h1 : StepEffects s1 s2)
    (h2 : StepEffects s2 s3) : StepEffects s1 s3 := by
  obtain ⟨a1, a2, a3, a4, a5, a6, a7, a8, tr1, htr1, hc1⟩ := h1
  obtain ⟨b1, b2, b3, b4, b5, b6, b7, b8, tr2, htr2, hc2⟩ := h2
  refine ⟨b1.trans a1, fun b hb => a2 b (b2 b hb),
    fun t ht => a3 t (b3 t ht), b4.trans a4,
    b5.trans a5, b6.trans a6, fun t ht => a7 t (b7 t ht),
    fun s hs => a8 s (b8 s hs), tr1 ++ tr2, ?_, ?_⟩
  · rw [htr2, htr1, List.append_assoc]
  · intro e he
    rcases List.mem_append.mp he with he | he
    · exact hc1 e he
    · exact hc2 e he

theorem maybeRemove_stepEffects (st : MaskSt) (taId : String) :
    StepEffects st (maybeRemoveTextAnnotationIfOrphaned st taId) := by
  obtain ⟨e1, e2, e3, e4, e5, e6, e7, e8, tr, htr, hc⟩ :=
    maybeRemove_effects st taId
  exact ⟨e1, fun b hb => e2 ▸ hb, fun t ht => e3 ▸ ht, e4, e5, e6, e7, e8,
    tr, htr, hc⟩

theorem cascadeBase_stepEffects (st : MaskSt) (a : Assoc) :
    StepEffects st (cascadeBase st a) := by
  refine ⟨rfl, ?_, fun t ht => ht, rfl, rfl, rfl, fun t ht => ht,
    fun s hs => hs, [Event.delAssoc a.id], rfl, ?_⟩
  · intro b hb
    exact (List.mem_filter.mp hb).1
  · intro e he
    rw [List.mem_singleton] at he
    subst he
    rfl

theorem cascadeTA_stepEffects (st : MaskSt) (flag : Bool) (x : String) :
    StepEffects st (cascadeTA st flag x) := by
  unfold cascadeTA
  by_cases h : flag = true
  · rw [if_pos h]
    exact maybeRemove_stepEffects st x
  · rw [if_neg h]
    exact stepEffects_refl st

theorem cascade_stepEffects (st : MaskSt) (a : Assoc) :
    StepEffects st (removeAssociationCascade st a) := by
  unfold removeAssociationCascade
  exact stepEffects_trans (cascadeBase_stepEffects st a)
    (stepEffects_trans (cascadeTA_stepEffects _ _ _)
      (cascadeTA_stepEffects _ _ _))

theorem remAssocs_stepEffects (st : MaskSt) (elId : String) :
    StepEffects st (removeAllAssociationsTouchingId st elId) := by
  unfold removeAllAssociationsTouchingId
  generalize (st.doc.assocs.filter
    (fun a => decide (a.src = elId ∨ a.tgt = elId))) = L
  induction L generalizing st with
  | nil => exact stepEffects_refl st
  | cons a L ih =>
    rw [List.foldl_cons]
    exact stepEffects_trans (cascade_stepEffects st a)
      (ih (removeAssociationCascade st a))

/-! ### Masking-run invariants -/

/-- XML well-formedness of the input document: unique element ids (as XML
requires), and no pre-existing flow id using the reserved `AutoFlow_`
namespace of synthesized ids. -/
structure DocOK (doc : Doc) : Prop where
  tasksNodup : (doc.tasks.map Task.id).Nodup
  flowsNodup : (doc.flows.map Flow.id).Nodup
  assocsNodup : (doc.assocs.map Assoc.id).Nodup
  noAuto : ∀ f ∈ doc.flows, autoIdTest f.id = false

theorem sep_append_inj {c : Char} :
    ∀ {a1 : List Char} {b1 : List Char} {a2 b2 : List Char},
      c ∉ a1 → c ∉ a2 → a1 ++ c :: b1 = a2 ++ c :: b2 →
      a1 = a2 ∧ b1 = b2 := by
  intro a1
  induction a1 with
  | nil =>
    intro b1 a2 b2 _ h2 heq
    cases a2 with
    | nil =>
      simp only [List.nil_append, List.cons.injEq] at heq
      exact ⟨rfl, heq.2⟩
    | cons x a2' =>
      simp only [List.nil_append, List.cons_append, List.cons.injEq] at heq
      exact absurd (heq.1 ▸ List.mem_cons_self x a2') (by
        intro hmem
        exact h2 (heq.1 ▸ hmem))
  | cons x a1' ih =>
    intro b1 a2 b2 h1 h2 heq
    cases a2 with
    | nil =>
      simp only [List.cons_append, List.nil_append, List.cons.injEq] at heq
      exact absurd (List.mem_cons_self x a1') (by
        rw [heq.1]
        intro hmem
        exact h1 (heq.1 ▸ hmem))
    | cons y a2' =>
      simp only [List.cons_append, List.cons.injEq] at heq
      obtain ⟨hxy, heq'⟩ := heq
      have h1' : c ∉ a1' := fun hc => h1 (List.mem_cons_of_mem _ hc)
      have h2' : c ∉ a2' := fun hc => h2 (List.mem_cons_of_mem _ hc)
      obtain ⟨ha, hb⟩ := ih h1' h2' heq'
      exact ⟨by rw [hxy, ha], hb⟩

theorem pairKey_inj {s1 t1 s2 t2 : String}
    (h1 : ('→' : Char) ∉ s1.data) (h2 : ('→' : Char) ∉ s2.data)
    (h : pairKey s1 t1 = pairKey s2 t2) : s1 = s2 ∧ t1 = t2 := by
  unfold pairKey at h
  rw [String.ext_iff] at h
  rw [String.data_append, String.data_append, String.data_append,
    String.data_append] at h
  have harrow : ("→" : String).data = ['→'] := rfl
  rw [harrow] at h
  simp only [List.append_assoc, List.singleton_append] at h
  obtain ⟨ha, hb⟩ := sep_append_inj h1 h2 h
  exact ⟨String.ext ha, String.ext hb⟩

theorem autoIdTest_newId (n : Nat) :
    autoIdTest ("AutoFlow_" ++ toString n) = true := by
  unfold autoIdTest
  rw [List.isPrefixOf_iff_prefix, String.data_append]
  exact ⟨(toString n).data, rfl⟩

/-- The master invariant of a masking run, relative to the original flow
list `flows0` and the masked id set. -/
structure RunInv (flows0 : List Flow) (masked : List String) (st : MaskSt) :
    Prop where
  flowsProv : ∀ f ∈ st.doc.flows, f ∈ flows0 ∨ autoIdTest f.id = true
  origPresent : ∀ f ∈ flows0, f.src ∉ masked → f.tgt ∉ masked →
    f ∈ st.doc.flows
  keysInv : ∀ src tgt, ('→' : Char) ∉ src.data → ('→' : Char) ∉ tgt.data →
    pairKey src tgt ∈ st.autoKeys →
    ∃ f ∈ st.doc.flows, f.src = src ∧ f.tgt = tgt ∧
      src ∉ masked ∧ tgt ∉ masked
  removedSub : ∀ fid ∈ st.removedFlowIds, fid ≠ "" ∧ autoIdTest fid = false
  removedGone : ∀ fid ∈ st.removedFlowIds, ∀ f ∈ st.doc.flows, f.id ≠ fid
  created : ∀ f ∈ createdFlows st.trace,
    f.src ≠ f.tgt ∧ f.src ∉ masked ∧ f.tgt ∉ masked ∧
    autoIdTest f.id = true ∧ f ∈ st.doc.flows ∧
    pairKey f.src f.tgt ∈ st.autoKeys ∧
    ¬ ∃ g ∈ flows0, g.src = f.src ∧ g.tgt = f.tgt
  createdPW : List.Pairwise
    (fun f g => pairKey f.src f.tgt ≠ pairKey g.src g.tgt)
    (createdFlows st.trace)
  autoProv : ∀ f ∈ st.doc.flows, autoIdTest f.id = true →
    f ∈ createdFlows st.trace

theorem runInv_init (flows0 : List Flow) (masked : List String) (doc : Doc)
    (hflows : doc.flows = flows0)
    (hauto : ∀ f ∈ flows0, autoIdTest f.id = false) :
    RunInv flows0 masked ⟨doc, 0, [], [], []⟩ := by
  refine ⟨?_, ?_, ?_, ?_, ?_, ?_, ?_, ?_⟩
  · intro f hf
    rw [hflows] at hf
    exact .inl hf
  · intro f hf _ _
    rw [hflows]
    exact hf
  · intro src tgt _ _ hk
    exact absurd hk (List.not_mem_nil _)
  · intro fid hfid
    exact absurd hfid (List.not_mem_nil _)
  · intro fid hfid
    exact absurd hfid (List.not_mem_nil _)
  · intro f hf
    exact absurd hf (List.not_mem_nil f)
  · exact List.Pairwise.nil
  · intro f hf ha
    rw [hflows] at hf
    rw [hauto f hf] at ha
    exact Bool.noConfusion ha

/-- Deletion-phase steps that keep flows and keys intact preserve the run
invariant. -/
theorem runInv_of_stepEffects {flows0 : List Flow} {masked : List String}
    {st st' : MaskSt} (he : StepEffects st st')
    (h : RunInv flows0 masked st) : RunInv flows0 masked st' := by
  obtain ⟨e1, e2, e3, e4, e5, e6, e7, e8, tr, htr, hc⟩ := he
  have hcreated : createdFlows st'.trace = createdFlows st.trace := by
    rw [htr]
    exact createdFlows_delete hc st.trace
  refine ⟨?_, ?_, ?_, ?_, ?_, ?_, ?_, ?_⟩
  · intro f hf
    rw [e1] at hf
    exact h.flowsProv f hf
  · intro f hf h1 h2
    rw [e1]
    exact h.origPresent f hf h1 h2
  · intro src tgt h1 h2 hk
    rw [e4] at hk
    rw [e1]
    exact h.keysInv src tgt h1 h2 hk
  · intro fid hfid
    rw [e6] at hfid
    exact h.removedSub fid hfid
  · intro fid hfid
    rw [e6] at hfid
    rw [e1]
    exact h.removedGone fid hfid
  · intro f hf
    rw [hcreated] at hf
    have := h.created f hf
    rw [e1, e4]
    exact this
  · rw [hcreated]
    exact h.createdPW
  · intro f hf ha
    rw [e1] at hf
    rw [hcreated]
    exact h.autoProv f hf ha

theorem createdFlows_create (tr : List Event) (id src tgt : String) :
    createdFlows (tr ++ [Event.createFlow id src tgt]) =
      createdFlows tr ++ [⟨id, src, tgt, none⟩] := by
  rw [createdFlows_append]
  rfl

theorem existingFlow_iff (doc : Doc) (src tgt : String) :
    existingFlow doc src tgt = true ↔
      ∃ f ∈ doc.flows, f.src = src ∧ f.tgt = tgt := by
  unfold existingFlow
  rw [List.any_eq_true]
  constructor
  · rintro ⟨f, hf, hcond⟩
    rw [Bool.and_eq_true, beq_iff_eq, beq_iff_eq] at hcond
    exact ⟨f, hf, hcond⟩
  · rintro ⟨f, hf, h1, h2⟩
    refine ⟨f, hf, ?_⟩
    rw [Bool.and_eq_true, beq_iff_eq, beq_iff_eq]
    exact ⟨h1, h2⟩

/-- `synthPair` preserves the run invariant (for an unmasked, arrow-free
candidate pair, as delivered by the boundary resolver). -/
theorem runInv_synthPair {flows0 : List Flow} {masked : List String}
    {st : MaskSt} (h : RunInv flows0 masked st) {src tgt : String}
    (hsrc : src ∉ masked) (htgt : tgt ∉ masked)
    (hsa : ('→' : Char) ∉ src.data) (hta : ('→' : Char) ∉ tgt.data) :
    RunInv flows0 masked (synthPair st src tgt) := by
  unfold synthPair
  split_ifs with h1 h2 h3 h4
  · exact h
  · exact h
  · exact h
  all_goals {
    have hcr : createdFlows (st.trace ++
        [Event.createFlow ("AutoFlow_" ++ toString (st.counter + 1)) src tgt])
        = createdFlows st.trace ++
          [⟨"AutoFlow_" ++ toString (st.counter + 1), src, tgt, none⟩] :=
      createdFlows_create st.trace _ src tgt
    refine ⟨?_, ?_, ?_, ?_, ?_, ?_, ?_, ?_⟩
    · intro f hf
      rcases List.mem_append.mp hf with hf | hf
      · exact h.flowsProv f hf
      · rw [List.mem_singleton] at hf
        subst hf
        exact .inr (autoIdTest_newId _)
    · intro f hf hs ht
      exact List.mem_append_left _ (h.origPresent f hf hs ht)
    · intro s t hs2 ht2 hk
      rcases List.mem_append.mp hk with hk | hk
      · obtain ⟨f, hf, hp⟩ := h.keysInv s t hs2 ht2 hk
        exact ⟨f, List.mem_append_left _ hf, hp⟩
      · rw [List.mem_singleton] at hk
        obtain ⟨rfl, rfl⟩ := pairKey_inj hs2 hsa hk
        refine ⟨⟨"AutoFlow_" ++ toString (st.counter + 1), s, t, none⟩,
          List.mem_append_right _ (List.mem_singleton_self _),
          rfl, rfl, hsrc, htgt⟩
    · exact h.removedSub
    · intro fid hfid f hf
      rcases List.mem_append.mp hf with hf | hf
      · exact h.removedGone fid hfid f hf
      · rw [List.mem_singleton] at hf
        subst hf
        intro heq
        have h5 := (h.removedSub fid hfid).2
        rw [← heq, autoIdTest_newId] at h5
        exact Bool.noConfusion h5
    · intro f hf
      rw [hcr] at hf
      rcases List.mem_append.mp hf with hf | hf
      · obtain ⟨c1, c2, c3, c4, c5, c6, c7⟩ := h.created f hf
        exact ⟨c1, c2, c3, c4, List.mem_append_left _ c5,
          List.mem_append_left _ c6, c7⟩
      · rw [List.mem_singleton] at hf
        subst hf
        refine ⟨h1, hsrc, htgt, autoIdTest_newId _,
          List.mem_append_right _ (List.mem_singleton_self _),
          List.mem_append_right _ (List.mem_singleton_self _), ?_⟩
        rintro ⟨g, hg, hgs, hgt⟩
        have : g ∈ st.doc.flows :=
          h.origPresent g hg (hgs ▸ hsrc) (hgt ▸ htgt)
        exact h3 ((existingFlow_iff st.doc src tgt).mpr ⟨g, this, hgs, hgt⟩)
    · rw [hcr]
      rw [List.pairwise_append]
      refine ⟨h.createdPW, List.pairwise_singleton _ _, ?_⟩
      intro f hf g hg
      rw [List.mem_singleton] at hg
      subst hg
      intro heq
      exact h2 (heq ▸ (h.created f hf).2.2.2.2.2.1)
    · rw [hcr]
      intro f hf ha
      rcases List.mem_append.mp hf with hf | hf
      · exact List.mem_append_left _ (h.autoProv f hf ha)
      · rw [List.mem_singleton] at hf
        subst hf
        exact List.mem_append_right _ (List.mem_singleton_self _)
  }

/-- The pair `(src, tgt)` needs no further consideration: a self-loop, an
already-synthesized key, or a present flow. -/
def PairDone (st : MaskSt) (src tgt : String) : Prop :=
  src = tgt ∨ pairKey src tgt ∈ st.autoKeys ∨
    ∃ f ∈ st.doc.flows, f.src = src ∧ f.tgt = tgt

/-- Every boundary pair of every masked node has been considered. -/
def Considered (flows0 : List Flow) (masked : List String) (st : MaskSt) :
    Prop :=
  ∀ mm ∈ masked, ∀ src ∈ (collectBoundaryNeighbors mm flows0 masked).1,
    ∀ tgt ∈ (collectBoundaryNeighbors mm flows0 masked).2,
      PairDone st src tgt

/-- Keys and flows only grow during synthesis. -/
theorem synthPair_mono (st : MaskSt) (src tgt : String) :
    (∀ k ∈ st.autoKeys, k ∈ (synthPair st src tgt).autoKeys) ∧
    (∀ f ∈ st.doc.flows, f ∈ (synthPair st src tgt).doc.flows) := by
  unfold synthPair
  split_ifs
  all_goals first
  | exact ⟨fun _ h => h, fun _ h => h⟩
  | exact ⟨fun k hk => List.mem_append_left _ hk,
      fun f hf => List.mem_append_left _ hf⟩

theorem pairDone_mono {st st' : MaskSt}
    (hk : ∀ k ∈ st.autoKeys, k ∈ st'.autoKeys)
    (hf : ∀ f ∈ st.doc.flows, f ∈ st'.doc.flows) {src tgt : String}
    (h : PairDone st src tgt) : PairDone st' src tgt := by
  rcases h with h | h | ⟨f, hfm, hp⟩
  · exact .inl h
  · exact .inr (.inl (hk _ h))
  · exact .inr (.inr ⟨f, hf f hfm, hp⟩)

theorem synthPair_done (st : MaskSt) (src tgt : String) :
    PairDone (synthPair st src tgt) src tgt := by
  by_cases h1 : src = tgt
  · exact .inl h1
  · by_cases h2 : pairKey src tgt ∈ st.autoKeys
    · refine .inr (.inl ?_)
      have := (synthPair_mono st src tgt).1
      exact this _ h2
    · by_cases h3 : existingFlow st.doc src tgt = true
      · obtain ⟨f, hf, hp⟩ := (existingFlow_iff st.doc src tgt).mp h3
        refine .inr (.inr ⟨f, (synthPair_mono st src tgt).2 f hf, hp⟩)
      · refine .inr (.inl ?_)
        unfold synthPair
        rw [if_neg h1, if_neg h2, if_neg h3]
        exact List.mem_append_right _ (List.mem_singleton_self _)

theorem foldl_fixed {α β : Type} {g : β → α → β} {st : β} :
    ∀ L : List α, (∀ x ∈ L, g st x = st) → L.foldl g st = st
  | [], _ => rfl
  | x :: L, h => by
    rw [List.foldl_cons, h x (List.mem_cons_self _ _)]
    exact foldl_fixed L (fun y hy => h y (List.mem_cons_of_mem _ hy))

/-- The inner pair fold: afterwards every pair from the two lists is done,
and keys/flows have only grown. -/
theorem synthFold_done (src : String) :
    ∀ (T : List String) (st : MaskSt),
      (∀ tgt ∈ T, PairDone (T.foldl (fun st tgt => synthPair st src tgt) st)
        src tgt) ∧
      (∀ k ∈ st.autoKeys,
        k ∈ (T.foldl (fun st tgt => synthPair st src tgt) st).autoKeys) ∧
      (∀ f ∈ st.doc.flows,
        f ∈ (T.foldl (fun st tgt => synthPair st src tgt) st).doc.flows)
  | [], st => ⟨fun _ h => absurd h (List.not_mem_nil _),
      fun _ h => h, fun _ h => h⟩
  | tgt :: T, st => by
    obtain ⟨d, mk, mf⟩ := synthFold_done src T (synthPair st src tgt)
    refine ⟨?_, ?_, ?_⟩
    · intro t ht
      rcases List.mem_cons.mp ht with rfl | ht
      · rw [List.foldl_cons]
        exact pairDone_mono mk mf (synthPair_done st src t)
      · rw [List.foldl_cons]
        exact d t ht
    · intro k hk
      rw [List.foldl_cons]
      exact mk k ((synthPair_mono st src tgt).1 k hk)
    · intro f hf
      rw [List.foldl_cons]
      exact mf f ((synthPair_mono st src tgt).2 f hf)

/-- The synthesis step for one masked node considers all its boundary
pairs; keys and flows grow. -/
theorem synthNode_done (flows0 : List Flow) (masked : List String)
    (m : String) :
    ∀ (S : List String) (st : MaskSt),
      (∀ src ∈ S, ∀ tgt ∈ (collectBoundaryNeighbors m flows0 masked).2,
        PairDone (S.foldl (fun st src =>
          ((collectBoundaryNeighbors m flows0 masked).2).foldl
            (fun st tgt => synthPair st src tgt) st) st) src tgt) ∧
      (∀ k ∈ st.autoKeys, k ∈ (S.foldl (fun st src =>
          ((collectBoundaryNeighbors m flows0 masked).2).foldl
            (fun st tgt => synthPair st src tgt) st) st).autoKeys) ∧
      (∀ f ∈ st.doc.flows, f ∈ (S.foldl (fun st src =>
          ((collectBoundaryNeighbors m flows0 masked).2).foldl
            (fun st tgt => synthPair st src tgt) st) st).doc.flows)
  | [], st => ⟨fun _ h => absurd h (List.not_mem_nil _),
      fun _ h => h, fun _ h => h⟩
  | src :: S, st => by
    obtain ⟨d0, mk0, mf0⟩ := synthFold_done src
      ((collectBoundaryNeighbors m flows0 masked).2) st
    obtain ⟨d, mk, mf⟩ := synthNode_done flows0 masked m S
      (((collectBoundaryNeighbors m flows0 masked).2).foldl
        (fun st tgt => synthPair st src tgt) st)
    refine ⟨?_, ?_, ?_⟩
    · intro s hs tgt htgt
      rcases List.mem_cons.mp hs with rfl | hs
      · rw [List.foldl_cons]
        exact pairDone_mono mk mf (d0 tgt htgt)
      · rw [List.foldl_cons]
        exact d s hs tgt htgt
    · intro k hk
      rw [List.foldl_cons]
      exact mk k (mk0 k hk)
    · intro f hf
      rw [List.foldl_cons]
      exact mf f (mf0 f hf)

theorem synthNode_eq (flows0 : List Flow) (masked : List String)
    (st : MaskSt) (m : String) :
    synthNode flows0 masked st m =
      ((collectBoundaryNeighbors m flows0 masked).1).foldl
        (fun st src => ((collectBoundaryNeighbors m flows0 masked).2).foldl
          (fun st tgt => synthPair st src tgt) st) st := rfl

/-- Members of the preds side are unmasked sources of original flows. -/
theorem preds_fact {flows0 : List Flow} {masked : List String} {m s : String}
    (h : s ∈ (collectBoundaryNeighbors m flows0 masked).1) :
    s ∉ masked ∧ ∃ f ∈ flows0, f.src = s := by
  have := (bfs_boundary flows0 masked Flow.tgt Flow.src m s).mp h
  obtain ⟨hm, x, _, f, hf, _, hh⟩ := this
  exact ⟨hm, f, hf, hh⟩

/-- Members of the succs side are unmasked targets of original flows. -/
theorem succs_fact {flows0 : List Flow} {masked : List String} {m s : String}
    (h : s ∈ (collectBoundaryNeighbors m flows0 masked).2) :
    s ∉ masked ∧ ∃ f ∈ flows0, f.tgt = s := by
  have := (bfs_boundary flows0 masked Flow.src Flow.tgt m s).mp h
  obtain ⟨hm, x, _, f, hf, _, hh⟩ := this
  exact ⟨hm, f, hf, hh⟩

/-- Run-invariant preservation through the inner pair fold. -/
theorem runInv_synthFold {flows0 : List Flow} {masked : List String}
    (harrow : ∀ f ∈ flows0, ('→' : Char) ∉ f.src.data ∧
      ('→' : Char) ∉ f.tgt.data)
    {src : String} (hsrc : src ∉ masked)
    (hsa : ('→' : Char) ∉ src.data) :
    ∀ (T : List String) (st : MaskSt),
      (∀ tgt ∈ T, tgt ∉ masked ∧ ('→' : Char) ∉ tgt.data) →
      RunInv flows0 masked st →
      RunInv flows0 masked
        (T.foldl (fun st tgt => synthPair st src tgt) st)
  | [], st, _, h => h
  | tgt :: T, st, hT, h => by
    obtain ⟨h1, h2⟩ := hT tgt (List.mem_cons_self _ _)
    rw [List.foldl_cons]
    exact runInv_synthFold harrow hsrc hsa T _
      (fun t ht => hT t (List.mem_cons_of_mem _ ht))
      (runInv_synthPair h hsrc h1 hsa h2)

theorem runInv_synthNode {flows0 : List Flow} {masked : List String}
    (harrow : ∀ f ∈ flows0, ('→' : Char) ∉ f.src.data ∧
      ('→' : Char) ∉ f.tgt.data) {st : MaskSt}
    (h : RunInv flows0 masked st) (m : String) :
    RunInv flows0 masked (synthNode flows0 masked st m) := by
  rw [synthNode_eq]
  have hT : ∀ tgt ∈ (collectBoundaryNeighbors m flows0 masked).2,
      tgt ∉ masked ∧ ('→' : Char) ∉ tgt.data := by
    intro tgt ht
    obtain ⟨h1, f, hf, heq⟩ := succs_fact ht
    exact ⟨h1, heq ▸ (harrow f hf).2⟩
  have main : ∀ (S : List String) (st : MaskSt),
      (∀ s ∈ S, s ∉ masked ∧ ('→' : Char) ∉ s.data) →
      RunInv flows0 masked st →
      RunInv flows0 masked (S.foldl (fun st src =>
        ((collectBoundaryNeighbors m flows0 masked).2).foldl
          (fun st tgt => synthPair st src tgt) st) st) := by
    intro S
    induction S with
    | nil => exact fun st _ h => h
    | cons s S ih =>
      intro st hS h
      obtain ⟨h1, h2⟩ := hS s (List.mem_cons_self _ _)
      rw [List.foldl_cons]
      exact ih _ (fun t ht => hS t (List.mem_cons_of_mem _ ht))
        (runInv_synthFold harrow h1 h2 _ st hT h)
  refine main _ st ?_ h
  intro s hs
  obtain ⟨h1, f, hf, heq⟩ := preds_fact hs
  exact ⟨h1, heq ▸ (harrow f hf).1⟩

theorem runInv_synthAll {flows0 : List Flow} {masked : List String}
    (harrow : ∀ f ∈ flows0, ('→' : Char) ∉ f.src.data ∧
      ('→' : Char) ∉ f.tgt.data) :
    ∀ (S : List String) (st : MaskSt), RunInv flows0 masked st →
      RunInv flows0 masked (S.foldl (synthNode flows0 masked) st)
  | [], st, h => h
  | m :: S, st, h => by
    rw [List.foldl_cons]
    exact runInv_synthAll harrow S _ (runInv_synthNode harrow h m)

/-- Keys and flows only grow through `synthNode`. -/
theorem synthNode_mono (flows0 : List Flow) (masked : List String)
    (st : MaskSt) (m : String) :
    (∀ k ∈ st.autoKeys, k ∈ (synthNode flows0 masked st m).autoKeys) ∧
    (∀ f ∈ st.doc.flows, f ∈ (synthNode flows0 masked st m).doc.flows) := by
  rw [synthNode_eq]
  obtain ⟨_, mk, mf⟩ := synthNode_done flows0 masked m
    ((collectBoundaryNeighbors m flows0 masked).1) st
  exact ⟨mk, mf⟩

/-- After the full synthesis loop every boundary pair of every masked node
has been considered. -/
theorem synthAll_considered (flows0 : List Flow) (masked : List String)
    (st : MaskSt) :
    Considered flows0 masked (synthAll flows0 masked st) := by
  unfold synthAll
  have main : ∀ (S : List String) (st : MaskSt),
      (∀ mm ∈ S, ∀ src ∈ (collectBoundaryNeighbors mm flows0 masked).1,
        ∀ tgt ∈ (collectBoundaryNeighbors mm flows0 masked).2,
          PairDone (S.foldl (synthNode flows0 masked) st) src tgt) ∧
      (∀ k ∈ st.autoKeys,
        k ∈ (S.foldl (synthNode flows0 masked) st).autoKeys) ∧
      (∀ f ∈ st.doc.flows,
        f ∈ (S.foldl (synthNode flows0 masked) st).doc.flows) := by
    intro S
    induction S with
    | nil => exact fun st => ⟨fun _ h => absurd h (List.not_mem_nil _),
        fun _ h => h, fun _ h => h⟩
    | cons mm S ih =>
      intro st
      obtain ⟨d, mk, mf⟩ := ih (synthNode flows0 masked st mm)
      obtain ⟨m1, m2⟩ := synthNode_mono flows0 masked st mm
      refine ⟨?_, ?_, ?_⟩
      · intro m' hm' src hsrc tgt htgt
        rcases List.mem_cons.mp hm' with rfl | hm'
        · rw [List.foldl_cons]
          obtain ⟨d0, _, _⟩ := synthNode_done flows0 masked m'
            ((collectBoundaryNeighbors m' flows0 masked).1) st
          refine pairDone_mono mk mf ?_
          rw [synthNode_eq]
          exact d0 src hsrc tgt htgt
        · rw [List.foldl_cons]
          exact d m' hm' src hsrc tgt htgt
      · intro k hk
        rw [List.foldl_cons]
        exact mk k (m1 k hk)
      · intro f hf
        rw [List.foldl_cons]
        exact mf f (m2 f hf)
  intro mm hmm
  exact (main masked st).1 mm hmm

/-- A considered pair is skipped by `synthPair`. -/
theorem synthPair_id {st : MaskSt} {src tgt : String}
    (h : PairDone st src tgt) : synthPair st src tgt = st := by
  unfold synthPair
  by_cases h1 : src = tgt
  · rw [if_pos h1]
  · rw [if_neg h1]
    by_cases h2 : pairKey src tgt ∈ st.autoKeys
    · rw [if_pos h2]
    · rw [if_neg h2]
      rcases h with h | h | h
      · exact absurd h h1
      · exact absurd h h2
      · rw [if_pos ((existingFlow_iff st.doc src tgt).mpr h)]

theorem synthNode_id {flows0 : List Flow} {masked : List String}
    {st : MaskSt} {m : String}
    (h : ∀ src ∈ (collectBoundaryNeighbors m flows0 masked).1,
      ∀ tgt ∈ (collectBoundaryNeighbors m flows0 masked).2,
        PairDone st src tgt) :
    synthNode flows0 masked st m = st := by
  rw [synthNode_eq]
  refine foldl_fixed _ ?_
  intro src hsrc
  refine foldl_fixed _ ?_
  intro tgt htgt
  exact synthPair_id (h src hsrc tgt htgt)

/-- Once every pair is considered, the whole synthesis loop is a no-op. -/
theorem synthAll_id {flows0 : List Flow} {masked : List String}
    {st : MaskSt} (h : Considered flows0 masked st) :
    synthAll flows0 masked st = st := by
  unfold synthAll
  refine foldl_fixed _ ?_
  intro mm hmm
  exact synthNode_id (h mm hmm)

/-- The trace only receives creation events during synthesis. -/
def TraceCreates (st st' : MaskSt) : Prop :=
  ∃ tr, st'.trace = st.trace ++ tr ∧ ∀ e ∈ tr, e.isCreate = true

theorem traceCreates_refl (st : MaskSt) : TraceCreates st st :=
  ⟨[], by simp, fun e he => absurd he (List.not_mem_nil e)⟩

theorem traceCreates_trans {s1 s2 s3 : MaskSt} (h1 : TraceCreates s1 s2)
    (h2 : TraceCreates s2 s3) : TraceCreates s1 s3 := by
  obtain ⟨t1, ht1, hc1⟩ := h1
  obtain ⟨t2, ht2, hc2⟩ := h2
  refine ⟨t1 ++ t2, by rw [ht2, ht1, List.append_assoc], ?_⟩
  intro e he
  rcases List.mem_append.mp he with he | he
  · exact hc1 e he
  · exact hc2 e he

theorem synthPair_traceCreates (st : MaskSt) (src tgt : String) :
    TraceCreates st (synthPair st src tgt) := by
  unfold synthPair
  split_ifs
  · exact traceCreates_refl st
  · exact traceCreates_refl st
  · exact traceCreates_refl st
  all_goals {
    refine ⟨[Event.createFlow ("AutoFlow_" ++ toString (st.counter + 1))
      src tgt], rfl, ?_⟩
    intro e he
    rw [List.mem_singleton] at he
    subst he
    rfl
  }

theorem foldl_traceCreates {α : Type} {g : MaskSt → α → MaskSt}
    (hg : ∀ st x, TraceCreates st (g st x)) :
    ∀ (L : List α) (st : MaskSt), TraceCreates st (L.foldl g st)
  | [], st => traceCreates_refl st
  | x :: L, st => by
    rw [List.foldl_cons]
    exact traceCreates_trans (hg st x) (foldl_traceCreates hg L (g st x))

theorem synthAll_traceCreates (flows0 : List Flow) (masked : List String)
    (st : MaskSt) : TraceCreates st (synthAll flows0 masked st) := by
  unfold synthAll
  refine foldl_traceCreates ?_ masked st
  intro st' m
  rw [synthNode_eq]
  refine foldl_traceCreates ?_ _ st'
  intro st'' src
  exact foldl_traceCreates (fun s t => synthPair_traceCreates s src t) _ st''

/-! ### The removal phase -/

theorem removeFlowStep_skip (st : MaskSt) (f : Flow)
    (h : f.id = "" ∨ f.id ∈ st.removedFlowIds) : removeFlowStep st f = st := by
  unfold removeFlowStep
  rw [if_pos h]

theorem removeFlowStep_eq (st : MaskSt) (f : Flow)
    (h : ¬(f.id = "" ∨ f.id ∈ st.removedFlowIds)) :
    removeFlowStep st f =
      { removeAllAssociationsTouchingId st f.id with
        doc := { (removeAllAssociationsTouchingId st f.id).doc with
          diEdges := (removeAllAssociationsTouchingId st f.id).doc.diEdges.filter
            (fun e => decide (e.elem ≠ f.id)),
          flows := (removeAllAssociationsTouchingId st f.id).doc.flows.filter
            (fun g => decide (g.id ≠ f.id)) },
        removedFlowIds := (removeAllAssociationsTouchingId st f.id).removedFlowIds
          ++ [f.id],
        trace := (removeAllAssociationsTouchingId st f.id).trace
          ++ [Event.delFlow f.id] } := by
  simp only [removeFlowStep, if_neg h]

/-- Two original flows with a masked and with unmasked endpoints are
distinct, hence (by id uniqueness) have distinct ids. -/
theorem flows0_ne_of_masked {flows0 : List Flow} {masked : List String}
    (hnd : (flows0.map Flow.id).Nodup)
    {f g : Flow} (hf : f ∈ flows0) (hg : g ∈ flows0)
    (hfm : f.src ∈ masked ∨ f.tgt ∈ masked)
    (hgs : g.src ∉ masked) (hgt : g.tgt ∉ masked) : g.id ≠ f.id := by
  intro he
  have hgf : g = f := List.inj_on_of_nodup_map hnd hg hf he
  subst hgf
  rcases hfm with h | h
  · exact hgs h
  · exact hgt h

/-- A flow with an `AutoFlow_` id differs from every original flow. -/
theorem auto_ne_orig {flows0 : List Flow}
    (hauto : ∀ g ∈ flows0, autoIdTest g.id = false)
    {w f : Flow} (hw : autoIdTest w.id = true) (hf : f ∈ flows0) :
    w.id ≠ f.id := by
  intro he
  rw [he, hauto f hf] at hw
  exact Bool.noConfusion hw

/-- The cumulative effect of deletion-phase steps that may also delete
flows: everything shrinks, removed ids accumulate, keys and counter are
fixed, the trace receives deletion events only. -/
def DelEffects (st st' : MaskSt) : Prop :=
  (∀ g ∈ st'.doc.flows, g ∈ st.doc.flows) ∧
  (∀ b ∈ st'.doc.assocs, b ∈ st.doc.assocs) ∧
  (∀ t ∈ st'.doc.tasks, t ∈ st.doc.tasks) ∧
  (∀ t ∈ st'.doc.annots, t ∈ st.doc.annots) ∧
  (∀ s ∈ st'.doc.shapes, s ∈ st.doc.shapes) ∧
  (∀ i ∈ st.removedFlowIds, i ∈ st'.removedFlowIds) ∧
  st'.autoKeys = st.autoKeys ∧
  st'.counter = st.counter ∧
  (∃ tr, st'.trace = st.trace ++ tr ∧ ∀ e ∈ tr, e.isCreate = false)

theorem delEffects_refl (st : MaskSt) : DelEffects st st :=
  ⟨fun _ h => h, fun _ h => h, fun _ h => h, fun _ h => h, fun _ h => h,
   fun _ h => h, rfl, rfl, [], by simp,
   fun e he => absurd he (List.not_mem_nil e)⟩

theorem delEffects_trans {s1 s2 s3 : MaskSt} (h1 : DelEffects s1 s2)
    (h2 : DelEffects s2 s3) : DelEffects s1 s3 := by
  obtain ⟨a1, a2, a3, a4, a5, a6, a7, a8, tr1, htr1, hc1⟩ := h1
  obtain ⟨b1, b2, b3, b4, b5, b6, b7, b8, tr2, htr2, hc2⟩ := h2
  refine ⟨fun g hg => a1 g (b1 g hg), fun b hb => a2 b (b2 b hb),
    fun t ht => a3 t (b3 t ht), fun t ht => a4 t (b4 t ht),
    fun s hs => a5 s (b5 s hs), fun i hi => b6 i (a6 i hi),
    b7.trans a7, b8.trans a8, tr1 ++ tr2, ?_, ?_⟩
  · rw [htr2, htr1, List.append_assoc]
  · intro e he
    rcases List.mem_append.mp he with he | he
    · exact hc1 e he
    · exact hc2 e he

theorem delEffects_of_stepEffects {st st' : MaskSt}
    (h : StepEffects st st') : DelEffects st st' := by
  obtain ⟨e1, e2, e3, e4, e5, e6, e7, e8, tr, htr, hc⟩ := h
  exact ⟨fun g hg => e1 ▸ hg, e2, e3, e7, e8, fun i hi => e6 ▸ hi, e4, e5,
    tr, htr, hc⟩

theorem removeFlowStep_delEffects (st : MaskSt) (f : Flow) :
    DelEffects st (removeFlowStep st f) := by
  by_cases h0 : f.id = "" ∨ f.id ∈ st.removedFlowIds
  · rw [removeFlowStep_skip st f h0]
    exact delEffects_refl st
  · rw [removeFlowStep_eq st f h0]
    refine delEffects_trans
      (delEffects_of_stepEffects (remAssocs_stepEffects st f.id)) ?_
    refine ⟨?_, fun b hb => hb, fun t ht => ht, fun t ht => ht,
      fun s hs => hs, fun i hi => List.mem_append_left _ hi, rfl, rfl,
      [Event.delFlow f.id], rfl, ?_⟩
    · intro g hg
      exact (List.mem_filter.mp hg).1
    · intro e he
      rw [List.mem_singleton] at he
      subst he
      rfl

theorem foldl_delEffects {α : Type} {g : MaskSt → α → MaskSt}
    (hg : ∀ st x, DelEffects st (g st x)) :
    ∀ (L : List α) (st : MaskSt), DelEffects st (L.foldl g st)
  | [], st => delEffects_refl st
  | x :: L, st => by
    rw [List.foldl_cons]
    exact delEffects_trans (hg st x) (foldl_delEffects hg L (g st x))

/-- Run-invariant preservation by one flow-excision step on an original
flow with a masked endpoint. -/
theorem runInv_removeFlowStep {flows0 : List Flow} {masked : List String}
    (hnd : (flows0.map Flow.id).Nodup)
    (hauto : ∀ g ∈ flows0, autoIdTest g.id = false)
    {st : MaskSt} (h : RunInv flows0 masked st) {f : Flow}
    (hf0 : f ∈ flows0) (hfm : f.src ∈ masked ∨ f.tgt ∈ masked) :
    RunInv flows0 masked (removeFlowStep st f) := by
  by_cases h0 : f.id = "" ∨ f.id ∈ st.removedFlowIds
  · rw [removeFlowStep_skip st f h0]
    exact h
  · have h1 : RunInv flows0 masked (removeAllAssociationsTouchingId st f.id) :=
      runInv_of_stepEffects (remAssocs_stepEffects st f.id) h
    have hcr : createdFlows ((removeAllAssociationsTouchingId st f.id).trace
        ++ [Event.delFlow f.id]) =
        createdFlows (removeAllAssociationsTouchingId st f.id).trace := by
      refine createdFlows_delete ?_ _
      intro e he
      rw [List.mem_singleton] at he
      subst he
      rfl
    rw [removeFlowStep_eq st f h0]
    refine ⟨?_, ?_, ?_, ?_, ?_, ?_, ?_, ?_⟩
    · intro g hg
      exact h1.flowsProv g (List.mem_filter.mp hg).1
    · intro g hg hs ht
      refine List.mem_filter.mpr ⟨h1.origPresent g hg hs ht, ?_⟩
      exact decide_eq_true (flows0_ne_of_masked hnd hf0 hg hfm hs ht)
    · intro src tgt hs2 ht2 hk
      obtain ⟨w, hw, hws, hwt, hsm, htm⟩ := h1.keysInv src tgt hs2 ht2 hk
      have hne : w.id ≠ f.id := by
        rcases h1.flowsProv w hw with hw0 | hwa
        · refine flows0_ne_of_masked hnd hf0 hw0 hfm ?_ ?_
          · rw [hws]; exact hsm
          · rw [hwt]; exact htm
        · exact auto_ne_orig hauto hwa hf0
      exact ⟨w, List.mem_filter.mpr ⟨hw, decide_eq_true hne⟩,
        hws, hwt, hsm, htm⟩
    · intro fid hfid
      rcases List.mem_append.mp hfid with hfid | hfid
      · exact h1.removedSub fid hfid
      · rw [List.mem_singleton] at hfid
        subst hfid
        exact ⟨fun he => h0 (Or.inl he), hauto f hf0⟩
    · intro fid hfid g hg
      rcases List.mem_append.mp hfid with hfid | hfid
      · exact h1.removedGone fid hfid g (List.mem_filter.mp hg).1
      · rw [List.mem_singleton] at hfid
        subst hfid
        exact of_decide_eq_true (List.mem_filter.mp hg).2
    · intro c hc
      rw [hcr] at hc
      obtain ⟨c1, c2, c3, c4, c5, c6, c7⟩ := h1.created c hc
      have hne : c.id ≠ f.id := auto_ne_orig hauto c4 hf0
      exact ⟨c1, c2, c3, c4,
        List.mem_filter.mpr ⟨c5, decide_eq_true hne⟩, c6, c7⟩
    · rw [hcr]
      exact h1.createdPW
    · intro g hg ha
      rw [hcr]
      exact h1.autoProv g (List.mem_filter.mp hg).1 ha

/-- A considered pair stays considered through a flow-excision step. -/
theorem pairDone_removeFlowStep {flows0 : List Flow} {masked : List String}
    (hnd : (flows0.map Flow.id).Nodup)
    (hauto : ∀ g ∈ flows0, autoIdTest g.id = false)
    {st : MaskSt} (h : RunInv flows0 masked st) {f : Flow}
    (hf0 : f ∈ flows0) (hfm : f.src ∈ masked ∨ f.tgt ∈ masked)
    {src tgt : String} (hsrc : src ∉ masked) (htgt : tgt ∉ masked)
    (hd : PairDone st src tgt) : PairDone (removeFlowStep st f) src tgt := by
  by_cases h0 : f.id = "" ∨ f.id ∈ st.removedFlowIds
  · rw [removeFlowStep_skip st f h0]
    exact hd
  · rcases hd with hd | hd | ⟨w, hw, hws, hwt⟩
    · exact .inl hd
    · refine .inr (.inl ?_)
      rw [removeFlowStep_eq st f h0]
      show pairKey src tgt ∈ (removeAllAssociationsTouchingId st f.id).autoKeys
      rw [(remAssocs_stepEffects st f.id).2.2.2.1]
      exact hd
    · refine .inr (.inr ?_)
      have hw1 : w ∈ (removeAllAssociationsTouchingId st f.id).doc.flows := by
        rw [(remAssocs_stepEffects st f.id).1]
        exact hw
      have hne : w.id ≠ f.id := by
        rcases h.flowsProv w hw with hw0 | hwa
        · refine flows0_ne_of_masked hnd hf0 hw0 hfm ?_ ?_
          · rw [hws]; exact hsrc
          · rw [hwt]; exact htgt
        · exact auto_ne_orig hauto hwa hf0
      rw [removeFlowStep_eq st f h0]
      exact ⟨w, List.mem_filter.mpr ⟨hw1, decide_eq_true hne⟩, hws, hwt⟩

theorem considered_removeFlowStep {flows0 : List Flow} {masked : List String}
    (hnd : (flows0.map Flow.id).Nodup)
    (hauto : ∀ g ∈ flows0, autoIdTest g.id = false)
    {st : MaskSt} (h : RunInv flows0 masked st) {f : Flow}
    (hf0 : f ∈ flows0) (hfm : f.src ∈ masked ∨ f.tgt ∈ masked)
    (hc : Considered flows0 masked st) :
    Considered flows0 masked (removeFlowStep st f) := by
  intro mm hmm src hsrc tgt htgt
  exact pairDone_removeFlowStep hnd hauto h hf0 hfm (preds_fact hsrc).1
    (succs_fact htgt).1 (hc mm hmm src hsrc tgt htgt)

theorem considered_of_stepEffects {flows0 : List Flow} {masked : List String}
    {st st' : MaskSt} (he : StepEffects st st')
    (hc : Considered flows0 masked st) : Considered flows0 masked st' := by
  intro mm hmm src hsrc tgt htgt
  refine pairDone_mono ?_ ?_ (hc mm hmm src hsrc tgt htgt)
  · intro k hk
    rw [he.2.2.2.1]
    exact hk
  · intro g hg
    rw [he.1]
    exact hg

/-- Run invariant and consideredness through the whole excision fold. -/
theorem removal_fold {flows0 : List Flow} {masked : List String}
    (hnd : (flows0.map Flow.id).Nodup)
    (hauto : ∀ g ∈ flows0, autoIdTest g.id = false) :
    ∀ (L : List Flow) (st : MaskSt),
      (∀ f ∈ L, f ∈ flows0 ∧ (f.src ∈ masked ∨ f.tgt ∈ masked)) →
      RunInv flows0 masked st → Considered flows0 masked st →
      RunInv flows0 masked (L.foldl removeFlowStep st) ∧
      Considered flows0 masked (L.foldl removeFlowStep st)
  | [], st, _, h, hc => ⟨h, hc⟩
  | f :: L, st, hL, h, hc => by
    obtain ⟨hf0, hfm⟩ := hL f (List.mem_cons_self _ _)
    rw [List.foldl_cons]
    exact removal_fold hnd hauto L _
      (fun g hg => hL g (List.mem_cons_of_mem _ hg))
      (runInv_removeFlowStep hnd hauto h hf0 hfm)
      (considered_removeFlowStep hnd hauto h hf0 hfm hc)

/-- Every nonempty-id flow in the excision list ends up recorded in
`removedFlowIds`. -/
theorem removal_fold_removed :
    ∀ (L : List Flow) (st : MaskSt), (∀ f ∈ L, f.id ≠ "") →
      ∀ f ∈ L, f.id ∈ (L.foldl removeFlowStep st).removedFlowIds
  | [], _, _, f, hf => absurd hf (List.not_mem_nil f)
  | g :: L, st, hL, f, hf => by
    rw [List.foldl_cons]
    rcases List.mem_cons.mp hf with rfl | hf
    · have hself : f.id ∈ (removeFlowStep st f).removedFlowIds := by
        by_cases h0 : f.id = "" ∨ f.id ∈ st.removedFlowIds
        · rw [removeFlowStep_skip st f h0]
          rcases h0 with h0 | h0
          · exact absurd h0 (hL f (List.mem_cons_self _ _))
          · exact h0
        · rw [removeFlowStep_eq st f h0]
          exact List.mem_append_right _ (List.mem_singleton_self _)
      exact (foldl_delEffects removeFlowStep_delEffects L
        (removeFlowStep st f)).2.2.2.2.2.1 f.id hself
    · exact removal_fold_removed L (removeFlowStep st g)
        (fun x hx => hL x (List.mem_cons_of_mem _ hx)) f hf

theorem cascadeTA_assocs (st : MaskSt) (flag : Bool) (x : String) :
    (cascadeTA st flag x).doc.assocs = st.doc.assocs := by
  unfold cascadeTA
  split_ifs
  · exact (maybeRemove_effects st x).2.1
  · rfl

theorem cascade_assocs (st : MaskSt) (a : Assoc) :
    (removeAssociationCascade st a).doc.assocs =
      st.doc.assocs.filter (fun b => decide (b.id ≠ a.id)) := by
  unfold removeAssociationCascade
  rw [cascadeTA_assocs, cascadeTA_assocs]
  rfl

/-- Once an association of the worklist is cascaded, no association with
its id survives the rest of the fold. -/
theorem cascade_fold_gone :
    ∀ (L : List Assoc) (st : MaskSt), ∀ a ∈ L,
      ∀ b ∈ (L.foldl removeAssociationCascade st).doc.assocs, b.id ≠ a.id
  | [], _, a, ha, _, _ => absurd ha (List.not_mem_nil a)
  | c :: L, st, a, ha, b, hb => by
    rw [List.foldl_cons] at hb
    rcases List.mem_cons.mp ha with rfl | ha
    · have hsub : b ∈ (removeAssociationCascade st a).doc.assocs :=
        (foldl_delEffects (fun s y => delEffects_of_stepEffects
          (cascade_stepEffects s y)) L (removeAssociationCascade st a)).2.1
          b hb
      rw [cascade_assocs] at hsub
      exact of_decide_eq_true (List.mem_filter.mp hsub).2
    · exact cascade_fold_gone L _ a ha b hb

/-- After `removeAllAssociationsTouchingId`, no surviving association
touches the id. -/
theorem remAssocs_gone (st : MaskSt) (elId : String) :
    ∀ a ∈ (removeAllAssociationsTouchingId st elId).doc.assocs,
      a.src ≠ elId ∧ a.tgt ≠ elId := by
  intro a ha
  have hsub : a ∈ st.doc.assocs :=
    (remAssocs_stepEffects st elId).2.1 a ha
  unfold removeAllAssociationsTouchingId at ha
  constructor
  · intro heq
    exact cascade_fold_gone _ st a
      (List.mem_filter.mpr ⟨hsub, decide_eq_true (Or.inl heq)⟩) a ha rfl
  · intro heq
    exact cascade_fold_gone _ st a
      (List.mem_filter.mpr ⟨hsub, decide_eq_true (Or.inr heq)⟩) a ha rfl

/-- The parts of the state that never grow across a whole outer iteration
(synthesis included): associations, tasks, annotations, shapes shrink and
removed flow ids accumulate. -/
def DocShrink (st st' : MaskSt) : Prop :=
  (∀ b ∈ st'.doc.assocs, b ∈ st.doc.assocs) ∧
  (∀ t ∈ st'.doc.tasks, t ∈ st.doc.tasks) ∧
  (∀ t ∈ st'.doc.annots, t ∈ st.doc.annots) ∧
  (∀ s ∈ st'.doc.shapes, s ∈ st.doc.shapes) ∧
  (∀ i ∈ st.removedFlowIds, i ∈ st'.removedFlowIds)

theorem docShrink_refl (st : MaskSt) : DocShrink st st :=
  ⟨fun _ h => h, fun _ h => h, fun _ h => h, fun _ h => h, fun _ h => h⟩

theorem docShrink_trans {s1 s2 s3 : MaskSt} (h1 : DocShrink s1 s2)
    (h2 : DocShrink s2 s3) : DocShrink s1 s3 :=
  ⟨fun b hb => h1.1 b (h2.1 b hb), fun t ht => h1.2.1 t (h2.2.1 t ht),
   fun t ht => h1.2.2.1 t (h2.2.2.1 t ht),
   fun s hs => h1.2.2.2.1 s (h2.2.2.2.1 s hs),
   fun i hi => h2.2.2.2.2 i (h1.2.2.2.2 i hi)⟩

theorem docShrink_of_stepEffects {st st' : MaskSt} (h : StepEffects st st') :
    DocShrink st st' :=
  ⟨h.2.1, h.2.2.1, h.2.2.2.2.2.2.1, h.2.2.2.2.2.2.2.1,
   fun i hi => h.2.2.2.2.2.1 ▸ hi⟩

theorem docShrink_of_delEffects {st st' : MaskSt} (h : DelEffects st st') :
    DocShrink st st' :=
  ⟨h.2.1, h.2.2.1, h.2.2.2.1, h.2.2.2.2.1, h.2.2.2.2.2.1⟩

theorem foldl_docShrink {α : Type} {g : MaskSt → α → MaskSt}
    (hg : ∀ st x, DocShrink st (g st x)) :
    ∀ (L : List α) (st : MaskSt), DocShrink st (L.foldl g st)
  | [], st => docShrink_refl st
  | x :: L, st => by
    rw [List.foldl_cons]
    exact docShrink_trans (hg st x) (foldl_docShrink hg L (g st x))

theorem synthPair_docShrink (st : MaskSt) (src tgt : String) :
    DocShrink st (synthPair st src tgt) := by
  unfold synthPair
  split_ifs
  all_goals exact ⟨fun _ h => h, fun _ h => h, fun _ h => h, fun _ h => h,
    fun _ h => h⟩

theorem synthAll_docShrink (flows0 : List Flow) (masked : List String)
    (st : MaskSt) : DocShrink st (synthAll flows0 masked st) := by
  unfold synthAll
  refine foldl_docShrink ?_ masked st
  intro st' m
  rw [synthNode_eq]
  refine foldl_docShrink ?_ _ st'
  intro st'' src
  exact foldl_docShrink (fun s t => synthPair_docShrink s src t) _ st''

/-- The state after the synthesis loop and the flow-excision fold of one
outer iteration. -/
def outerStage2 (flows0 : List Flow) (masked : List String) (st : MaskSt)
    (mid : String) : MaskSt :=
  (flows0.filter (fun f => decide (f.tgt = mid)) ++
    flows0.filter (fun f => decide (f.src = mid))).foldl removeFlowStep
    (synthAll flows0 masked st)

/-- The state additionally after `mid`'s own association removal and the
conditional task removal. -/
def outerStage4 (flows0 : List Flow) (masked : List String) (st : MaskSt)
    (mid : String) : MaskSt :=
  let st3 := removeAllAssociationsTouchingId
    (outerStage2 flows0 masked st mid) mid
  if st3.doc.tasks.any (fun t => t.id == mid) then
    { st3 with
      doc.tasks := st3.doc.tasks.filter (fun t => decide (t.id ≠ mid)),
      trace := st3.trace ++ [Event.delTask mid] }
  else st3

theorem maskOuterStep_eq (flows0 : List Flow) (masked : List String)
    (st : MaskSt) (mid : String) :
    maskOuterStep flows0 masked st mid =
      { outerStage4 flows0 masked st mid with
        doc.shapes := (outerStage4 flows0 masked st mid).doc.shapes.filter
          (fun s => decide (s.elem ≠ mid)) } := rfl

theorem taskFilter_stepEffects (st : MaskSt) (mid : String) :
    StepEffects st (if st.doc.tasks.any (fun t => t.id == mid) then
      { st with
        doc.tasks := st.doc.tasks.filter (fun t => decide (t.id ≠ mid)),
        trace := st.trace ++ [Event.delTask mid] }
      else st) := by
  split_ifs
  · refine ⟨rfl, fun b hb => hb, ?_, rfl, rfl, rfl, fun t ht => ht,
      fun s hs => hs, [Event.delTask mid], rfl, ?_⟩
    · intro t ht
      exact (List.mem_filter.mp ht).1
    · intro e he
      rw [List.mem_singleton] at he
      subst he
      rfl
  · exact stepEffects_refl st

theorem shapeFilter_stepEffects (st : MaskSt) (mid : String) :
    StepEffects st { st with
      doc.shapes := st.doc.shapes.filter (fun s => decide (s.elem ≠ mid)) } := by
  refine ⟨rfl, fun b hb => hb, fun t ht => ht, rfl, rfl, rfl, fun t ht => ht,
    ?_, [], by simp, fun e he => absurd he (List.not_mem_nil e)⟩
  intro s hs
  exact (List.mem_filter.mp hs).1

theorem outerStep_docShrink (flows0 : List Flow) (masked : List String)
    (st : MaskSt) (mid : String) :
    DocShrink st (maskOuterStep flows0 masked st mid) := by
  rw [maskOuterStep_eq]
  have hA : DocShrink st (synthAll flows0 masked st) :=
    synthAll_docShrink flows0 masked st
  have hB : DocShrink (synthAll flows0 masked st)
      (outerStage2 flows0 masked st mid) :=
    docShrink_of_delEffects (foldl_delEffects removeFlowStep_delEffects _ _)
  have hC : DocShrink (outerStage2 flows0 masked st mid)
      (removeAllAssociationsTouchingId
        (outerStage2 flows0 masked st mid) mid) :=
    docShrink_of_stepEffects (remAssocs_stepEffects _ mid)
  have hD : DocShrink (removeAllAssociationsTouchingId
        (outerStage2 flows0 masked st mid) mid)
      (outerStage4 flows0 masked st mid) :=
    docShrink_of_stepEffects (taskFilter_stepEffects _ mid)
  have hE : DocShrink (outerStage4 flows0 masked st mid)
      { outerStage4 flows0 masked st mid with
        doc.shapes := (outerStage4 flows0 masked st mid).doc.shapes.filter
          (fun s => decide (s.elem ≠ mid)) } :=
    docShrink_of_stepEffects (shapeFilter_stepEffects _ mid)
  exact docShrink_trans hA (docShrink_trans hB
    (docShrink_trans hC (docShrink_trans hD hE)))

/-- Everything of the masked node `mid` is gone from the state: its flows
are recorded removed, and no association, shape or task references it. -/
def MidDone (flows0 : List Flow) (st : MaskSt) (mid : String) : Prop :=
  (∀ f ∈ flows0, f.src = mid ∨ f.tgt = mid → f.id ∈ st.removedFlowIds) ∧
  (∀ a ∈ st.doc.assocs, a.src ≠ mid ∧ a.tgt ≠ mid) ∧
  (∀ s ∈ st.doc.shapes, s.elem ≠ mid) ∧
  (∀ t ∈ st.doc.tasks, t.id ≠ mid)

theorem midDone_of_docShrink {flows0 : List Flow} {st st' : MaskSt}
    {mid : String} (hs : DocShrink st st') (h : MidDone flows0 st mid) :
    MidDone flows0 st' mid :=
  ⟨fun f hf hm => hs.2.2.2.2 _ (h.1 f hf hm),
   fun a ha => h.2.1 a (hs.1 a ha),
   fun s hsm => h.2.2.1 s (hs.2.2.2.1 s hsm),
   fun t ht => h.2.2.2 t (hs.2.1 t ht)⟩

/-- Membership in the excision worklist comes from `flows0`. -/
theorem hio_mem {flows0 : List Flow} {mid : String} {g : Flow}
    (hg : g ∈ flows0.filter (fun f => decide (f.tgt = mid)) ++
      flows0.filter (fun f => decide (f.src = mid))) : g ∈ flows0 := by
  rcases List.mem_append.mp hg with hg | hg
  · exact (List.mem_filter.mp hg).1
  · exact (List.mem_filter.mp hg).1

/-- One outer iteration fully retires its own masked node. -/
theorem outerStep_midDone {flows0 : List Flow} (masked : List String)
    (hid : ∀ f ∈ flows0, f.id ≠ "") (st : MaskSt) (mid : String) :
    MidDone flows0 (maskOuterStep flows0 masked st mid) mid := by
  rw [maskOuterStep_eq]
  have hse : StepEffects (outerStage2 flows0 masked st mid)
      { outerStage4 flows0 masked st mid with
        doc.shapes := (outerStage4 flows0 masked st mid).doc.shapes.filter
          (fun s => decide (s.elem ≠ mid)) } := by
    refine stepEffects_trans (remAssocs_stepEffects
      (outerStage2 flows0 masked st mid) mid) ?_
    exact stepEffects_trans (taskFilter_stepEffects _ mid)
      (shapeFilter_stepEffects _ mid)
  refine ⟨?_, ?_, ?_, ?_⟩
  · intro f hf hm
    have hmem : f ∈ flows0.filter (fun f => decide (f.tgt = mid)) ++
        flows0.filter (fun f => decide (f.src = mid)) := by
      rcases hm with hm | hm
      · exact List.mem_append_right _
          (List.mem_filter.mpr ⟨hf, decide_eq_true hm⟩)
      · exact List.mem_append_left _
          (List.mem_filter.mpr ⟨hf, decide_eq_true hm⟩)
    have h2 : f.id ∈ (outerStage2 flows0 masked st mid).removedFlowIds :=
      removal_fold_removed _ _
        (fun g hg => hid g (hio_mem hg)) f hmem
    rw [hse.2.2.2.2.2.1]
    exact h2
  · intro a ha
    have ha3 : a ∈ (removeAllAssociationsTouchingId
        (outerStage2 flows0 masked st mid) mid).doc.assocs := by
      refine (stepEffects_trans (taskFilter_stepEffects _ mid)
        (shapeFilter_stepEffects _ mid)).2.1 a ?_
      exact ha
    exact remAssocs_gone _ mid a ha3
  · intro s hs
    exact of_decide_eq_true (List.mem_filter.mp hs).2
  · intro t ht
    have ht' : t ∈ (outerStage4 flows0 masked st mid).doc.tasks := ht
    simp only [outerStage4] at ht'
    by_cases hany : ((removeAllAssociationsTouchingId
        (outerStage2 flows0 masked st mid) mid).doc.tasks.any
        (fun t => t.id == mid)) = true
    · rw [if_pos hany] at ht'
      exact of_decide_eq_true (List.mem_filter.mp ht').2
    · rw [if_neg hany] at ht'
      intro heq
      refine hany ?_
      rw [List.any_eq_true]
      refine ⟨t, ht', ?_⟩
      rw [heq]
      exact beq_self_eq_true mid

theorem run_midDone {flows0 : List Flow} (masked : List String)
    (hid : ∀ f ∈ flows0, f.id ≠ "") :
    ∀ (P : List String) (st : MaskSt), ∀ m ∈ P,
      MidDone flows0 (P.foldl (maskOuterStep flows0 masked) st) m
  | [], _, m, hm => absurd hm (List.not_mem_nil m)
  | p :: P, st, m, hm => by
    rw [List.foldl_cons]
    rcases List.mem_cons.mp hm with rfl | hm
    · refine midDone_of_docShrink ?_ (outerStep_midDone masked hid st m)
      exact foldl_docShrink
        (fun s x => outerStep_docShrink flows0 masked s x) P _
    · exact run_midDone masked hid P _ m hm

/-- One outer iteration: invariants, consideredness, and the trace shape. -/
theorem outerStep_master {flows0 : List Flow} {masked : List String}
    (hnd : (flows0.map Flow.id).Nodup)
    (hauto : ∀ g ∈ flows0, autoIdTest g.id = false)
    (harrow : ∀ f ∈ flows0, ('→' : Char) ∉ f.src.data ∧
      ('→' : Char) ∉ f.tgt.data)
    {st : MaskSt} {mid : String} (hmid : mid ∈ masked)
    (h : RunInv flows0 masked st) :
    RunInv flows0 masked (maskOuterStep flows0 masked st mid) ∧
    Considered flows0 masked (maskOuterStep flows0 masked st mid) ∧
    ∃ cs ds, (maskOuterStep flows0 masked st mid).trace =
        st.trace ++ cs ++ ds ∧
      (∀ e ∈ cs, e.isCreate = true) ∧ (∀ e ∈ ds, e.isCreate = false) ∧
      (Considered flows0 masked st → cs = []) := by
  rw [maskOuterStep_eq]
  have hio : ∀ f ∈ flows0.filter (fun f => decide (f.tgt = mid)) ++
      flows0.filter (fun f => decide (f.src = mid)),
      f ∈ flows0 ∧ (f.src ∈ masked ∨ f.tgt ∈ masked) := by
    intro f hf
    rcases List.mem_append.mp hf with hf | hf
    · obtain ⟨hf1, hf2⟩ := List.mem_filter.mp hf
      refine ⟨hf1, .inr ?_⟩
      rw [of_decide_eq_true hf2]
      exact hmid
    · obtain ⟨hf1, hf2⟩ := List.mem_filter.mp hf
      refine ⟨hf1, .inl ?_⟩
      rw [of_decide_eq_true hf2]
      exact hmid
  have h1 : RunInv flows0 masked (synthAll flows0 masked st) :=
    runInv_synthAll harrow masked st h
  have hc1 : Considered flows0 masked (synthAll flows0 masked st) :=
    synthAll_considered flows0 masked st
  obtain ⟨h2, hc2⟩ := removal_fold hnd hauto
    (flows0.filter (fun f => decide (f.tgt = mid)) ++
      flows0.filter (fun f => decide (f.src = mid)))
    (synthAll flows0 masked st) hio h1 hc1
  have hse : StepEffects (outerStage2 flows0 masked st mid)
      { outerStage4 flows0 masked st mid with
        doc.shapes := (outerStage4 flows0 masked st mid).doc.shapes.filter
          (fun s => decide (s.elem ≠ mid)) } := by
    refine stepEffects_trans (remAssocs_stepEffects
      (outerStage2 flows0 masked st mid) mid) ?_
    exact stepEffects_trans (taskFilter_stepEffects _ mid)
      (shapeFilter_stepEffects _ mid)
  have h2' : RunInv flows0 masked (outerStage2 flows0 masked st mid) := h2
  have hc2' : Considered flows0 masked (outerStage2 flows0 masked st mid) :=
    hc2
  refine ⟨runInv_of_stepEffects hse h2',
    considered_of_stepEffects hse hc2', ?_⟩
  obtain ⟨cs, hcs, hcsC⟩ := synthAll_traceCreates flows0 masked st
  obtain ⟨tr2, htr2, htr2D⟩ := (foldl_delEffects removeFlowStep_delEffects
    (flows0.filter (fun f => decide (f.tgt = mid)) ++
      flows0.filter (fun f => decide (f.src = mid)))
    (synthAll flows0 masked st)).2.2.2.2.2.2.2.2
  obtain ⟨tr3, htr3, htr3D⟩ := hse.2.2.2.2.2.2.2.2
  refine ⟨cs, tr2 ++ tr3, ?_, hcsC, ?_, ?_⟩
  · have htr2' : (outerStage2 flows0 masked st mid).trace =
        (synthAll flows0 masked st).trace ++ tr2 := htr2
    rw [htr3, htr2', hcs]
    simp [List.append_assoc]
  · intro e he
    rcases List.mem_append.mp he with he | he
    · exact htr2D e he
    · exact htr3D e he
  · intro hcons
    have hid1 : synthAll flows0 masked st = st := synthAll_id hcons
    rw [hid1] at hcs
    have hlen := congrArg List.length hcs
    rw [List.length_append] at hlen
    have : cs.length = 0 := by omega
    exact List.eq_nil_of_length_eq_zero this

/-- The trace of a (possibly partial) run splits into creations followed
by deletions; once a deletion has happened, every pair is considered. -/
def TraceOK (flows0 : List Flow) (masked : List String) (st : MaskSt) :
    Prop :=
  ∃ cs ds, st.trace = cs ++ ds ∧ (∀ e ∈ cs, e.isCreate = true) ∧
    (∀ e ∈ ds, e.isCreate = false) ∧
    (ds ≠ [] → Considered flows0 masked st)

/-- The outer fold over any sublist of the masked set preserves the run
invariant and the trace shape, and leaves every pair considered. -/
theorem run_master {flows0 : List Flow} {masked : List String}
    (hnd : (flows0.map Flow.id).Nodup)
    (hauto : ∀ g ∈ flows0, autoIdTest g.id = false)
    (harrow : ∀ f ∈ flows0, ('→' : Char) ∉ f.src.data ∧
      ('→' : Char) ∉ f.tgt.data) :
    ∀ (P : List String) (st : MaskSt), (∀ m ∈ P, m ∈ masked) →
      RunInv flows0 masked st → TraceOK flows0 masked st →
      RunInv flows0 masked (P.foldl (maskOuterStep flows0 masked) st) ∧
      TraceOK flows0 masked (P.foldl (maskOuterStep flows0 masked) st) ∧
      (P ≠ [] → Considered flows0 masked
        (P.foldl (maskOuterStep flows0 masked) st))
  | [], st, _, h, ht => ⟨h, ht, fun hne => absurd rfl hne⟩
  | p :: P, st, hP, h, ht => by
    rw [List.foldl_cons]
    obtain ⟨h', hc', cs1, ds1, htr', hcs1, hds1, hcond⟩ :=
      outerStep_master hnd hauto harrow (hP p (List.mem_cons_self _ _)) h
    obtain ⟨cs, ds, htr, hcs, hds, hdsC⟩ := ht
    have ht' : TraceOK flows0 masked (maskOuterStep flows0 masked st p) := by
      by_cases hde : ds = []
      · refine ⟨cs ++ cs1, ds1, ?_, ?_, hds1, fun _ => hc'⟩
        · rw [htr', htr, hde]
          simp [List.append_assoc]
        · intro e he
          rcases List.mem_append.mp he with he | he
          · exact hcs e he
          · exact hcs1 e he
      · have hcs1nil := hcond (hdsC hde)
        refine ⟨cs, ds ++ ds1, ?_, hcs, ?_, fun _ => hc'⟩
        · rw [htr', htr, hcs1nil]
          simp [List.append_assoc]
        · intro e he
          rcases List.mem_append.mp he with he | he
          · exact hds e he
          · exact hds1 e he
    obtain ⟨hf, htf, hcf⟩ := run_master hnd hauto harrow P _
      (fun m hm => hP m (List.mem_cons_of_mem _ hm)) h' ht'
    refine ⟨hf, htf, fun _ => ?_⟩
    by_cases hPe : P = []
    · subst hPe
      exact hc'
    · exact hcf hPe

theorem maskedIdsOf_ensurePlane (doc : Doc) (threshold : ℚ)
    (dir : PrivacyDir) :
    maskedIdsOf (ensurePlane doc) threshold dir =
      maskedIdsOf doc threshold dir := rfl

theorem ensurePlane_flows (doc : Doc) :
    (ensurePlane doc).flows = doc.flows := rfl

/-- The final state of a (non-empty) masking run. -/
def runState (doc : Doc) (threshold : ℚ) (dir : PrivacyDir) : MaskSt :=
  (maskedIdsOf doc threshold dir).foldl
    (maskOuterStep doc.flows (maskedIdsOf doc threshold dir))
    ⟨ensurePlane doc, 0, [], [], []⟩

theorem maskByPrivacy_eq (doc : Doc) (threshold : ℚ) (dir : PrivacyDir)
    (hmask : maskedIdsOf doc threshold dir ≠ []) :
    maskByPrivacy doc threshold dir =
      ((runState doc threshold dir).doc,
       (maskedIdsOf doc threshold dir).length,
       (runState doc threshold dir).trace) := by
  simp only [maskByPrivacy, maskedIdsOf_ensurePlane, ensurePlane_flows]
  rw [if_neg hmask]
  rfl

theorem maskByPrivacy_empty (doc : Doc) (threshold : ℚ) (dir : PrivacyDir)
    (hmask : maskedIdsOf doc threshold dir = []) :
    maskByPrivacy doc threshold dir = (ensurePlane doc, 0, []) := by
  simp only [maskByPrivacy, maskedIdsOf_ensurePlane, ensurePlane_flows]
  rw [if_pos hmask]

/-- The run invariant, trace shape and consideredness at the final state
of a non-trivial masking run. -/
theorem runState_master (doc : Doc) (threshold : ℚ) (dir : PrivacyDir)
    (hnd : (doc.flows.map Flow.id).Nodup)
    (hauto : ∀ f ∈ doc.flows, autoIdTest f.id = false)
    (harrow : ∀ f ∈ doc.flows, ('→' : Char) ∉ f.src.data ∧
      ('→' : Char) ∉ f.tgt.data)
    (hmask : maskedIdsOf doc threshold dir ≠ []) :
    RunInv doc.flows (maskedIdsOf doc threshold dir)
      (runState doc threshold dir) ∧
    TraceOK doc.flows (maskedIdsOf doc threshold dir)
      (runState doc threshold dir) ∧
    Considered doc.flows (maskedIdsOf doc threshold dir)
      (runState doc threshold dir) := by
  have hinit : RunInv doc.flows (maskedIdsOf doc threshold dir)
      ⟨ensurePlane doc, 0, [], [], []⟩ :=
    runInv_init _ _ _ rfl hauto
  have htinit : TraceOK doc.flows (maskedIdsOf doc threshold dir)
      ⟨ensurePlane doc, 0, [], [], []⟩ :=
    ⟨[], [], rfl, fun e he => absurd he (List.not_mem_nil e),
      fun e he => absurd he (List.not_mem_nil e),
      fun hne => absurd rfl hne⟩
  obtain ⟨h1, h2, h3⟩ := run_master hnd hauto harrow
    (maskedIdsOf doc threshold dir) _ (fun m hm => hm) hinit htinit
  exact ⟨h1, h2, h3 hmask⟩

/-- Every masked node is fully retired at the end of the run. -/
theorem runState_midDone (doc : Doc) (threshold : ℚ) (dir : PrivacyDir)
    (hid : ∀ f ∈ doc.flows, f.id ≠ "") :
    ∀ m ∈ maskedIdsOf doc threshold dir,
      MidDone doc.flows (runState doc threshold dir) m :=
  fun m hm => run_midDone _ hid _ _ m hm

/-! ### Masked-only chains (claim C1) -/

/-- A path that starts at `a` and immediately enters the masked set,
staying inside it: every node after `a` on the path is masked. -/
inductive MaskedPath (flows : List Flow) (masked : List String) :
    String → String → Prop
  | base {f : Flow} (hf : f ∈ flows) (hm : f.tgt ∈ masked) :
      MaskedPath flows masked f.src f.tgt
  | step {a x : String} {f : Flow} (h : MaskedPath flows masked a x)
      (hf : f ∈ flows) (hx : f.src = x) (hm : f.tgt ∈ masked) :
      MaskedPath flows masked a f.tgt

/-- `a` reaches `b` by a path whose intermediate nodes are all masked,
with at least one masked node in between. -/
def ChainThruMasked (flows : List Flow) (masked : List String)
    (a b : String) : Prop :=
  ∃ x, MaskedPath flows masked a x ∧ ∃ f ∈ flows, f.src = x ∧ f.tgt = b

theorem maskedPath_entry {flows : List Flow} {masked : List String}
    {a x : String} (h : MaskedPath flows masked a x) :
    x ∈ masked ∧ ∃ m1 ∈ masked, (∃ f ∈ flows, f.src = a ∧ f.tgt = m1) ∧
      MaskReach flows masked Flow.src Flow.tgt m1 x := by
  induction h with
  | base hf hm =>
    exact ⟨hm, _, hm, ⟨_, hf, rfl, rfl⟩, MaskReach.refl⟩
  | step h hf hx hm ih =>
    obtain ⟨hxm, m1, hm1, hfst, hreach⟩ := ih
    exact ⟨hm, m1, hm1, hfst, MaskReach.step hreach hf hx hm⟩

/-- A masked-only chain from `a` to `b` puts `a` among the boundary
predecessors and `b` among the boundary successors of the chain's first
masked node. -/
theorem chain_boundary {flows : List Flow} {masked : List String}
    {a b : String} (ha : a ∉ masked) (hb : b ∉ masked)
    (hchain : ChainThruMasked flows masked a b) :
    ∃ m1 ∈ masked, a ∈ (collectBoundaryNeighbors m1 flows masked).1 ∧
      b ∈ (collectBoundaryNeighbors m1 flows masked).2 := by
  obtain ⟨x, hpath, f, hf, hfs, hft⟩ := hchain
  obtain ⟨hxm, m1, hm1, ⟨g, hg, hgs, hgt⟩, hreach⟩ := maskedPath_entry hpath
  refine ⟨m1, hm1, ?_, ?_⟩
  · refine (bfs_boundary flows masked Flow.tgt Flow.src m1 a).mpr ?_
    exact ⟨ha, m1, MaskReach.refl, g, hg, hgt, hgs⟩
  · refine (bfs_boundary flows masked Flow.src Flow.tgt m1 b).mpr ?_
    exact ⟨hb, x, hreach, f, hf, hfs, hft⟩

/-- Counterexample to C6 as stated: the cleanup pass removes the
fragment-sourced association of a text annotation without cascading, leaving
the annotation with zero referencing associations. -/
theorem C6_cleanup_orphans_annotation :
    AnnotationInvariant
      ⟨[], [], [⟨"X", "Fragment_1_TA", "Fragment_1"⟩], [⟨"Fragment_1_TA"⟩],
       [⟨"Fragment_1", true⟩], [], [], true⟩ ∧
    ¬ AnnotationInvariant (clearOldFragments
      ⟨[], [], [⟨"X", "Fragment_1_TA", "Fragment_1"⟩], [⟨"Fragment_1_TA"⟩],
       [⟨"Fragment_1", true⟩], [], [], true⟩) := by
  constructor
  · decide
  · decide


/-! ### Claims C1, C3, C4, C10 -/

/-- A small concrete process used to instantiate the masking theorems:
`A → M → B` with only `M` masked at threshold `1/2`, direction above. -/
def wDoc : Doc :=
  { tasks := [⟨"A", some 0⟩, ⟨"M", some 1⟩, ⟨"B", some 0⟩],
    flows := [⟨"F1", "A", "M", none⟩, ⟨"F2", "M", "B", none⟩],
    assocs := [], annots := [],
    groups := [],
    shapes := [⟨"A"⟩, ⟨"M"⟩, ⟨"B"⟩],
    diEdges := [⟨"F1"⟩, ⟨"F2"⟩],
    hasPlane := true }

/-- C1: after a masking run, any two distinct unmasked activities joined in
the original document by a path running exclusively through masked nodes
are joined by a direct flow in the surviving graph (a synthesized bypass or
a surviving original edge); distinct synthesized flows serve distinct
`(pred, succ)` pairs, and no bypass is synthesized for a pair already
joined by an original flow. -/
theorem C1_bypass_reachability (doc : Doc) (threshold : ℚ)
    (dir : PrivacyDir) (hdoc : DocOK doc)
    (harrow : ∀ f ∈ doc.flows, ('→' : Char) ∉ f.src.data ∧
      ('→' : Char) ∉ f.tgt.data)
    {a b : String} (hab : a ≠ b)
    (ha : a ∉ maskedIdsOf doc threshold dir)
    (hb : b ∉ maskedIdsOf doc threshold dir)
    (hchain : ChainThruMasked doc.flows (maskedIdsOf doc threshold dir)
      a b) :
    (∃ f ∈ (maskByPrivacy doc threshold dir).1.flows,
      f.src = a ∧ f.tgt = b) ∧
    List.Pairwise (fun f g => ¬(f.src = g.src ∧ f.tgt = g.tgt))
      (createdFlows (maskByPrivacy doc threshold dir).2.2) ∧
    (∀ f ∈ createdFlows (maskByPrivacy doc threshold dir).2.2,
      ¬∃ g ∈ doc.flows, g.src = f.src ∧ g.tgt = f.tgt) := by
  obtain ⟨m1, hm1, hpred, hsucc⟩ := chain_boundary ha hb hchain
  have hmask : maskedIdsOf doc threshold dir ≠ [] := by
    intro he
    rw [he] at hm1
    exact List.not_mem_nil _ hm1
  obtain ⟨hrun, _, hcons⟩ := runState_master doc threshold dir
    hdoc.flowsNodup hdoc.noAuto harrow hmask
  rw [maskByPrivacy_eq doc threshold dir hmask]
  have hdone := hcons m1 hm1 a hpred b hsucc
  have haA : ('→' : Char) ∉ a.data := by
    obtain ⟨_, f, hf, hfa⟩ := preds_fact hpred
    rw [← hfa]
    exact (harrow f hf).1
  have hbA : ('→' : Char) ∉ b.data := by
    obtain ⟨_, f, hf, hfb⟩ := succs_fact hsucc
    rw [← hfb]
    exact (harrow f hf).2
  refine ⟨?_, ?_, ?_⟩
  · rcases hdone with hd | hd | hd
    · exact absurd hd hab
    · obtain ⟨f, hf, hfs, hft, _, _⟩ := hrun.keysInv a b haA hbA hd
      exact ⟨f, hf, hfs, hft⟩
    · exact hd
  · refine List.Pairwise.imp ?_ hrun.createdPW
    intro f g hfg
    rintro ⟨h1, h2⟩
    apply hfg
    rw [h1, h2]
  · intro f hf
    exact (hrun.created f hf).2.2.2.2.2.2

theorem C1_bypass_reachability_witness :
    ∃ f ∈ (maskByPrivacy wDoc (mkRat 1 2) PrivacyDir.above).1.flows,
      f.src = "A" ∧ f.tgt = "B" :=
  (C1_bypass_reachability wDoc (mkRat 1 2) PrivacyDir.above
    ⟨by decide, by decide, by decide, by decide⟩ (by decide) (by decide)
    (by decide) (by decide)
    ⟨"M", MaskedPath.base (f := ⟨"F1", "A", "M", none⟩) (by decide)
      (by decide),
     ⟨"F2", "M", "B", none⟩, by decide, rfl, rfl⟩).1

/-- C3: synthesized bypass flows are never self-loops, serve pairwise
distinct ordered pairs (at most one per pair and per run), and are never
created for a pair already joined by a pre-run flow. -/
theorem C3_bypass_invariants (doc : Doc) (threshold : ℚ)
    (dir : PrivacyDir) (hdoc : DocOK doc)
    (harrow : ∀ f ∈ doc.flows, ('→' : Char) ∉ f.src.data ∧
      ('→' : Char) ∉ f.tgt.data) :
    (∀ f ∈ createdFlows (maskByPrivacy doc threshold dir).2.2,
      f.src ≠ f.tgt) ∧
    List.Pairwise (fun f g => ¬(f.src = g.src ∧ f.tgt = g.tgt))
      (createdFlows (maskByPrivacy doc threshold dir).2.2) ∧
    (∀ f ∈ createdFlows (maskByPrivacy doc threshold dir).2.2,
      ¬∃ g ∈ doc.flows, g.src = f.src ∧ g.tgt = f.tgt) := by
  by_cases hmask : maskedIdsOf doc threshold dir = []
  · rw [maskByPrivacy_empty doc threshold dir hmask]
    exact ⟨fun f hf => absurd hf (List.not_mem_nil f), List.Pairwise.nil,
      fun f hf => absurd hf (List.not_mem_nil f)⟩
  · obtain ⟨hrun, _, _⟩ := runState_master doc threshold dir
      hdoc.flowsNodup hdoc.noAuto harrow hmask
    rw [maskByPrivacy_eq doc threshold dir hmask]
    refine ⟨fun f hf => (hrun.created f hf).1, ?_, ?_⟩
    · refine List.Pairwise.imp ?_ hrun.createdPW
      intro f g hfg
      rintro ⟨h1, h2⟩
      apply hfg
      rw [h1, h2]
    · intro f hf
      exact (hrun.created f hf).2.2.2.2.2.2

theorem C3_bypass_invariants_witness :
    List.Pairwise (fun f g => ¬(f.src = g.src ∧ f.tgt = g.tgt))
      (createdFlows (maskByPrivacy wDoc (mkRat 1 2) PrivacyDir.above).2.2) :=
  (C3_bypass_invariants wDoc (mkRat 1 2) PrivacyDir.above
    ⟨by decide, by decide, by decide, by decide⟩ (by decide)).2.1

/-- C4: in a masking run, the event trace is a block of bypass creations
followed by a block of deletions — every synthesis for the entire masked
set happens before any removal. -/
theorem C4_synthesis_before_removal (doc : Doc) (threshold : ℚ)
    (dir : PrivacyDir) (hdoc : DocOK doc)
    (harrow : ∀ f ∈ doc.flows, ('→' : Char) ∉ f.src.data ∧
      ('→' : Char) ∉ f.tgt.data) :
    ∃ cs ds, (maskByPrivacy doc threshold dir).2.2 = cs ++ ds ∧
      (∀ e ∈ cs, e.isCreate = true) ∧ (∀ e ∈ ds, e.isCreate = false) := by
  by_cases hmask : maskedIdsOf doc threshold dir = []
  · rw [maskByPrivacy_empty doc threshold dir hmask]
    exact ⟨[], [], rfl, fun e he => absurd he (List.not_mem_nil e),
      fun e he => absurd he (List.not_mem_nil e)⟩
  · obtain ⟨_, ⟨cs, ds, htr, hcs, hds, _⟩, _⟩ := runState_master doc
      threshold dir hdoc.flowsNodup hdoc.noAuto harrow hmask
    rw [maskByPrivacy_eq doc threshold dir hmask]
    exact ⟨cs, ds, htr, hcs, hds⟩

theorem C4_synthesis_before_removal_witness :
    ∃ cs ds, (maskByPrivacy wDoc (mkRat 1 2) PrivacyDir.above).2.2 = cs ++ ds ∧
      (∀ e ∈ cs, e.isCreate = true) ∧ (∀ e ∈ ds, e.isCreate = false) :=
  C4_synthesis_before_removal wDoc (mkRat 1 2) PrivacyDir.above
    ⟨by decide, by decide, by decide, by decide⟩ (by decide)

/-- C10: every bypass flow synthesized by a masking run has both endpoints
outside the masked set, and survives the excise phase into the final
document. -/
theorem C10_bypass_endpoints_unmasked (doc : Doc) (threshold : ℚ)
    (dir : PrivacyDir) (hdoc : DocOK doc)
    (harrow : ∀ f ∈ doc.flows, ('→' : Char) ∉ f.src.data ∧
      ('→' : Char) ∉ f.tgt.data) :
    ∀ f ∈ createdFlows (maskByPrivacy doc threshold dir).2.2,
      f.src ∉ maskedIdsOf doc threshold dir ∧
      f.tgt ∉ maskedIdsOf doc threshold dir ∧
      f ∈ (maskByPrivacy doc threshold dir).1.flows := by
  by_cases hmask : maskedIdsOf doc threshold dir = []
  · rw [maskByPrivacy_empty doc threshold dir hmask]
    exact fun f hf => absurd hf (List.not_mem_nil f)
  · obtain ⟨hrun, _, _⟩ := runState_master doc threshold dir
      hdoc.flowsNodup hdoc.noAuto harrow hmask
    rw [maskByPrivacy_eq doc threshold dir hmask]
    intro f hf
    obtain ⟨_, c2, c3, _, c5, _, _⟩ := hrun.created f hf
    exact ⟨c2, c3, c5⟩

theorem C10_bypass_endpoints_unmasked_witness :
    (⟨"AutoFlow_1", "A", "B", none⟩ : Flow) ∈
      createdFlows (maskByPrivacy wDoc (mkRat 1 2) PrivacyDir.above).2.2 ∧
    ("A" : String) ∉ maskedIdsOf wDoc (mkRat 1 2) PrivacyDir.above ∧
    ("B" : String) ∉ maskedIdsOf wDoc (mkRat 1 2) PrivacyDir.above ∧
    (⟨"AutoFlow_1", "A", "B", none⟩ : Flow) ∈
      (maskByPrivacy wDoc (mkRat 1 2) PrivacyDir.above).1.flows :=
  ⟨by decide,
   C10_bypass_endpoints_unmasked wDoc (mkRat 1 2) PrivacyDir.above
     ⟨by decide, by decide, by decide, by decide⟩ (by decide)
     ⟨"AutoFlow_1", "A", "B", none⟩ (by decide)⟩


/-! ### The annotation orphan invariant under masking (claim C6, amended) -/

theorem countTouch_pos {doc : Doc} {taId : String}
    (h : 0 < countAssociationsTouching doc taId) :
    ∃ a ∈ doc.assocs, a.src = taId ∨ a.tgt = taId := by
  unfold countAssociationsTouching at h
  obtain ⟨a, ha⟩ := List.exists_mem_of_length_pos h
  obtain ⟨ha1, ha2⟩ := List.mem_filter.mp ha
  exact ⟨a, ha1, of_decide_eq_true ha2⟩

/-- With duplicate-free annotation ids at most one element matches the
probed id, so removing the first match equals filtering the id out. -/
theorem eraseP_eq_filter_of_nodup :
    ∀ (l : List Annot) (taId : String), (l.map Annot.id).Nodup →
      l.eraseP (fun t => t.id == taId) =
        l.filter (fun t => decide (t.id ≠ taId))
  | [], _, _ => rfl
  | t :: l, taId, hnd => by
    rw [List.map_cons, List.nodup_cons] at hnd
    by_cases h : t.id = taId
    · rw [List.eraseP_cons_of_pos (by rw [h]; exact beq_self_eq_true taId),
        List.filter_cons_of_neg (by simp [h])]
      symm
      rw [List.filter_eq_self]
      intro a ha
      refine decide_eq_true ?_
      intro he
      refine hnd.1 ?_
      rw [h, ← he]
      exact List.mem_map_of_mem Annot.id ha
    · rw [List.eraseP_cons_of_neg (by simp [h])]
      have hfc : List.filter (fun t => decide (t.id ≠ taId)) (t :: l) =
          t :: List.filter (fun t => decide (t.id ≠ taId)) l := by
        simp [List.filter_cons, h]
      rw [hfc, eraseP_eq_filter_of_nodup l taId hnd.2]

theorem maybeRemove_annots_sublist (st : MaskSt) (taId : String) :
    List.Sublist (maybeRemoveTextAnnotationIfOrphaned st taId).doc.annots
      st.doc.annots := by
  simp only [maybeRemoveTextAnnotationIfOrphaned]
  split_ifs
  · exact List.Sublist.refl _
  · exact List.eraseP_sublist _
  · exact List.Sublist.refl _

theorem cascadeTA_annots_sublist (st : MaskSt) (flag : Bool) (x : String) :
    List.Sublist (cascadeTA st flag x).doc.annots st.doc.annots := by
  unfold cascadeTA
  split_ifs
  · exact maybeRemove_annots_sublist st x
  · exact List.Sublist.refl _

theorem cascade_annots_sublist (st : MaskSt) (a : Assoc) :
    List.Sublist (removeAssociationCascade st a).doc.annots
      st.doc.annots := by
  unfold removeAssociationCascade
  exact (cascadeTA_annots_sublist _ _ a.tgt).trans
    (cascadeTA_annots_sublist _ _ a.src)

theorem annots_nodup_sublist {l1 l2 : List Annot} (h : List.Sublist l1 l2)
    (hnd : (l2.map Annot.id).Nodup) : (l1.map Annot.id).Nodup :=
  (h.map Annot.id).nodup hnd

/-- If an annotation with the probed id survives the orphan check of a
document with duplicate-free annotation ids, the probed id had a
referencing association. -/
theorem maybeRemove_survivor {st : MaskSt} {taId : String} {ta : Annot}
    (hnd : (st.doc.annots.map Annot.id).Nodup)
    (hta : ta ∈ (maybeRemoveTextAnnotationIfOrphaned st taId).doc.annots)
    (hid : ta.id = taId) :
    0 < countAssociationsTouching st.doc taId := by
  simp only [maybeRemoveTextAnnotationIfOrphaned] at hta
  split_ifs at hta with h1 h2
  · exact h1
  · rw [eraseP_eq_filter_of_nodup st.doc.annots taId hnd] at hta
    exact absurd hid (of_decide_eq_true (List.mem_filter.mp hta).2)
  · exfalso
    refine h2 ?_
    rw [List.any_eq_true]
    refine ⟨ta, hta, ?_⟩
    rw [hid]
    exact beq_self_eq_true taId

theorem cascadeTA_true {flag : Bool} (h : flag = true) (st : MaskSt)
    (x : String) :
    cascadeTA st flag x = maybeRemoveTextAnnotationIfOrphaned st x := by
  unfold cascadeTA
  rw [if_pos h]

/-- One association cascade preserves the annotation orphan invariant,
relative to an ambient duplicate-free association list. -/
theorem annInv_cascade {A0 : List Assoc} (hnd : (A0.map Assoc.id).Nodup)
    {st : MaskSt} {a : Assoc}
    (hannNd : (st.doc.annots.map Annot.id).Nodup)
    (hsub : ∀ b ∈ st.doc.assocs, b ∈ A0) (ha : a ∈ A0)
    (h : AnnotationInvariant st.doc) :
    AnnotationInvariant (removeAssociationCascade st a).doc := by
  intro ta hta
  have htaSt : ta ∈ st.doc.annots :=
    (cascade_stepEffects st a).2.2.2.2.2.2.1 ta hta
  have hfa : (removeAssociationCascade st a).doc.assocs =
      st.doc.assocs.filter (fun b => decide (b.id ≠ a.id)) :=
    cascade_assocs st a
  obtain ⟨b, hb, hbr⟩ := h ta htaSt
  by_cases hbid : b.id = a.id
  · have hba : b = a := List.inj_on_of_nodup_map hnd (hsub b hb) ha hbid
    subst hba
    have hta' : ta ∈ (cascadeTA (cascadeTA (cascadeBase st b)
        ((cascadeBase st b).doc.annots.any (fun t => t.id == b.src)) b.src)
        ((cascadeBase st b).doc.annots.any (fun t => t.id == b.tgt))
        b.tgt).doc.annots := hta
    have hannots1 : ta ∈ (cascadeBase st b).doc.annots := htaSt
    rcases hbr with hsrc | htgt
    · have hflag : ((cascadeBase st b).doc.annots.any
          (fun t => t.id == b.src)) = true := by
        rw [List.any_eq_true]
        refine ⟨ta, hannots1, ?_⟩
        rw [hsrc]
        exact beq_self_eq_true ta.id
      have htaS0 : ta ∈ (cascadeTA (cascadeBase st b)
          ((cascadeBase st b).doc.annots.any (fun t => t.id == b.src))
          b.src).doc.annots :=
        (cascadeTA_stepEffects _ _ b.tgt).2.2.2.2.2.2.1 ta hta'
      rw [cascadeTA_true hflag] at htaS0
      have hannNd1 : (((cascadeBase st b).doc.annots).map Annot.id).Nodup :=
        hannNd
      have hcount := maybeRemove_survivor hannNd1 htaS0 hsrc.symm
      obtain ⟨c, hc, hcr⟩ := countTouch_pos hcount
      refine ⟨c, ?_, ?_⟩
      · rw [hfa]
        exact hc
      · rcases hcr with hcr | hcr
        · exact .inl (by rw [hcr, hsrc])
        · exact .inr (by rw [hcr, hsrc])
    · have hflag : ((cascadeBase st b).doc.annots.any
          (fun t => t.id == b.tgt)) = true := by
        rw [List.any_eq_true]
        refine ⟨ta, hannots1, ?_⟩
        rw [htgt]
        exact beq_self_eq_true ta.id
      have hta2 := hta'
      rw [cascadeTA_true hflag] at hta2
      have hannNd2 : (((cascadeTA (cascadeBase st b)
          ((cascadeBase st b).doc.annots.any (fun t => t.id == b.src))
          b.src).doc.annots).map Annot.id).Nodup := by
        refine annots_nodup_sublist (cascadeTA_annots_sublist _ _ b.src) ?_
        exact hannNd
      have hcount := maybeRemove_survivor hannNd2 hta2 htgt.symm
      obtain ⟨c, hc, hcr⟩ := countTouch_pos hcount
      rw [cascadeTA_assocs] at hc
      refine ⟨c, ?_, ?_⟩
      · rw [hfa]
        exact hc
      · rcases hcr with hcr | hcr
        · exact .inl (by rw [hcr, htgt])
        · exact .inr (by rw [hcr, htgt])
  · refine ⟨b, ?_, hbr⟩
    rw [hfa]
    exact List.mem_filter.mpr ⟨hb, decide_eq_true hbid⟩

theorem annInv_remAssocs_aux {A0 : List Assoc}
    (hnd : (A0.map Assoc.id).Nodup) :
    ∀ (L : List Assoc) (st : MaskSt), (∀ b ∈ st.doc.assocs, b ∈ A0) →
      (∀ a ∈ L, a ∈ A0) → (st.doc.annots.map Annot.id).Nodup →
      AnnotationInvariant st.doc →
      AnnotationInvariant ((L.foldl removeAssociationCascade st)).doc
  | [], _, _, _, _, h => h
  | a :: L, st, hsub, hL, hannNd, h => by
    rw [List.foldl_cons]
    refine annInv_remAssocs_aux hnd L _ ?_
      (fun x hx => hL x (List.mem_cons_of_mem _ hx))
      (annots_nodup_sublist (cascade_annots_sublist st a) hannNd)
      (annInv_cascade hnd hannNd hsub (hL a (List.mem_cons_self _ _)) h)
    intro b hb
    exact hsub b ((cascade_stepEffects st a).2.1 b hb)

theorem annInv_remAssocs {st : MaskSt} (elId : String)
    (hnd : (st.doc.assocs.map Assoc.id).Nodup)
    (hannNd : (st.doc.annots.map Annot.id).Nodup)
    (h : AnnotationInvariant st.doc) :
    AnnotationInvariant (removeAllAssociationsTouchingId st elId).doc := by
  unfold removeAllAssociationsTouchingId
  refine annInv_remAssocs_aux hnd _ st (fun b hb => hb) ?_ hannNd h
  intro a ha
  exact (List.mem_filter.mp ha).1

theorem cascade_fold_annots_sublist :
    ∀ (L : List Assoc) (st : MaskSt),
      List.Sublist ((L.foldl removeAssociationCascade st)).doc.annots
        st.doc.annots
  | [], _ => List.Sublist.refl _
  | a :: L, st => by
    rw [List.foldl_cons]
    exact (cascade_fold_annots_sublist L _).trans
      (cascade_annots_sublist st a)

theorem nodup_assocs_filter {l : List Assoc} (p : Assoc → Bool)
    (h : (l.map Assoc.id).Nodup) :
    ((l.filter p).map Assoc.id).Nodup :=
  (List.Sublist.map Assoc.id (List.filter_sublist l)).nodup h

theorem cascade_fold_nodup : ∀ (L : List Assoc) (st : MaskSt),
    (st.doc.assocs.map Assoc.id).Nodup →
    (((L.foldl removeAssociationCascade st)).doc.assocs.map Assoc.id).Nodup
  | [], _, h => h
  | a :: L, st, h => by
    rw [List.foldl_cons]
    refine cascade_fold_nodup L _ ?_
    rw [cascade_assocs]
    exact nodup_assocs_filter _ h

/-- Duplicate-free association and annotation ids together with the
annotation orphan invariant, preserved through a whole masking run. -/
def AnnOK (st : MaskSt) : Prop :=
  (st.doc.assocs.map Assoc.id).Nodup ∧
  (st.doc.annots.map Annot.id).Nodup ∧
  AnnotationInvariant st.doc

theorem annOK_synthPair (st : MaskSt) (src tgt : String) (h : AnnOK st) :
    AnnOK (synthPair st src tgt) := by
  unfold synthPair
  split_ifs
  all_goals exact h

theorem annOK_remAssocs (st : MaskSt) (elId : String) (h : AnnOK st) :
    AnnOK (removeAllAssociationsTouchingId st elId) := by
  refine ⟨?_, ?_, ?_⟩
  · unfold removeAllAssociationsTouchingId
    exact cascade_fold_nodup _ st h.1
  · refine annots_nodup_sublist ?_ h.2.1
    unfold removeAllAssociationsTouchingId
    exact cascade_fold_annots_sublist _ st
  · exact annInv_remAssocs elId h.1 h.2.1 h.2.2

theorem annOK_removeFlowStep (st : MaskSt) (f : Flow) (h : AnnOK st) :
    AnnOK (removeFlowStep st f) := by
  by_cases h0 : f.id = "" ∨ f.id ∈ st.removedFlowIds
  · rw [removeFlowStep_skip st f h0]
    exact h
  · rw [removeFlowStep_eq st f h0]
    exact annOK_remAssocs st f.id h

theorem foldl_pres {α : Type} {P : MaskSt → Prop} {g : MaskSt → α → MaskSt}
    (hg : ∀ st x, P st → P (g st x)) :
    ∀ (L : List α) (st : MaskSt), P st → P (L.foldl g st)
  | [], _, h => h
  | x :: L, st, h => by
    rw [List.foldl_cons]
    exact foldl_pres hg L (g st x) (hg st x h)

theorem annOK_outerStep (flows0 : List Flow) (masked : List String)
    (st : MaskSt) (mid : String) (h : AnnOK st) :
    AnnOK (maskOuterStep flows0 masked st mid) := by
  rw [maskOuterStep_eq]
  have h1 : AnnOK (synthAll flows0 masked st) := by
    unfold synthAll
    refine foldl_pres ?_ masked st h
    intro st' m hm
    rw [synthNode_eq]
    refine foldl_pres ?_ _ st' hm
    intro st'' src hs
    exact foldl_pres (fun s t => annOK_synthPair s src t) _ st'' hs
  have h2 : AnnOK (outerStage2 flows0 masked st mid) :=
    foldl_pres (fun s f => annOK_removeFlowStep s f) _ _ h1
  have h3 : AnnOK (removeAllAssociationsTouchingId
      (outerStage2 flows0 masked st mid) mid) :=
    annOK_remAssocs _ mid h2
  have h4 : AnnOK (outerStage4 flows0 masked st mid) := by
    simp only [outerStage4]
    split_ifs
    · exact h3
    · exact h3
  exact h4

theorem annOK_run (doc : Doc) (threshold : ℚ) (dir : PrivacyDir)
    (h : AnnOK ⟨ensurePlane doc, 0, [], [], []⟩) :
    AnnOK (runState doc threshold dir) :=
  foldl_pres (fun s m => annOK_outerStep doc.flows
    (maskedIdsOf doc threshold dir) s m) _ _ h


/-- C6 (amended): the deletion sequences of a masking run — association
cascades, flow removals and node removals — preserve the annotation orphan
invariant: if every annotation of a document with duplicate-free
association and annotation ids (XML id uniqueness) has a referencing
association, the same holds after `maskByPrivacy`.  (As stated over the
cleanup pass the claim is refuted by `C6_cleanup_orphans_annotation`.) -/
theorem C6_masking_preserves_annotations (doc : Doc) (threshold : ℚ)
    (dir : PrivacyDir) (hnd : (doc.assocs.map Assoc.id).Nodup)
    (hndT : (doc.annots.map Annot.id).Nodup)
    (hann : AnnotationInvariant doc) :
    AnnotationInvariant (maskByPrivacy doc threshold dir).1 := by
  by_cases hmask : maskedIdsOf doc threshold dir = []
  · rw [maskByPrivacy_empty doc threshold dir hmask]
    exact fun ta hta => hann ta hta
  · rw [maskByPrivacy_eq doc threshold dir hmask]
    exact (annOK_run doc threshold dir ⟨hnd, hndT, hann⟩).2.2

/-- A process with an annotation attached (through an association) to the
masked node `M`: the cascade must delete the annotation with it. -/
def wDocC6 : Doc :=
  { tasks := [⟨"A", some 0⟩, ⟨"M", some 1⟩],
    flows := [⟨"F1", "A", "M", none⟩],
    assocs := [⟨"As1", "TA1", "M"⟩],
    annots := [⟨"TA1"⟩],
    groups := [],
    shapes := [⟨"A"⟩, ⟨"M"⟩, ⟨"TA1"⟩],
    diEdges := [⟨"F1"⟩, ⟨"As1"⟩],
    hasPlane := true }

theorem C6_masking_preserves_annotations_witness :
    AnnotationInvariant (maskByPrivacy wDocC6 1 PrivacyDir.above).1 :=
  C6_masking_preserves_annotations wDocC6 1 PrivacyDir.above
    (by decide) (by decide) (by decide)

/-! ### Dangling references after masking (claim C9) -/

/-- Counterexample to C9 as stated: a flow whose id is the empty string is
skipped by the excise phase (`if (!fid ...) return`), so it survives the
run even though its source is a deleted masked node. -/
theorem C9_empty_id_flow_dangles :
    "M" ∈ maskedIdsOf ⟨[⟨"M", some 1⟩, ⟨"B", some 0⟩],
      [⟨"", "M", "B", none⟩], [], [], [], [⟨"M"⟩, ⟨"B"⟩], [], true⟩
      1 PrivacyDir.above ∧
    (∀ t ∈ (maskByPrivacy ⟨[⟨"M", some 1⟩, ⟨"B", some 0⟩],
      [⟨"", "M", "B", none⟩], [], [], [], [⟨"M"⟩, ⟨"B"⟩], [], true⟩
      1 PrivacyDir.above).1.tasks, t.id ≠ "M") ∧
    ∃ f ∈ (maskByPrivacy ⟨[⟨"M", some 1⟩, ⟨"B", some 0⟩],
      [⟨"", "M", "B", none⟩], [], [], [], [⟨"M"⟩, ⟨"B"⟩], [], true⟩
      1 PrivacyDir.above).1.flows, f.src = "M" := by
  refine ⟨by decide, by decide, ?_⟩
  decide

/-- C9 (amended): provided every flow of the document carries a nonempty
id, no surviving flow, association, layout shape, or task references a
masked (hence deleted) node id after the run. -/
theorem C9_no_dangling_references (doc : Doc) (threshold : ℚ)
    (dir : PrivacyDir) (hdoc : DocOK doc)
    (harrow : ∀ f ∈ doc.flows, ('→' : Char) ∉ f.src.data ∧
      ('→' : Char) ∉ f.tgt.data)
    (hid : ∀ f ∈ doc.flows, f.id ≠ "") :
    ∀ mid ∈ maskedIdsOf doc threshold dir,
      (∀ f ∈ (maskByPrivacy doc threshold dir).1.flows,
        f.src ≠ mid ∧ f.tgt ≠ mid) ∧
      (∀ a ∈ (maskByPrivacy doc threshold dir).1.assocs,
        a.src ≠ mid ∧ a.tgt ≠ mid) ∧
      (∀ s ∈ (maskByPrivacy doc threshold dir).1.shapes, s.elem ≠ mid) ∧
      (∀ t ∈ (maskByPrivacy doc threshold dir).1.tasks, t.id ≠ mid) := by
  intro mid hmid
  have hmask : maskedIdsOf doc threshold dir ≠ [] := by
    intro he
    rw [he] at hmid
    exact List.not_mem_nil _ hmid
  obtain ⟨hrun, _, _⟩ := runState_master doc threshold dir
    hdoc.flowsNodup hdoc.noAuto harrow hmask
  have hmd := runState_midDone doc threshold dir hid mid hmid
  rw [maskByPrivacy_eq doc threshold dir hmask]
  refine ⟨?_, hmd.2.1, hmd.2.2.1, hmd.2.2.2⟩
  intro f hf
  constructor
  · intro heq
    rcases hrun.flowsProv f hf with hforig | hfauto
    · have hrem : f.id ∈ (runState doc threshold dir).removedFlowIds :=
        hmd.1 f hforig (.inl heq)
      exact hrun.removedGone f.id hrem f hf rfl
    · have hcre := hrun.created f (hrun.autoProv f hf hfauto)
      refine hcre.2.1 ?_
      rw [heq]
      exact hmid
  · intro heq
    rcases hrun.flowsProv f hf with hforig | hfauto
    · have hrem : f.id ∈ (runState doc threshold dir).removedFlowIds :=
        hmd.1 f hforig (.inr heq)
      exact hrun.removedGone f.id hrem f hf rfl
    · have hcre := hrun.created f (hrun.autoProv f hf hfauto)
      refine hcre.2.2.1 ?_
      rw [heq]
      exact hmid

theorem C9_no_dangling_references_witness :
    "M" ∈ maskedIdsOf wDoc 1 PrivacyDir.above ∧
    ∀ f ∈ (maskByPrivacy wDoc 1 PrivacyDir.above).1.flows,
      f.src ≠ "M" ∧ f.tgt ≠ "M" :=
  ⟨by decide, (C9_no_dangling_references wDoc 1 PrivacyDir.above
    ⟨by decide, by decide, by decide, by decide⟩ (by decide) (by decide)
    "M" (by decide)).1⟩

end BPTrans
